import Mathlib

/-!
Verification development for the person reconciliation service.

The service deduplicates person records sharing one RRN (national registry
number) across graphs of a quad store.  This file gives a shallow embedding
of the service's support module (queries, master construction, rewrite
updates) and of the HTTP handlers, and proves or refutes the specified
properties about them.

Modelling conventions:
* The triple store is a list of quads with set-like (membership based)
  semantics; SPARQL result ordering, which the store does not guarantee,
  is modelled by the enumeration order of the list.
* JavaScript objects holding string-valued resource attributes are
  association lists; a missing key models an absent property, and JS
  truthiness of an attribute is "present and not the empty string".
* JavaScript runtime errors (e.g. dereferencing null) are Except.error.
* The DELETE template of deleteSlaveData carries no GRAPH wrapper in the
  source; per the specification the deletion is scoped to the slave's
  partition, so it is modelled as removing matches from that graph.
* Typed literals (xsd:date) are modelled as plain literals; the datatype
  tag plays no role in any of the queries or updates of the service.
-/

/-- An RDF term in object position: a URI or a literal. -/
inductive Node where
  | uri (s : String)
  | lit (s : String)
deriving DecidableEq, Repr

/-- The lexical value of a term, as exposed by a SPARQL binding's value field. -/
def Node.val : Node → String
  | .uri s => s
  | .lit s => s

/-- One quad of the store: a triple together with the graph holding it. -/
structure Quad where
  graph : String
  subj : String
  pred : String
  obj : Node
deriving DecidableEq, Repr

/-- The triple store: a list of quads with membership-based semantics. -/
abbrev Store := List Quad

/-- Vocabulary: rdf:type. -/
def rdfType : String := "http://www.w3.org/1999/02/22-rdf-syntax-ns#type"

/-- Vocabulary: person:Person. -/
def personPerson : String := "http://www.w3.org/ns/person#Person"

/-- Vocabulary: mu:uuid. -/
def muUuid : String := "http://mu.semte.ch/vocabularies/core/uuid"

/-- Vocabulary: adms:identifier. -/
def admsIdentifier : String := "http://www.w3.org/ns/adms#identifier"

/-- Vocabulary: adms:Identifier (the class). -/
def admsIdentifierClass : String := "http://www.w3.org/ns/adms#Identifier"

/-- Vocabulary: skos:notation. -/
def skosNotationP : String := "http://www.w3.org/2004/02/skos/core#notation"

/-- Vocabulary: foaf:familyName. -/
def foafFamilyName : String := "http://xmlns.com/foaf/0.1/familyName"

/-- Vocabulary: foaf:name. -/
def foafName : String := "http://xmlns.com/foaf/0.1/name"

/-- Vocabulary: persoon:gebruikteVoornaam. -/
def persoonGebruikteVoornaam : String := "http://data.vlaanderen.be/ns/persoon#gebruikteVoornaam"

/-- Vocabulary: persoon:heeftGeboorte. -/
def persoonHeeftGeboorte : String := "http://data.vlaanderen.be/ns/persoon#heeftGeboorte"

/-- Vocabulary: persoon:Geboorte (the class). -/
def persoonGeboorte : String := "http://data.vlaanderen.be/ns/persoon#Geboorte"

/-- Vocabulary: persoon:datum. -/
def persoonDatum : String := "http://data.vlaanderen.be/ns/persoon#datum"

/-- Vocabulary: persoon:geslacht. -/
def persoonGeslacht : String := "http://data.vlaanderen.be/ns/persoon#geslacht"

/-- Vocabulary: owl:sameAs. -/
def owlSameAs : String := "http://www.w3.org/2002/07/owl#sameAs"

/-- All objects of triples (g, s, p, _) in the store, in store order. -/
def objsOf (st : Store) (g s p : String) : List Node :=
  st.filterMap fun q =>
    if q.graph = g ∧ q.subj = s ∧ q.pred = p then some q.obj else none

/-- The URI objects among the objects of (g, s, p, _); literals cannot be
reused in subject position by the SPARQL patterns. -/
def uriObjsOf (st : Store) (g s p : String) : List String :=
  (objsOf st g s p).filterMap fun n =>
    match n with
    | .uri u => some u
    | .lit _ => none

/-- Helper for dedupFirst: drops elements already seen. -/
def dedupFirstAux [DecidableEq α] (seen : List α) : List α → List α
  | [] => []
  | a :: l => if a ∈ seen then dedupFirstAux seen l else a :: dedupFirstAux (a :: seen) l

/-- Deduplication keeping the first occurrence, modelling SELECT DISTINCT
over an implementation-ordered result list. -/
def dedupFirst [DecidableEq α] (l : List α) : List α :=
  dedupFirstAux [] l

/-- Membership in objsOf is membership of the corresponding quad. -/
theorem mem_objsOf {st : Store} {g s p : String} {n : Node} :
    n ∈ objsOf st g s p ↔ Quad.mk g s p n ∈ st := by
  unfold objsOf
  rw [List.mem_filterMap]
  constructor
  · rintro ⟨q, hq, hif⟩
    by_cases hc : q.graph = g ∧ q.subj = s ∧ q.pred = p
    · obtain ⟨h1, h2, h3⟩ := hc
      rw [if_pos ⟨h1, h2, h3⟩] at hif
      cases q
      simp_all
    · rw [if_neg hc] at hif
      exact absurd hif (by simp)
  · intro hq
    exact ⟨Quad.mk g s p n, hq, by simp⟩

/-- Membership in uriObjsOf is membership of the corresponding quad. -/
theorem mem_uriObjsOf {st : Store} {g s p : String} {u : String} :
    u ∈ uriObjsOf st g s p ↔ Quad.mk g s p (Node.uri u) ∈ st := by
  unfold uriObjsOf
  rw [List.mem_filterMap]
  constructor
  · rintro ⟨n, hn, hmatch⟩
    match n with
    | .uri v =>
      simp only [Option.some.injEq] at hmatch
      subst hmatch
      exact mem_objsOf.mp hn
    | .lit v => exact absurd hmatch (by simp)
  · intro hq
    exact ⟨Node.uri u, mem_objsOf.mpr hq, rfl⟩

/-- A JavaScript resource object: an association list of attributes.
The first entry for a key wins, mirroring property lookup. -/
abbrev Rec := List (String × String)

/-- Property lookup on a resource object. -/
def getProp (r : Rec) (p : String) : Option String :=
  (r.find? fun kv => kv.1 = p).map (·.2)

/-- JS truthiness of a string-valued property: present and non-empty. -/
def truthyProp (r : Rec) (p : String) : Bool :=
  match getProp r p with
  | some v => ¬ v = ""
  | none => false

/-- An optional association-list entry: present exactly when the binding is. -/
def optEntry (k : String) : Option String → Rec
  | some v => [(k, v)]
  | none => []

/-- One fetched slave: the graph and the person, identifier and (optional)
birthdate resources returned by getPerson. -/
structure Bundle where
  graph : String
  person : Rec
  identifier : Rec
  birthdate : Option Rec
deriving DecidableEq, Repr

/-- The constructed master record: person, identifier and birthdate
resources, each possibly null. -/
structure Master where
  person : Option Rec
  identifier : Option Rec
  birthdate : Option Rec
deriving DecidableEq, Repr

/-- Candidate pairs (graph, person URI) for one RRN: the semantics of the
getDuplicatePersonUris query.  A pair qualifies when the person is typed,
linked to an identifier whose notation is the RRN, in its graph, and some
differing person with the same notation exists in some graph.  SELECT
DISTINCT is rendered by deduplication over the type-triple enumeration. -/
def hasKeyIdentifier (st : Store) (g p rrn : String) : Prop :=
  ∃ i, Quad.mk g p admsIdentifier (Node.uri i) ∈ st ∧
    Quad.mk g i skosNotationP (Node.lit rrn) ∈ st

instance (st : Store) (g p rrn : String) : Decidable (hasKeyIdentifier st g p rrn) := by
  refine decidable_of_iff
    (∃ i ∈ uriObjsOf st g p admsIdentifier,
      Quad.mk g i skosNotationP (Node.lit rrn) ∈ st) ?_
  unfold hasKeyIdentifier
  constructor
  · rintro ⟨i, hi, hn⟩
    exact ⟨i, mem_uriObjsOf.mp hi, hn⟩
  · rintro ⟨i, hi, hn⟩
    exact ⟨i, mem_uriObjsOf.mpr hi, hn⟩

/-- Whether the person is typed person:Person in the graph. -/
def isTypedPerson (st : Store) (g p : String) : Prop :=
  Quad.mk g p rdfType (Node.uri personPerson) ∈ st

instance (st : Store) (g p : String) : Decidable (isTypedPerson st g p) := by
  unfold isTypedPerson
  infer_instance

/-- The full duplicate pattern for a (graph, person) pair and an RRN. -/
def keyPatterned (st : Store) (g p rrn : String) : Prop :=
  isTypedPerson st g p ∧ hasKeyIdentifier st g p rrn

instance (st : Store) (g p rrn : String) : Decidable (keyPatterned st g p rrn) := by
  unfold keyPatterned
  infer_instance

/-- Whether some person with a differing URI carries the RRN somewhere. -/
def hasOtherDuplicate (st : Store) (p rrn : String) : Prop :=
  ∃ h p2, ¬ p2 = p ∧ keyPatterned st h p2 rrn

instance (st : Store) (p rrn : String) : Decidable (hasOtherDuplicate st p rrn) := by
  unfold hasOtherDuplicate
  refine decidable_of_iff
    (∃ q ∈ st, q.pred = rdfType ∧ q.obj = Node.uri personPerson ∧
      ¬ q.subj = p ∧ keyPatterned st q.graph q.subj rrn) ?_
  constructor
  · rintro ⟨q, _, _, _, hne, hk⟩
    exact ⟨q.graph, q.subj, hne, hk⟩
  · rintro ⟨h, p2, hne, hk⟩
    exact ⟨Quad.mk h p2 rdfType (Node.uri personPerson), hk.1, rfl, rfl, hne, hk⟩

/-- Semantics of the getDuplicatePersonUris query: ordered distinct
(graph, person) pairs matching the duplicate pattern for the RRN. -/
def getDuplicatePersonUris (st : Store) (rrn : String) : List (String × String) :=
  dedupFirst <|
    (st.filterMap fun q =>
      if q.pred = rdfType ∧ q.obj = Node.uri personPerson then
        some (q.graph, q.subj)
      else none).filter fun gp =>
        decide (hasKeyIdentifier st gp.1 gp.2 rrn) &&
        decide (hasOtherDuplicate st gp.2 rrn)

/-- Whether the person carries a mu:uuid in the graph. -/
def hasUuid (st : Store) (g p : String) : Prop :=
  ∃ u, Quad.mk g p muUuid u ∈ st

instance (st : Store) (g p : String) : Decidable (hasUuid st g p) := by
  refine decidable_of_iff (∃ u ∈ objsOf st g p muUuid, True) ?_
  unfold hasUuid
  constructor
  · rintro ⟨u, hu, -⟩
    exact ⟨u, mem_objsOf.mp hu⟩
  · rintro ⟨u, hu⟩
    exact ⟨u, mem_objsOf.mpr hu, trivial⟩

/-- Semantics of the getDuplicateIdentificators query (the duplicate key
finder): distinct RRNs for which two differing typed persons with uuids
carry identifiers with that notation, enumerated over notation triples. -/
def finderPatterned (st : Store) (g p rrn : String) : Prop :=
  keyPatterned st g p rrn ∧ hasUuid st g p

instance (st : Store) (g p rrn : String) : Decidable (finderPatterned st g p rrn) := by
  unfold finderPatterned
  infer_instance

/-- Whether an RRN is reported by the duplicate key finder. -/
def finderReports (st : Store) (rrn : String) : Prop :=
  ∃ g p h p2, ¬ p = p2 ∧ finderPatterned st g p rrn ∧ finderPatterned st h p2 rrn

instance (st : Store) (rrn : String) : Decidable (finderReports st rrn) := by
  unfold finderReports
  refine decidable_of_iff
    (∃ q ∈ st, q.pred = rdfType ∧ q.obj = Node.uri personPerson ∧
      finderPatterned st q.graph q.subj rrn ∧
      ∃ q2 ∈ st, q2.pred = rdfType ∧ q2.obj = Node.uri personPerson ∧
        ¬ q.subj = q2.subj ∧ finderPatterned st q2.graph q2.subj rrn) ?_
  constructor
  · rintro ⟨q, _, _, _, h1, q2, _, _, _, hne, h2⟩
    exact ⟨q.graph, q.subj, q2.graph, q2.subj, hne, h1, h2⟩
  · rintro ⟨g, p, h, p2, hne, h1, h2⟩
    exact ⟨Quad.mk g p rdfType (Node.uri personPerson), h1.1.1, rfl, rfl, h1,
      Quad.mk h p2 rdfType (Node.uri personPerson), h2.1.1, rfl, rfl, hne, h2⟩

/-- Semantics of getDuplicateIdentificators: the distinct reported RRNs,
enumerated over the store's notation literals. -/
def getDuplicateIdentificators (st : Store) : List String :=
  dedupFirst <|
    (st.filterMap fun q =>
      if q.pred = skosNotationP then
        match q.obj with
        | Node.lit rrn => some rrn
        | Node.uri _ => none
      else none).filter fun rrn => decide (finderReports st rrn)

/-- One SPARQL solution of the getPerson query: mandatory uuid and
identifier bindings plus the optional ones, with values as lexical
strings as the service reads them. -/
structure PBinding where
  uuid : String
  identifier : String
  familyName : Option String
  name : Option String
  firstName : Option String
  birthdate : Option String
  geboorteUuid : Option String
  date : Option String
  identifierUuid : Option String
  gender : Option String
  notat : Option String
deriving DecidableEq, Repr

/-- Solutions of an OPTIONAL block: each match, or a single unbound row
when nothing matches. -/
def optRows (xs : List Node) : List (Option Node) :=
  match xs with
  | [] => [none]
  | _ => xs.map some

/-- Property objects reachable from a bound term used in subject
position: a literal binding matches no further pattern. -/
def nodeObjs (st : Store) (g : String) (n : Node) (p : String) : List Node :=
  match n with
  | .uri nu => objsOf st g nu p
  | .lit _ => []

/-- Solutions of the nested birthdate OPTIONAL block: the birth event with
its own optional uuid and date. -/
def birthRows (st : Store) (g uri : String) : List (Option Node × Option Node × Option Node) :=
  match objsOf st g uri persoonHeeftGeboorte with
  | [] => [(none, none, none)]
  | bs => bs.flatMap fun b =>
      (optRows (nodeObjs st g b muUuid)).flatMap fun gu =>
        (optRows (nodeObjs st g b persoonDatum)).map fun dt => (some b, gu, dt)

/-- All solutions of the getPerson query, in the modelled enumeration
order (mandatory patterns first, then the optional blocks in query
order). -/
def personBindings (st : Store) (g uri : String) : List PBinding :=
  (objsOf st g uri muUuid).flatMap fun u =>
  (objsOf st g uri admsIdentifier).flatMap fun i =>
  (optRows (objsOf st g uri foafFamilyName)).flatMap fun fn =>
  (optRows (objsOf st g uri foafName)).flatMap fun nm =>
  (optRows (objsOf st g uri persoonGebruikteVoornaam)).flatMap fun fs =>
  (birthRows st g uri).flatMap fun bgd =>
  (optRows (nodeObjs st g i muUuid)).flatMap fun iu =>
  (optRows (nodeObjs st g i skosNotationP)).flatMap fun nt =>
  (optRows (objsOf st g uri persoonGeslacht)).map fun gd =>
    { uuid := u.val
      identifier := i.val
      familyName := fn.map Node.val
      name := nm.map Node.val
      firstName := fs.map Node.val
      birthdate := bgd.1.map Node.val
      geboorteUuid := bgd.2.1.map Node.val
      date := bgd.2.2.map Node.val
      identifierUuid := iu.map Node.val
      gender := gd.map Node.val
      notat := nt.map Node.val }

/-- Semantics of getPerson: null when the query has no solution, else the
resource bundle built from the first solution. -/
def getPerson (st : Store) (graph uri : String) : Option Bundle :=
  match personBindings st graph uri with
  | [] => none
  | b :: _ =>
    let person : Rec :=
      [("uri", uri), ("uuid", b.uuid), ("identifier", b.identifier)]
        ++ optEntry "familyName" b.familyName
        ++ optEntry "name" b.name
        ++ optEntry "firstName" b.firstName
        ++ optEntry "gender" b.gender
        ++ optEntry "birthdate" b.birthdate
    let ident : Rec :=
      [("uri", b.identifier)]
        ++ optEntry "uuid" b.identifierUuid
        ++ optEntry "notation" b.notat
    let birth : Option Rec := b.birthdate.map fun bu =>
      [("uri", bu)] ++ optEntry "uuid" b.geboorteUuid ++ optEntry "date" b.date
    some { graph := graph, person := person, identifier := ident, birthdate := birth }

/-- Person attributes merged by constructMaster. -/
def personProps : List String := ["uri", "uuid", "familyName", "name", "firstName", "gender"]

/-- Identifier attributes merged by constructMaster. -/
def identifierProps : List String := ["uri", "uuid", "notation"]

/-- Birthdate attributes merged by constructMaster. -/
def birthdateProps : List String := ["uri", "uuid", "date"]

/-- One merge entry of constructMasterForResource: the inner for-loop
body for one property, yielding the entry taken from the first slave with
a truthy value for it. -/
def mergeEntry (slaves : List Rec) (pr : String) : Option (String × String) :=
  match slaves.find? (fun s => truthyProp s pr) with
  | some s => (getProp s pr).map fun v => (pr, v)
  | none => none

/-- Merging of one resource kind in constructMaster: null resources are
filtered out, then each property takes the value of the first resource
with a truthy value for it; the result is null when no property was set. -/
def constructMasterForResource (resources : List (Option Rec)) (props : List String) : Option Rec :=
  let slaves := resources.filterMap id
  let master : Rec := props.filterMap (mergeEntry slaves)
  if master.isEmpty then none else some master

/-- Semantics of constructMaster: fails (a JS TypeError) when some slave
bundle is null, else merges the three resource kinds independently and
rewires the person's identifier and birthdate links to the merged
sub-records. -/
def constructMaster (slaves : List (Option Bundle)) : Except Unit Master :=
  if slaves.any fun s => s.isNone then .error ()
  else
    let bs := slaves.filterMap id
    let person := constructMasterForResource (bs.map fun b => some b.person) personProps
    let ident := constructMasterForResource (bs.map fun b => some b.identifier) identifierProps
    let birth := constructMasterForResource (bs.map fun b => b.birthdate) birthdateProps
    let person := person.map fun p =>
      let p := match ident.bind fun i => getProp i "uri" with
        | some u => p ++ [("identifier", u)]
        | none => p
      match birth.bind fun b => getProp b "uri" with
        | some u => p ++ [("birthdate", u)]
        | none => p
    .ok { person := person, identifier := ident, birthdate := birth }

/-- Absence of a value where JavaScript would pass undefined or null into
a sparql escape helper is a runtime failure. -/
def require (o : Option α) : Except Unit α :=
  match o with
  | some a => .ok a
  | none => .error ()

/-- A conditionally pushed statement of insertMasterData: emitted exactly
when the attribute is truthy on the resource. -/
def optStmt (r : Rec) (p : String) (mk : String → String × String × Node) :
    List (String × String × Node) :=
  match getProp r p with
  | some v => if v = "" then [] else [mk v]
  | none => []

/-- The triples of the INSERT DATA statement of insertMasterData, or a
runtime failure when a mandatory attribute is absent.  Statement order
follows the source. -/
def masterTriplesE (m : Master) : Except Unit (List (String × String × Node)) := do
  let p ← require m.person
  let pu ← require (getProp p "uri")
  let puuid ← require (getProp p "uuid")
  let personStmts :=
    [(pu, rdfType, Node.uri personPerson), (pu, muUuid, Node.lit puuid)]
    ++ optStmt p "familyName" (fun v => (pu, foafFamilyName, Node.lit v))
    ++ optStmt p "name" (fun v => (pu, foafName, Node.lit v))
    ++ optStmt p "firstName" (fun v => (pu, persoonGebruikteVoornaam, Node.lit v))
    ++ optStmt p "identifier" (fun v => (pu, admsIdentifier, Node.uri v))
    ++ optStmt p "birthdate" (fun v => (pu, persoonHeeftGeboorte, Node.uri v))
    ++ optStmt p "gender" (fun v => (pu, persoonGeslacht, Node.uri v))
  let identStmts ← match m.identifier with
    | none => pure []
    | some i => do
        let iu ← require (getProp i "uri")
        pure ([(iu, rdfType, Node.uri admsIdentifierClass)]
          ++ optStmt i "uuid" (fun v => (iu, muUuid, Node.lit v))
          ++ optStmt i "notation" (fun v => (iu, skosNotationP, Node.lit v)))
  let birthStmts ← match m.birthdate with
    | none => pure []
    | some b => do
        let bu ← require (getProp b "uri")
        pure ([(bu, rdfType, Node.uri persoonGeboorte)]
          ++ optStmt b "uuid" (fun v => (bu, muUuid, Node.lit v))
          ++ optStmt b "date" (fun v => (bu, persoonDatum, Node.lit v)))
  pure (personStmts ++ identStmts ++ birthStmts)

/-- Total variant of the master triples, used to give the insert update
its semantics; the error branch is unreachable in a run, since statement
construction precedes the update call. -/
def masterQuads (g : String) (m : Master) : List Quad :=
  match masterTriplesE m with
  | .ok ts => ts.map fun t => Quad.mk g t.1 t.2.1 t.2.2
  | .error _ => []

/-- One update statement issued by the rewrite phase.  replaceSlaveUris
issues two updates, modelled as separate replaceSubj and replaceObj
operations. -/
inductive StoreOp where
  | deleteSlave (graph uri : String)
  | insertMaster (graph : String) (m : Master)
  | replaceSubj (graph masterUri slaveUri : String)
  | replaceObj (graph masterUri slaveUri : String)
  | insertSameAs (graph masterUri slaveUri : String)
deriving DecidableEq, Repr

/-- The graph an update is scoped to. -/
def StoreOp.graphOf : StoreOp → String
  | .deleteSlave g _ => g
  | .insertMaster g _ => g
  | .replaceSubj g _ _ => g
  | .replaceObj g _ _ => g
  | .insertSameAs g _ _ => g

/-- Whether a quad is removed by the deleteSlaveData update for a person,
given the birth and identifier URIs bound by its WHERE clause.  The union
of the instantiated DELETE templates over all solutions removes, in the
slave's graph: the person's type/uuid/identifier/name/birth/gender
triples, each bound birth event's type/uuid/date triples, and each bound
identifier's type/uuid/notation triples. -/
def inDeleteSet (g uri : String) (births ids : List String) (q : Quad) : Prop :=
  q.graph = g ∧ (
    (q.subj = uri ∧ q.pred = rdfType ∧ q.obj = Node.uri personPerson) ∨
    (q.subj = uri ∧ q.pred ∈ [muUuid, admsIdentifier, foafFamilyName, foafName,
      persoonGebruikteVoornaam, persoonHeeftGeboorte, persoonGeslacht]) ∨
    (q.subj ∈ births ∧ (q.pred = muUuid ∨ q.pred = persoonDatum ∨
      (q.pred = rdfType ∧ q.obj = Node.uri persoonGeboorte))) ∨
    (q.subj ∈ ids ∧ (q.pred = muUuid ∨ q.pred = skosNotationP ∨
      (q.pred = rdfType ∧ q.obj = Node.uri admsIdentifierClass))))

instance (g uri : String) (births ids : List String) (q : Quad) :
    Decidable (inDeleteSet g uri births ids q) := by
  unfold inDeleteSet
  infer_instance

/-- Semantics of the deleteSlaveData update: a no-op when the mandatory
WHERE patterns (uuid and identifier) have no match, else removal of the
union of the instantiated DELETE templates. -/
def applyDeleteSlave (st : Store) (g uri : String) : Store :=
  if (objsOf st g uri muUuid).isEmpty || (objsOf st g uri admsIdentifier).isEmpty then st
  else
    let births := uriObjsOf st g uri persoonHeeftGeboorte
    let ids := uriObjsOf st g uri admsIdentifier
    st.filter fun q => ¬ inDeleteSet g uri births ids q

/-- Semantics of one update statement against the store.  replaceSubj and
replaceObj evaluate their WHERE against the current store, remove the
matched triples and insert the rewritten copies. -/
def applyOp (st : Store) (op : StoreOp) : Store :=
  match op with
  | .deleteSlave g uri => applyDeleteSlave st g uri
  | .insertMaster g m => st ++ masterQuads g m
  | .replaceSubj g mu su =>
      (st.filter fun q => ¬ (q.graph = g ∧ q.subj = su))
        ++ (st.filterMap fun q =>
            if q.graph = g ∧ q.subj = su then some { q with subj := mu } else none)
  | .replaceObj g mu su =>
      (st.filter fun q => ¬ (q.graph = g ∧ q.obj = Node.uri su))
        ++ (st.filterMap fun q =>
            if q.graph = g ∧ q.obj = Node.uri su then some { q with obj := Node.uri mu } else none)
  | .insertSameAs g mu su => st ++ [Quad.mk g su owlSameAs (Node.uri mu)]

/-- Application of a sequence of updates. -/
def applyOps (st : Store) (ops : List StoreOp) : Store :=
  ops.foldl applyOp st

/-- A missing URI where the source would dereference null or escape
undefined is a runtime failure.  The birthdate block of the rewrite
sequence, emitted only when the slave has a birthdate resource. -/
def replaceBirthOps (g : String) (m : Master) : Option Rec → Except Unit (List StoreOp)
  | none => .ok []
  | some sb => do
      let mb ← require m.birthdate
      let mbu ← require (getProp mb "uri")
      let sbu ← require (getProp sb "uri")
      pure [StoreOp.replaceSubj g mbu sbu, StoreOp.replaceObj g mbu sbu,
        StoreOp.insertSameAs g mbu sbu]

/-- The update sequence issued by replaceSlaveWithMaster for one slave
bundle, in source order: delete the slave data, insert the master data,
then for the person, the identifier and (when present) the birthdate
resource: replace the slave URI in subject then object position and
insert the owl:sameAs reference. -/
def replaceSlaveWithMasterOps (slave : Bundle) (m : Master) : Except Unit (List StoreOp) := do
  let g := slave.graph
  let spu ← require (getProp slave.person "uri")
  let delOp := StoreOp.deleteSlave g spu
  let _ ← masterTriplesE m
  let insOp := StoreOp.insertMaster g m
  let mp ← require m.person
  let mpu ← require (getProp mp "uri")
  let personOps := [StoreOp.replaceSubj g mpu spu, StoreOp.replaceObj g mpu spu,
    StoreOp.insertSameAs g mpu spu]
  let mi ← require m.identifier
  let miu ← require (getProp mi "uri")
  let siu ← require (getProp slave.identifier "uri")
  let identOps := [StoreOp.replaceSubj g miu siu, StoreOp.replaceObj g miu siu,
    StoreOp.insertSameAs g miu siu]
  let birthOps ← replaceBirthOps g m slave.birthdate
  pure ([delOp, insOp] ++ personOps ++ identOps ++ birthOps)

/-- The update sequences for all slaves of a run, concatenated in order. -/
def allSlaveOps (slaves : List (Option Bundle)) (m : Master) : Except Unit (List StoreOp) :=
  match slaves with
  | [] => .ok []
  | none :: _ => .error ()
  | some s :: rest => do
      let ops ← replaceSlaveWithMasterOps s m
      let more ← allSlaveOps rest m
      pure (ops ++ more)

/-- Semantics of reconciliatePerson: resolve the duplicate person URIs,
and when more than one is found fetch every slave, construct the master
and (unless this is a dry run) compute the updates of the rewrite loop.
The result carries the constructed master (none when fewer than two
candidates resolved) and the updates issued; failures are JS runtime
errors propagated to the caller. -/
def reconciliatePersonRun (st : Store) (rrn : String) (isDryRun : Bool) :
    Except Unit (Option Master × List StoreOp) := do
  let persons := getDuplicatePersonUris st rrn
  if 1 < persons.length then
    let slaves := persons.map fun gp => getPerson st gp.1 gp.2
    let master ← constructMaster slaves
    if isDryRun then
      pure (some master, [])
    else do
      let ops ← allSlaveOps slaves master
      pure (some master, ops)
  else
    pure (none, [])

/-- The shared prefix of both modes: resolve, fetch and build the master
(none when fewer than two candidates resolve). -/
def resolveAndBuildMaster (st : Store) (rrn : String) : Except Unit (Option Master) := do
  let persons := getDuplicatePersonUris st rrn
  if 1 < persons.length then
    let master ← constructMaster (persons.map fun gp => getPerson st gp.1 gp.2)
    pure (some master)
  else
    pure none

/-- The store after a live run, when it succeeds. -/
def runFinalStore (st : Store) (rrn : String) : Store :=
  match reconciliatePersonRun st rrn false with
  | .ok (_, ops) => applyOps st ops
  | .error _ => st

/-- Truthiness of the raw dry-run query parameter as the handlers use it:
an absent parameter or the empty string is falsy, any other string
(including the strings false and 0) is truthy. -/
def jsTruthyParam : Option String → Bool
  | none => false
  | some s => ¬ s = ""

/-- Outcome of an HTTP handler: a success status or a propagated error. -/
inductive HttpOutcome where
  | success (status : Nat)
  | failure
deriving DecidableEq, Repr

/-- The single-key endpoint POST /reconciliate/:rrn over the pure store
semantics: it passes the raw dry-run parameter as isDryRun, answers 204
on completion and propagates any error as a failure response. -/
def postReconciliateRrn (st : Store) (rrn : String) (dryRunParam : Option String) :
    HttpOutcome :=
  match reconciliatePersonRun st rrn (jsTruthyParam dryRunParam) with
  | .ok _ => .success 204
  | .error _ => .failure

/-- The single-key endpoint together with the run it performed, exposing
the master and updates for the frame conditions. -/
def postReconciliateRrnRun (st : Store) (rrn : String) (dryRunParam : Option String) :
    Except Unit (Option Master × List StoreOp) :=
  reconciliatePersonRun st rrn (jsTruthyParam dryRunParam)

/-- The sequential bulk loop over all duplicate RRNs: each key's updates
are applied before the next key is processed; an unhandled failure aborts
the remainder of the batch. -/
def reconciliateBulk (st : Store) (rrns : List String) (isDryRun : Bool) :
    Except Unit Store :=
  match rrns with
  | [] => .ok st
  | rrn :: rest => do
      let r ← reconciliatePersonRun st rrn isDryRun
      reconciliateBulk (applyOps st r.2) rest isDryRun

/-- The bulk endpoint POST /reconciliate: it resolves the duplicate RRNs,
starts the background batch with the raw dry-run parameter as isDryRun
and answers 202 immediately. -/
def postReconciliate (st : Store) (dryRunParam : Option String) :
    HttpOutcome × Except Unit Store :=
  (.success 202, reconciliateBulk st (getDuplicateIdentificators st) (jsTruthyParam dryRunParam))

/-- One store call (query or update) under a failure oracle deciding
whether the call with a given index fails.  The payload of a failure is
the number of calls attempted, including the failed one; a successful
call returns the next call index. -/
def callStep (oracle : Nat → Bool) (n : Nat) : Except Nat Nat :=
  if oracle n then .error (n + 1) else .ok (n + 1)

/-- Lift of a JS runtime failure into the call-counting run: it aborts
without attempting another store call. -/
def exceptTy (n : Nat) : Except Unit α → Except Nat α
  | .ok a => .ok a
  | .error _ => .error n

/-- The fetch loop of reconciliatePerson: one getPerson query call per
resolved candidate, against the store as read before any update. -/
def fetchCalls (oracle : Nat → Bool) (st : Store) :
    List (String × String) → Nat → Except Nat (List (Option Bundle) × Nat)
  | [], n => .ok ([], n)
  | gp :: rest, n => do
      let n2 ← callStep oracle n
      let r ← fetchCalls oracle st rest n2
      .ok (getPerson st gp.1 gp.2 :: r.1, r.2)

/-- The birthdate block of update calls, performed only when the slave
has a birthdate resource. -/
def birthCallsIO (oracle : Nat → Bool) (m : Master) : Option Rec → Nat → Except Nat Nat
  | none, n => pure n
  | some sb, n => do
      let _ ← exceptTy n (require (m.birthdate.bind fun b => getProp b "uri"))
      let _ ← exceptTy n (require (getProp sb "uri"))
      let n ← callStep oracle n
      let n ← callStep oracle n
      let n ← callStep oracle n
      pure n

/-- The update calls of replaceSlaveWithMaster for one slave, in source
order, with the JS attribute accesses interleaved where the source
performs them. -/
def slaveCallsIO (oracle : Nat → Bool) (slave : Bundle) (m : Master) (n : Nat) :
    Except Nat Nat := do
  let _ ← exceptTy n (require (getProp slave.person "uri"))
  let n ← callStep oracle n
  let _ ← exceptTy n (masterTriplesE m)
  let n ← callStep oracle n
  let _ ← exceptTy n (require (m.person.bind fun p => getProp p "uri"))
  let n ← callStep oracle n
  let n ← callStep oracle n
  let n ← callStep oracle n
  let _ ← exceptTy n (require (m.identifier.bind fun i => getProp i "uri"))
  let _ ← exceptTy n (require (getProp slave.identifier "uri"))
  let n ← callStep oracle n
  let n ← callStep oracle n
  let n ← callStep oracle n
  birthCallsIO oracle m slave.birthdate n

/-- The rewrite loop over all slaves under the failure oracle. -/
def slavesCallsIO (oracle : Nat → Bool) (m : Master) :
    List (Option Bundle) → Nat → Except Nat Nat
  | [], n => .ok n
  | none :: _, n => .error n
  | some s :: rest, n => do
      let n2 ← slaveCallsIO oracle s m n
      slavesCallsIO oracle m rest n2

/-- reconciliatePerson under the failure oracle: the resolver query is
call 0, then one fetch call per candidate, then the rewrite updates.  On
success the result carries the constructed master and the total number of
store calls; on failure the payload is the number of calls attempted. -/
def reconciliatePersonIO (oracle : Nat → Bool) (st : Store) (rrn : String) (dry : Bool) :
    Except Nat (Option Master × Nat) := do
  let n ← callStep oracle 0
  if 1 < (getDuplicatePersonUris st rrn).length then do
    let r ← fetchCalls oracle st (getDuplicatePersonUris st rrn) n
    let master ← exceptTy r.2 (constructMaster r.1)
    if dry then pure (some master, r.2)
    else do
      let n3 ← slavesCallsIO oracle master r.1 r.2
      pure (some master, n3)
  else pure (none, n)

/-- The single-key endpoint over the call-counting semantics. -/
def postReconciliateRrnIO (oracle : Nat → Bool) (st : Store) (rrn : String)
    (dryRunParam : Option String) : HttpOutcome :=
  match reconciliatePersonIO oracle st rrn (jsTruthyParam dryRunParam) with
  | .ok _ => .success 204
  | .error _ => .failure

/-- Lookup on a possibly null resource. -/
def optGetProp (r? : Option Rec) (p : String) : Option String :=
  r?.bind fun r => getProp r p

/-- Characterisation target for the master merge: for a merged property,
the value of the first non-null resource on which it is truthy; absent
for other properties. -/
def firstTruthyValue (resources : List (Option Rec)) (props : List String) (p : String) :
    Option String :=
  if p ∈ props then
    ((resources.filterMap id).find? fun s => truthyProp s p).bind fun s => getProp s p
  else none

/-- The distinct persons of a graph carrying the duplicate pattern for an
RRN, as an executable list. -/
def keyPatternedPersons (st : Store) (g rrn : String) : List String :=
  dedupFirst <|
    (st.filterMap fun q =>
      if q.graph = g ∧ q.pred = rdfType ∧ q.obj = Node.uri personPerson then
        some q.subj
      else none).filter fun p => decide (hasKeyIdentifier st g p rrn)

/-- The spec section 8 scenario: two partitions each holding an identity
for the key 123; the first has a name and no birth event, the second a
birth event and no name. -/
def scenarioStore : Store := [
  Quad.mk "http://g1" "http://p1" rdfType (Node.uri personPerson),
  Quad.mk "http://g1" "http://p1" muUuid (Node.lit "u1"),
  Quad.mk "http://g1" "http://p1" admsIdentifier (Node.uri "http://i1"),
  Quad.mk "http://g1" "http://p1" foafName (Node.lit "Jones"),
  Quad.mk "http://g1" "http://i1" rdfType (Node.uri admsIdentifierClass),
  Quad.mk "http://g1" "http://i1" muUuid (Node.lit "iu1"),
  Quad.mk "http://g1" "http://i1" skosNotationP (Node.lit "123"),
  Quad.mk "http://g2" "http://p2" rdfType (Node.uri personPerson),
  Quad.mk "http://g2" "http://p2" muUuid (Node.lit "u2"),
  Quad.mk "http://g2" "http://p2" admsIdentifier (Node.uri "http://i2"),
  Quad.mk "http://g2" "http://i2" skosNotationP (Node.lit "123"),
  Quad.mk "http://g2" "http://p2" persoonHeeftGeboorte (Node.uri "http://b2"),
  Quad.mk "http://g2" "http://b2" rdfType (Node.uri persoonGeboorte),
  Quad.mk "http://g2" "http://b2" muUuid (Node.lit "bu2"),
  Quad.mk "http://g2" "http://b2" persoonDatum (Node.lit "1980-01-01")]

/-- A store violating single-valuedness: the first candidate's identifier
carries a second notation that the store enumerates first. -/
def multiNotationStore : Store := [
  Quad.mk "g1" "P1" rdfType (Node.uri personPerson),
  Quad.mk "g1" "P1" muUuid (Node.lit "u1"),
  Quad.mk "g1" "P1" admsIdentifier (Node.uri "I1"),
  Quad.mk "g1" "I1" skosNotationP (Node.lit "other"),
  Quad.mk "g1" "I1" skosNotationP (Node.lit "123"),
  Quad.mk "g2" "P2" rdfType (Node.uri personPerson),
  Quad.mk "g2" "P2" muUuid (Node.lit "u2"),
  Quad.mk "g2" "P2" admsIdentifier (Node.uri "I2"),
  Quad.mk "g2" "I2" skosNotationP (Node.lit "123")]

/-- A store where a typed person of the second partition links to the
master's identifier URI, which carries no notation in that partition
before the run. -/
def crossLinkedStore : Store := [
  Quad.mk "g1" "P1" rdfType (Node.uri personPerson),
  Quad.mk "g1" "P1" muUuid (Node.lit "u1"),
  Quad.mk "g1" "P1" admsIdentifier (Node.uri "I1"),
  Quad.mk "g1" "I1" skosNotationP (Node.lit "123"),
  Quad.mk "g2" "P2" rdfType (Node.uri personPerson),
  Quad.mk "g2" "P2" muUuid (Node.lit "u2"),
  Quad.mk "g2" "P2" admsIdentifier (Node.uri "I2"),
  Quad.mk "g2" "I2" skosNotationP (Node.lit "123"),
  Quad.mk "g2" "X" rdfType (Node.uri personPerson),
  Quad.mk "g2" "X" muUuid (Node.lit "ux"),
  Quad.mk "g2" "X" admsIdentifier (Node.uri "I1")]

/-- A store whose second candidate has no mu:uuid, so its fetch finds
nothing and getPerson returns null. -/
def missingUuidStore : Store := [
  Quad.mk "g1" "P1" rdfType (Node.uri personPerson),
  Quad.mk "g1" "P1" muUuid (Node.lit "u1"),
  Quad.mk "g1" "P1" admsIdentifier (Node.uri "I1"),
  Quad.mk "g1" "I1" skosNotationP (Node.lit "123"),
  Quad.mk "g2" "P2" rdfType (Node.uri personPerson),
  Quad.mk "g2" "P2" admsIdentifier (Node.uri "I2"),
  Quad.mk "g2" "I2" skosNotationP (Node.lit "123")]

/-- Truthiness characterised through the lookup. -/
theorem truthyProp_iff {s : Rec} {p : String} :
    truthyProp s p = true ↔ ∃ v, getProp s p = some v ∧ ¬ v = "" := by
  unfold truthyProp
  cases h : getProp s p with
  | none => simp
  | some v => simp

/-- A merge entry is missing exactly when no slave is truthy for it. -/
theorem mergeEntry_eq_none {slaves : List Rec} {pr : String} :
    mergeEntry slaves pr = none ↔ (slaves.find? fun s => truthyProp s pr) = none := by
  unfold mergeEntry
  cases h : slaves.find? fun s => truthyProp s pr with
  | none => simp
  | some s =>
    have hs := List.find?_some h
    rcases truthyProp_iff.mp hs with ⟨v, hv, -⟩
    simp [hv]

/-- Lookup on a record headed by a matching entry. -/
theorem getProp_cons_self {kv : String × String} {l : Rec} {p : String} (h : kv.1 = p) :
    getProp (kv :: l) p = some kv.2 := by
  unfold getProp
  rw [List.find?_cons_of_pos _ (by simp [h])]
  rfl

/-- Lookup skips a non-matching head entry. -/
theorem getProp_cons_ne {kv : String × String} {l : Rec} {p : String} (h : ¬ kv.1 = p) :
    getProp (kv :: l) p = getProp l p := by
  unfold getProp
  rw [List.find?_cons_of_neg _ (by simp [h])]

/-- Lookup in the merged record of constructMasterForResource: the value
of the first truthy slave for a merged property. -/
theorem getProp_mergeList (slaves : List Rec) (props : List String) (p : String) :
    getProp (props.filterMap (mergeEntry slaves)) p =
      (if p ∈ props then
        (slaves.find? fun s => truthyProp s p).bind fun s => getProp s p
      else none) := by
  induction props with
  | nil => simp [getProp]
  | cons pr rest ih =>
    rw [List.filterMap_cons]
    cases hf : mergeEntry slaves pr with
    | none =>
      rw [mergeEntry_eq_none] at hf
      by_cases hpp : p = pr
      · subst hpp
        simp [hf, ih]
      · simp only [List.mem_cons, hpp, false_or]
        exact ih
    | some e =>
      obtain ⟨s, hs, v, hv, rfl⟩ :
          ∃ s, (slaves.find? fun t => truthyProp t pr) = some s ∧
            ∃ v, getProp s pr = some v ∧ e = (pr, v) := by
        unfold mergeEntry at hf
        cases hs : slaves.find? fun t => truthyProp t pr with
        | none => simp [hs] at hf
        | some s =>
          simp only [hs] at hf
          cases hv : getProp s pr with
          | none => simp [hv] at hf
          | some v =>
            rw [hv] at hf
            exact ⟨s, rfl, v, hv, by simpa using hf.symm⟩
      by_cases hpp : p = pr
      · subst hpp
        rw [getProp_cons_self rfl]
        simp [hs, hv]
      · rw [getProp_cons_ne (by simp [Ne.symm hpp])]
        simp only [List.mem_cons, hpp, false_or]
        exact ih

/-- Merged-record lookup equals the first-truthy-wins value. -/
theorem optGetProp_constructMasterForResource (resources : List (Option Rec))
    (props : List String) (p : String) :
    optGetProp (constructMasterForResource resources props) p =
      firstTruthyValue resources props p := by
  unfold constructMasterForResource firstTruthyValue
  have hm := getProp_mergeList (resources.filterMap id) props p
  cases hempty : (props.filterMap (mergeEntry (resources.filterMap id))).isEmpty with
  | true =>
    rw [List.isEmpty_iff] at hempty
    rw [hempty] at hm
    simp only [hempty, List.isEmpty_nil, if_true]
    simpa [optGetProp, getProp] using hm
  | false =>
    simp only [hempty, Bool.false_eq_true, if_false]
    simpa [optGetProp] using hm

/-- The merged record is null exactly when no property has a truthy
value on any non-null resource. -/
theorem constructMasterForResource_eq_none (resources : List (Option Rec))
    (props : List String) :
    constructMasterForResource resources props = none ↔
      ∀ p ∈ props, ((resources.filterMap id).find? fun s => truthyProp s p) = none := by
  unfold constructMasterForResource
  constructor
  · intro h p hp
    by_cases hempty : (props.filterMap (mergeEntry (resources.filterMap id))).isEmpty = true
    · rw [List.isEmpty_iff, List.filterMap_eq_nil_iff] at hempty
      exact mergeEntry_eq_none.mp (hempty p hp)
    · rw [if_neg hempty] at h
      exact absurd h (by simp)
  · intro hall
    have hnil : props.filterMap (mergeEntry (resources.filterMap id)) = [] := by
      rw [List.filterMap_eq_nil_iff]
      intro p hp
      exact mergeEntry_eq_none.mpr (hall p hp)
    simp [hnil]

/-- Lookup distributes over record concatenation. -/
theorem getProp_append (a b : Rec) (p : String) :
    getProp (a ++ b) p = (getProp a p).or (getProp b p) := by
  unfold getProp
  rw [List.find?_append]
  cases a.find? fun kv => kv.1 = p <;> simp

/-- Lookup misses a singleton record with a different key. -/
theorem getProp_singleton_ne {k v p : String} (h : ¬ k = p) :
    getProp [(k, v)] p = none := by
  unfold getProp
  rw [List.find?_cons_of_neg _ (by simp [h])]
  simp

/-- Structure of constructMaster on a list of non-null bundles: it never
fails, the identifier and birthdate sub-records are the independent
merges, the person sub-record is null exactly when its merge is, and on
the merged person attributes it agrees with the person merge. -/
theorem constructMaster_map_some (slaves : List Bundle) :
    ∃ m : Master, constructMaster (slaves.map some) = .ok m ∧
      m.identifier = constructMasterForResource
        (slaves.map fun b => some b.identifier) identifierProps ∧
      m.birthdate = constructMasterForResource
        (slaves.map fun b => b.birthdate) birthdateProps ∧
      (m.person = none ↔ constructMasterForResource
        (slaves.map fun b => some b.person) personProps = none) ∧
      ∀ p ∈ personProps, optGetProp m.person p =
        firstTruthyValue (slaves.map fun b => some b.person) personProps p := by
  have hnone : ((slaves.map some).any fun s => s.isNone) = false := by
    simp [List.any_map, Function.comp]
  have hfm : (slaves.map some).filterMap id = slaves := by
    rw [List.filterMap_map]
    simp [Function.comp]
  unfold constructMaster
  rw [hnone]
  simp only [Bool.false_eq_true, if_false, hfm]
  refine ⟨_, rfl, rfl, rfl, ?_, ?_⟩
  · cases hp : constructMasterForResource (slaves.map fun b => some b.person) personProps with
    | none => simp
    | some r => simp
  · intro p hp
    cases hper : constructMasterForResource (slaves.map fun b => some b.person) personProps with
    | none =>
      have := optGetProp_constructMasterForResource
        (slaves.map fun b => some b.person) personProps p
      rw [hper] at this
      simpa [optGetProp] using this
    | some r =>
      have hbase := optGetProp_constructMasterForResource
        (slaves.map fun b => some b.person) personProps p
      rw [hper] at hbase
      have hpne : ¬ "identifier" = p ∧ ¬ "birthdate" = p := by
        simp only [personProps, List.mem_cons, List.mem_singleton] at hp
        rcases hp with rfl | rfl | rfl | rfl | rfl | rfl | h
        · exact ⟨by decide, by decide⟩
        · exact ⟨by decide, by decide⟩
        · exact ⟨by decide, by decide⟩
        · exact ⟨by decide, by decide⟩
        · exact ⟨by decide, by decide⟩
        · exact ⟨by decide, by decide⟩
        · exact absurd h (by simp)
      cases hIL : (constructMasterForResource
          (slaves.map fun b => some b.identifier) identifierProps).bind
            (fun i => getProp i "uri") with
      | none =>
        cases hBL : (constructMasterForResource
            (slaves.map fun b => b.birthdate) birthdateProps).bind
              (fun b => getProp b "uri") with
        | none =>
          simp only [hIL, hBL, Option.map_some', Option.some_bind]
          simpa [optGetProp] using hbase
        | some bu =>
          simp only [hIL, hBL, Option.map_some', Option.some_bind]
          simp only [optGetProp, Option.some_bind] at hbase
          simp only [optGetProp, Option.some_bind]
          rw [getProp_append, getProp_singleton_ne hpne.2, Option.or_none]
          exact hbase
      | some iu =>
        cases hBL : (constructMasterForResource
            (slaves.map fun b => b.birthdate) birthdateProps).bind
              (fun b => getProp b "uri") with
        | none =>
          simp only [hIL, hBL, Option.map_some', Option.some_bind]
          simp only [optGetProp, Option.some_bind] at hbase
          simp only [optGetProp, Option.some_bind]
          rw [getProp_append, getProp_singleton_ne hpne.1, Option.or_none]
          exact hbase
        | some bu =>
          simp only [hIL, hBL, Option.map_some', Option.some_bind]
          simp only [optGetProp, Option.some_bind] at hbase
          simp only [optGetProp, Option.some_bind]
          rw [getProp_append, getProp_singleton_ne hpne.2, Option.or_none,
            getProp_append, getProp_singleton_ne hpne.1, Option.or_none]
          exact hbase

/-- Injection of Except into a sum, for decidable equality. -/
def exceptToSum : Except ε α → ε ⊕ α
  | .error e => .inl e
  | .ok a => .inr a

instance [DecidableEq ε] [DecidableEq α] : DecidableEq (Except ε α) := fun a b =>
  decidable_of_iff (exceptToSum a = exceptToSum b) (by
    cases a <;> cases b <;> simp [exceptToSum])

/-- Bind on a successful Except computation. -/
theorem exceptBindOk (a : α) (f : α → Except ε β) :
    (Except.ok a : Except ε α) >>= f = f a := rfl

/-- Bind on a failed Except computation. -/
theorem exceptBindErr (e : ε) (f : α → Except ε β) :
    (Except.error e : Except ε α) >>= f = Except.error e := rfl

/-- Map on a successful Except computation. -/
theorem exceptMapOk (a : α) (f : α → β) :
    (Except.ok a : Except ε α).map f = Except.ok (f a) := rfl

/-- Map on a failed Except computation. -/
theorem exceptMapErr (e : ε) (f : α → β) :
    (Except.error e : Except ε α).map f = Except.error e := rfl

/-- Pure for Except is ok. -/
theorem exceptPure (a : α) : (pure a : Except ε α) = Except.ok a := rfl

/-- C2 (amended): constructMaster builds the three sub-records
independently and per-attribute first-truthy-found-wins: each attribute
takes the value of the first bundle whose sub-record carries a non-empty
value for it (an empty-string value is skipped like an absent one), the
attribute is omitted when no bundle carries a non-empty value, and a
sub-record is absent exactly when none of its attributes got a value; on
the slaves [(name, A)], [(name, B), (gender, F)] the master person has
name A and gender F. -/
theorem c2_first_truthy_wins :
    (∀ resources props p, optGetProp (constructMasterForResource resources props) p =
        firstTruthyValue resources props p)
  ∧ (∀ resources props, constructMasterForResource resources props = none ↔
        ∀ p ∈ props, ((resources.filterMap id).find? fun s => truthyProp s p) = none)
  ∧ (∀ slaves : List Bundle, ∃ m : Master, constructMaster (slaves.map some) = .ok m ∧
      m.identifier = constructMasterForResource
        (slaves.map fun b => some b.identifier) identifierProps ∧
      m.birthdate = constructMasterForResource
        (slaves.map fun b => b.birthdate) birthdateProps ∧
      (m.person = none ↔ constructMasterForResource
        (slaves.map fun b => some b.person) personProps = none) ∧
      ∀ p ∈ personProps, optGetProp m.person p =
        firstTruthyValue (slaves.map fun b => some b.person) personProps p)
  ∧ constructMasterForResource
      [some [("name", "A")], some [("name", "B"), ("gender", "F")]] ["name", "gender"]
      = some [("name", "A"), ("gender", "F")] :=
  ⟨optGetProp_constructMasterForResource, constructMasterForResource_eq_none,
    constructMaster_map_some, by decide⟩

/-- C2 (counterexample to the claim as stated): a sub-record defining an
attribute with the empty string does not win the merge: with bundles
[(name, empty)], [(name, B)] the master name is B, not the first bundle's
value, and with the single bundle [(name, empty)] the merged sub-record
is null even though a bundle defines the attribute. -/
theorem c2_counterexample :
    optGetProp (constructMasterForResource
      [some [("name", "")], some [("name", "B")]] ["name"]) "name" = some "B"
  ∧ constructMasterForResource [some [("name", "")]] ["name"] = none :=
  ⟨by decide, by decide⟩

/-- C2 witness: the amended characterisation evaluated on the claim's own
example yields name A and gender F. -/
theorem c2_witness :
    optGetProp (constructMasterForResource
      [some [("name", "A")], some [("name", "B"), ("gender", "F")]]
      ["name", "gender"]) "name" = some "A"
  ∧ optGetProp (constructMasterForResource
      [some [("name", "A")], some [("name", "B"), ("gender", "F")]]
      ["name", "gender"]) "gender" = some "F" := by
  constructor
  · rw [c2_first_truthy_wins.1]
    decide
  · rw [c2_first_truthy_wins.1]
    decide

/-- C3: the claim (and the spec) say a candidate whose identity is absent
when fetched is treated as nothing to merge and the key completes
successfully; the code instead crashes.  On a two-candidate group whose
second candidate has no mu:uuid, getPerson returns null and
reconciliatePerson dereferences it in constructMaster, so the run fails
and the single-key endpoint reports failure, with no update issued. -/
theorem c3_missing_data_crashes :
    (getDuplicatePersonUris missingUuidStore "123").length = 2
  ∧ getPerson missingUuidStore "g2" "P2" = none
  ∧ reconciliatePersonRun missingUuidStore "123" false = .error ()
  ∧ reconciliatePersonRun missingUuidStore "123" true = .error ()
  ∧ postReconciliateRrn missingUuidStore "123" none = .failure :=
  ⟨by decide, by decide, by decide, by decide, by decide⟩

/-- Inversion of a successful Except bind. -/
theorem exceptBind_eq_ok {e : Except ε α} {f : α → Except ε β} {b : β}
    (h : e >>= f = .ok b) : ∃ a, e = .ok a ∧ f a = .ok b := by
  cases e with
  | error err => rw [exceptBindErr] at h; exact absurd h (by simp)
  | ok a => exact ⟨a, rfl, h⟩

/-- A successful live run determines the shared prefix: the resolver,
fetches and master construction succeed with the same master. -/
theorem run_live_master {st : Store} {rrn : String} {m? : Option Master} {ops : List StoreOp}
    (h : reconciliatePersonRun st rrn false = .ok (m?, ops)) :
    resolveAndBuildMaster st rrn = .ok m? := by
  unfold reconciliatePersonRun at h
  unfold resolveAndBuildMaster
  by_cases hlen : 1 < (getDuplicatePersonUris st rrn).length
  · simp only [hlen, if_true] at h ⊢
    obtain ⟨m, hcm, hrest⟩ := exceptBind_eq_ok h
    rw [hcm, exceptBindOk]
    rw [if_neg (by decide : ¬ (false = true))] at hrest
    obtain ⟨ops2, hops, hpure⟩ := exceptBind_eq_ok hrest
    rw [exceptPure] at hpure
    injection hpure with hp
    rw [exceptPure, show m? = some m from (congrArg Prod.fst hp).symm]
  · simp only [hlen, if_false] at h ⊢
    rw [exceptPure] at h ⊢
    injection h with hp
    rw [show m? = none from (congrArg Prod.fst hp).symm]

/-- C5: a dry run equals the shared resolve-fetch-build prefix with an
empty update list: it computes exactly the master the live path computes
(whenever the live path completes, the dry run returns the same master),
issues zero update calls and leaves the store unchanged. -/
theorem c5_dry_run_frame (st : Store) (rrn : String) :
    reconciliatePersonRun st rrn true =
      (resolveAndBuildMaster st rrn).map (fun m? => (m?, []))
  ∧ (∀ m? ops, reconciliatePersonRun st rrn false = .ok (m?, ops) →
      reconciliatePersonRun st rrn true = .ok (m?, []))
  ∧ (∀ r, reconciliatePersonRun st rrn true = .ok r → applyOps st r.2 = st) := by
  have h1 : reconciliatePersonRun st rrn true =
      (resolveAndBuildMaster st rrn).map (fun m? => (m?, [])) := by
    unfold reconciliatePersonRun resolveAndBuildMaster
    by_cases h : 1 < (getDuplicatePersonUris st rrn).length
    · simp only [h, if_true]
      cases hcm : constructMaster ((getDuplicatePersonUris st rrn).map
          fun gp => getPerson st gp.1 gp.2) with
      | error e => rfl
      | ok m => rfl
    · simp only [h, if_false]
      rfl
  refine ⟨h1, ?_, ?_⟩
  · intro m? ops hlive
    rw [h1, run_live_master hlive]
    rfl
  · intro r hdry
    rw [h1] at hdry
    cases hres : resolveAndBuildMaster st rrn with
    | error e =>
      rw [hres, exceptMapErr] at hdry
      exact absurd hdry (by simp)
    | ok m? =>
      rw [hres, exceptMapOk] at hdry
      injection hdry with hr
      rw [show r = (m?, []) from hr.symm]
      rfl

/-- C5 witness: on the empty store the live run completes with no master
and no updates, and the dry run returns the same result and leaves the
store unchanged. -/
theorem c5_witness :
    reconciliatePersonRun ([] : Store) "123" true = .ok (none, [])
  ∧ applyOps ([] : Store) [] = [] := by
  have hd := (c5_dry_run_frame ([] : Store) "123").2.1 none [] (by decide)
  exact ⟨hd, (c5_dry_run_frame ([] : Store) "123").2.2 (none, []) hd⟩

/-- C6: whenever the resolver returns zero or one candidate pair, the run
issues no update, completes successfully with no master constructed, and
a live run leaves the store exactly as it was. -/
theorem c6_single_candidate_no_mutation (st : Store) (rrn : String) (dry : Bool)
    (h : (getDuplicatePersonUris st rrn).length ≤ 1) :
    reconciliatePersonRun st rrn dry = .ok (none, []) ∧ runFinalStore st rrn = st := by
  have hnot : ¬ 1 < (getDuplicatePersonUris st rrn).length := Nat.not_lt.mpr h
  have hrun : ∀ d, reconciliatePersonRun st rrn d = .ok (none, []) := by
    intro d
    unfold reconciliatePersonRun
    simp only [hnot, if_false]
    rfl
  refine ⟨hrun dry, ?_⟩
  unfold runFinalStore
  rw [hrun false]
  rfl

/-- C6 witness: on the empty store no candidate resolves and nothing
happens. -/
theorem c6_witness :
    reconciliatePersonRun ([] : Store) "123" false = .ok (none, [])
  ∧ runFinalStore ([] : Store) "123" = [] :=
  c6_single_candidate_no_mutation ([] : Store) "123" false (by decide)

/-- Inversion of a successful require. -/
theorem require_eq_ok {o : Option α} {a : α} (h : require o = .ok a) : o = some a := by
  cases o with
  | none => exact absurd h (by simp [require])
  | some b =>
    unfold require at h
    injection h with hb
    rw [hb]

/-- C7: for every slave bundle the rewrite phase emits, in this order and
all in the slave's own graph: the slave-pattern delete, the master
insert, then for the person, for the identifier, and for the birthdate
when the slave has one: the subject rewrite, the object rewrite and only
then the equivalence-link insert. -/
theorem c7_rewrite_order (slave : Bundle) (m : Master) (ops : List StoreOp)
    (h : replaceSlaveWithMasterOps slave m = .ok ops) :
    ∃ spu mpu miu siu,
      getProp slave.person "uri" = some spu ∧
      (m.person.bind fun p => getProp p "uri") = some mpu ∧
      (m.identifier.bind fun i => getProp i "uri") = some miu ∧
      getProp slave.identifier "uri" = some siu ∧
      (∀ op ∈ ops, op.graphOf = slave.graph) ∧
      ((slave.birthdate = none ∧ ops =
          [StoreOp.deleteSlave slave.graph spu, StoreOp.insertMaster slave.graph m,
           StoreOp.replaceSubj slave.graph mpu spu, StoreOp.replaceObj slave.graph mpu spu,
           StoreOp.insertSameAs slave.graph mpu spu,
           StoreOp.replaceSubj slave.graph miu siu, StoreOp.replaceObj slave.graph miu siu,
           StoreOp.insertSameAs slave.graph miu siu])
       ∨ (∃ sb mbu sbu, slave.birthdate = some sb ∧
           (m.birthdate.bind fun b => getProp b "uri") = some mbu ∧
           getProp sb "uri" = some sbu ∧ ops =
          [StoreOp.deleteSlave slave.graph spu, StoreOp.insertMaster slave.graph m,
           StoreOp.replaceSubj slave.graph mpu spu, StoreOp.replaceObj slave.graph mpu spu,
           StoreOp.insertSameAs slave.graph mpu spu,
           StoreOp.replaceSubj slave.graph miu siu, StoreOp.replaceObj slave.graph miu siu,
           StoreOp.insertSameAs slave.graph miu siu,
           StoreOp.replaceSubj slave.graph mbu sbu, StoreOp.replaceObj slave.graph mbu sbu,
           StoreOp.insertSameAs slave.graph mbu sbu])) := by
  unfold replaceSlaveWithMasterOps at h
  obtain ⟨spu, h1, h⟩ := exceptBind_eq_ok h
  obtain ⟨ts, h2, h⟩ := exceptBind_eq_ok h
  obtain ⟨mp, h3, h⟩ := exceptBind_eq_ok h
  obtain ⟨mpu, h4, h⟩ := exceptBind_eq_ok h
  obtain ⟨mi, h5, h⟩ := exceptBind_eq_ok h
  obtain ⟨miu, h6, h⟩ := exceptBind_eq_ok h
  obtain ⟨siu, h7, h⟩ := exceptBind_eq_ok h
  obtain ⟨birthOps, h8, h⟩ := exceptBind_eq_ok h
  rw [exceptPure] at h
  injection h with hops
  refine ⟨spu, mpu, miu, siu, require_eq_ok h1, ?_, ?_, require_eq_ok h7, ?_, ?_⟩
  · rw [require_eq_ok h3, Option.some_bind]
    exact require_eq_ok h4
  · rw [require_eq_ok h5, Option.some_bind]
    exact require_eq_ok h6
  · intro op hop
    rw [← hops] at hop
    cases hb : slave.birthdate with
    | none =>
      rw [hb] at h8
      unfold replaceBirthOps at h8
      injection h8 with hbo
      rw [← hbo] at hop
      simp only [List.cons_append, List.nil_append, List.append_nil, List.mem_cons,
        List.not_mem_nil, or_false] at hop
      rcases hop with rfl | rfl | rfl | rfl | rfl | rfl | rfl | rfl <;> rfl
    | some sb =>
      rw [hb] at h8
      unfold replaceBirthOps at h8
      obtain ⟨mb, hb1, h8⟩ := exceptBind_eq_ok h8
      obtain ⟨mbu, hb2, h8⟩ := exceptBind_eq_ok h8
      obtain ⟨sbu, hb3, h8⟩ := exceptBind_eq_ok h8
      rw [exceptPure] at h8
      injection h8 with hbo
      rw [← hbo] at hop
      simp only [List.cons_append, List.nil_append, List.append_nil, List.mem_cons,
        List.not_mem_nil, or_false] at hop
      rcases hop with rfl | rfl | rfl | rfl | rfl | rfl | rfl | rfl | rfl | rfl | rfl <;> rfl
  · cases hb : slave.birthdate with
    | none =>
      rw [hb] at h8
      unfold replaceBirthOps at h8
      injection h8 with hbo
      left
      refine ⟨rfl, ?_⟩
      rw [← hops, ← hbo]
      rfl
    | some sb =>
      rw [hb] at h8
      unfold replaceBirthOps at h8
      obtain ⟨mb, hb1, h8⟩ := exceptBind_eq_ok h8
      obtain ⟨mbu, hb2, h8⟩ := exceptBind_eq_ok h8
      obtain ⟨sbu, hb3, h8⟩ := exceptBind_eq_ok h8
      rw [exceptPure] at h8
      injection h8 with hbo
      right
      refine ⟨sb, mbu, sbu, rfl, ?_, require_eq_ok hb3, ?_⟩
      · rw [require_eq_ok hb1, Option.some_bind]
        exact require_eq_ok hb2
      · rw [← hops, ← hbo]
        rfl

/-- C7 witness: the rewrite order theorem applied to a concrete slave and
master, yielding the graph scoping of the emitted updates. -/
theorem c7_witness :
    (([StoreOp.deleteSlave "g" "P2",
      StoreOp.insertMaster "g"
        { person := some [("uri", "P1"), ("uuid", "u1")],
          identifier := some [("uri", "I1")], birthdate := none },
      StoreOp.replaceSubj "g" "P1" "P2", StoreOp.replaceObj "g" "P1" "P2",
      StoreOp.insertSameAs "g" "P1" "P2",
      StoreOp.replaceSubj "g" "I1" "I2", StoreOp.replaceObj "g" "I1" "I2",
      StoreOp.insertSameAs "g" "I1" "I2"] : List StoreOp).all
        fun op => decide (op.graphOf = "g")) = true := by
  obtain ⟨spu, mpu, miu, siu, hA, hB, hC, hD, hgr, hdisj⟩ := c7_rewrite_order
    { graph := "g", person := [("uri", "P2"), ("uuid", "u2")],
      identifier := [("uri", "I2")], birthdate := none }
    { person := some [("uri", "P1"), ("uuid", "u1")],
      identifier := some [("uri", "I1")], birthdate := none }
    [StoreOp.deleteSlave "g" "P2",
      StoreOp.insertMaster "g"
        { person := some [("uri", "P1"), ("uuid", "u1")],
          identifier := some [("uri", "I1")], birthdate := none },
      StoreOp.replaceSubj "g" "P1" "P2", StoreOp.replaceObj "g" "P1" "P2",
      StoreOp.insertSameAs "g" "P1" "P2",
      StoreOp.replaceSubj "g" "I1" "I2", StoreOp.replaceObj "g" "I1" "I2",
      StoreOp.insertSameAs "g" "I1" "I2"]
    (by decide)
  refine List.all_eq_true.mpr ?_
  intro op hop
  rw [decide_eq_true_eq]
  exact hgr op hop

/-- C9: both endpoints decide dry-run mode by JS truthiness of the raw
query parameter, not by boolean parsing: any non-empty string, including
false and 0, enables dry-run; only an absent or empty parameter gives a
live run. -/
theorem c9_dry_run_truthiness :
    (∀ p, jsTruthyParam p = true ↔ ∃ s, p = some s ∧ ¬ s = "")
  ∧ jsTruthyParam (some "false") = true
  ∧ jsTruthyParam (some "0") = true
  ∧ jsTruthyParam none = false
  ∧ jsTruthyParam (some "") = false
  ∧ (∀ st rrn p, postReconciliateRrnRun st rrn p =
      reconciliatePersonRun st rrn (jsTruthyParam p))
  ∧ (∀ st p, postReconciliate st p =
      (.success 202, reconciliateBulk st (getDuplicateIdentificators st) (jsTruthyParam p))) := by
  refine ⟨?_, by decide, by decide, by decide, by decide, fun _ _ _ => rfl, fun _ _ => rfl⟩
  intro p
  cases p with
  | none => simp [jsTruthyParam]
  | some s =>
    simp only [jsTruthyParam]
    constructor
    · intro hs
      exact ⟨s, rfl, by simpa using hs⟩
    · rintro ⟨t, ht, hne⟩
      injection ht with ht
      rw [ht]
      simpa using hne

/-- C9 witness: the truthiness characterisation applied to the parameter
value false. -/
theorem c9_witness : jsTruthyParam (some "false") = true :=
  (c9_dry_run_truthiness.1 (some "false")).mpr ⟨"false", rfl, by decide⟩

/-- A straight sequence of store calls starting at a given index. -/
def doCalls (oracle : Nat → Bool) : Nat → Nat → Except Nat Nat
  | 0, n => .ok n
  | k + 1, n => callStep oracle n >>= fun n' => doCalls oracle k n'

/-- Unfolding for zero calls. -/
theorem doCalls_zero (oracle : Nat → Bool) (n : Nat) : doCalls oracle 0 n = .ok n := rfl

/-- Unfolding of one leading call. -/
theorem doCalls_succ (oracle : Nat → Bool) (k n : Nat) :
    doCalls oracle (k + 1) n = callStep oracle n >>= fun n' => doCalls oracle k n' := rfl

/-- Dropping a trailing pure bind. -/
theorem exceptBind_pure (e : Except ε α) : e >>= pure = e := by
  cases e <;> rfl

/-- Bind congruence in the continuation. -/
theorem exceptBind_congr {e : Except ε α} {f g : α → Except ε β}
    (h : ∀ a, f a = g a) : e >>= f = e >>= g := by
  cases e with
  | error err => rfl
  | ok a => rw [exceptBindOk, exceptBindOk, h a]

/-- Call sequences compose. -/
theorem doCalls_add (oracle : Nat → Bool) (a b n : Nat) :
    doCalls oracle (a + b) n = doCalls oracle a n >>= fun n' => doCalls oracle b n' := by
  induction a generalizing n with
  | zero => rw [Nat.zero_add, doCalls_zero, exceptBindOk]
  | succ a ih =>
    rw [show a + 1 + b = (a + b) + 1 by omega, doCalls_succ, doCalls_succ]
    cases callStep oracle n with
    | error e => rw [exceptBindErr, exceptBindErr, exceptBindErr]
    | ok n1 =>
      simp only [exceptBindOk]
      exact ih n1

/-- A window of calls the oracle lets pass succeeds and advances the call
index by its length. -/
theorem doCalls_ok (oracle : Nat → Bool) (L n : Nat)
    (h : ∀ k, n ≤ k → k < n + L → oracle k = false) :
    doCalls oracle L n = .ok (n + L) := by
  induction L generalizing n with
  | zero => rw [doCalls_zero, Nat.add_zero]
  | succ L ih =>
    rw [doCalls_succ, callStep, if_neg (by simp [h n (Nat.le_refl n) (by omega)]),
      exceptBindOk, ih (n + 1) (fun k h1 h2 => h k (by omega) (by omega))]
    congr 1
    omega

/-- A window of calls containing the first failing index aborts right
after that call, having attempted each call up to it exactly once. -/
theorem doCalls_fail (oracle : Nat → Bool) (L n n0 : Nat)
    (hhi : oracle n0 = true) (hlow : ∀ k, k < n0 → oracle k = false)
    (hn : n ≤ n0) (hlt : n0 < n + L) :
    doCalls oracle L n = .error (n0 + 1) := by
  induction L generalizing n with
  | zero => omega
  | succ L ih =>
    by_cases heq : n = n0
    · subst heq
      rw [doCalls_succ, callStep, if_pos hhi, exceptBindErr]
    · rw [doCalls_succ, callStep, if_neg (by simp [hlow n (by omega)]), exceptBindOk,
        ih (n + 1) (by omega) (by omega)]

/-- The fetch loop is a straight call sequence returning the fetched
bundles in candidate order. -/
theorem fetchCalls_eq_doCalls (oracle : Nat → Bool) (st : Store)
    (ps : List (String × String)) (n : Nat) :
    fetchCalls oracle st ps n =
      (doCalls oracle ps.length n).map
        fun n' => (ps.map fun gp => getPerson st gp.1 gp.2, n') := by
  induction ps generalizing n with
  | nil => rfl
  | cons gp rest ih =>
    show (callStep oracle n >>= fun n2 => fetchCalls oracle st rest n2 >>= fun r =>
      pure (getPerson st gp.1 gp.2 :: r.1, r.2)) = _
    rw [List.length_cons, doCalls_succ]
    cases callStep oracle n with
    | error e => rw [exceptBindErr, exceptBindErr, exceptMapErr]
    | ok n1 =>
      rw [exceptBindOk, exceptBindOk, ih n1]
      cases doCalls oracle rest.length n1 with
      | error e => rw [exceptMapErr, exceptBindErr, exceptMapErr]
      | ok n2 => rfl

/-- When the rewrite sequence for a slave is well defined, its update
calls are a straight call sequence of the length of that sequence. -/
theorem slaveCallsIO_eq_doCalls {slave : Bundle} {m : Master} {ops : List StoreOp}
    (h : replaceSlaveWithMasterOps slave m = .ok ops) (oracle : Nat → Bool) (n : Nat) :
    slaveCallsIO oracle slave m n = doCalls oracle ops.length n := by
  unfold replaceSlaveWithMasterOps at h
  obtain ⟨spu, h1, h⟩ := exceptBind_eq_ok h
  obtain ⟨ts, h2, h⟩ := exceptBind_eq_ok h
  obtain ⟨mp, h3, h⟩ := exceptBind_eq_ok h
  obtain ⟨mpu, h4, h⟩ := exceptBind_eq_ok h
  obtain ⟨mi, h5, h⟩ := exceptBind_eq_ok h
  obtain ⟨miu, h6, h⟩ := exceptBind_eq_ok h
  obtain ⟨siu, h7, h⟩ := exceptBind_eq_ok h
  obtain ⟨birthOps, h8, h⟩ := exceptBind_eq_ok h
  rw [exceptPure] at h
  injection h with hops
  have hB : (m.person.bind fun p => getProp p "uri") = some mpu := by
    rw [require_eq_ok h3, Option.some_bind]
    exact require_eq_ok h4
  have hC : (m.identifier.bind fun i => getProp i "uri") = some miu := by
    rw [require_eq_ok h5, Option.some_bind]
    exact require_eq_ok h6
  unfold slaveCallsIO
  rw [require_eq_ok h1, hB, hC, require_eq_ok h7, h2]
  simp only [require, exceptTy, exceptBindOk]
  cases hb : slave.birthdate with
  | none =>
    rw [hb] at h8
    unfold replaceBirthOps at h8
    injection h8 with hbo
    have hlen : ops.length = 8 := by
      rw [← hops, ← hbo]
      rfl
    rw [hlen]
    rw [doCalls_succ]
    refine exceptBind_congr fun n1 => ?_
    rw [doCalls_succ]
    refine exceptBind_congr fun n2 => ?_
    rw [doCalls_succ]
    refine exceptBind_congr fun n3 => ?_
    rw [doCalls_succ]
    refine exceptBind_congr fun n4 => ?_
    rw [doCalls_succ]
    refine exceptBind_congr fun n5 => ?_
    rw [doCalls_succ]
    refine exceptBind_congr fun n6 => ?_
    rw [doCalls_succ]
    refine exceptBind_congr fun n7 => ?_
    rw [doCalls_succ]
    exact exceptBind_congr fun a => rfl
  | some sb =>
    rw [hb] at h8
    unfold replaceBirthOps at h8
    obtain ⟨mb, hb1, h8⟩ := exceptBind_eq_ok h8
    obtain ⟨mbu, hb2, h8⟩ := exceptBind_eq_ok h8
    obtain ⟨sbu, hb3, h8⟩ := exceptBind_eq_ok h8
    rw [exceptPure] at h8
    injection h8 with hbo
    have hE : (m.birthdate.bind fun b => getProp b "uri") = some mbu := by
      rw [require_eq_ok hb1, Option.some_bind]
      exact require_eq_ok hb2
    have hbirth : ∀ k, birthCallsIO oracle m (some sb) k = doCalls oracle 3 k := by
      intro k
      show (do
        let _ ← exceptTy k (require (m.birthdate.bind fun b => getProp b "uri"))
        let _ ← exceptTy k (require (getProp sb "uri"))
        let n ← callStep oracle k
        let n ← callStep oracle n
        let n ← callStep oracle n
        pure n) = doCalls oracle 3 k
      rw [hE, require_eq_ok hb3]
      simp only [require, exceptTy, exceptBindOk]
      rw [doCalls_succ]
      refine exceptBind_congr fun a1 => ?_
      rw [doCalls_succ]
      refine exceptBind_congr fun a2 => ?_
      rw [doCalls_succ]
      exact exceptBind_congr fun a3 => rfl
    have hlen : ops.length = 11 := by
      rw [← hops, ← hbo]
      rfl
    rw [hlen]
    rw [doCalls_succ]
    refine exceptBind_congr fun n1 => ?_
    rw [doCalls_succ]
    refine exceptBind_congr fun n2 => ?_
    rw [doCalls_succ]
    refine exceptBind_congr fun n3 => ?_
    rw [doCalls_succ]
    refine exceptBind_congr fun n4 => ?_
    rw [doCalls_succ]
    refine exceptBind_congr fun n5 => ?_
    rw [doCalls_succ]
    refine exceptBind_congr fun n6 => ?_
    rw [doCalls_succ]
    refine exceptBind_congr fun n7 => ?_
    rw [doCalls_succ]
    refine exceptBind_congr fun n8 => ?_
    exact hbirth n8

/-- When the whole rewrite loop is well defined, its update calls are a
straight call sequence of the length of the emitted update list. -/
theorem slavesCallsIO_eq_doCalls {slaves : List (Option Bundle)} {m : Master}
    {ops : List StoreOp} (h : allSlaveOps slaves m = .ok ops) (oracle : Nat → Bool)
    (n : Nat) : slavesCallsIO oracle m slaves n = doCalls oracle ops.length n := by
  induction slaves generalizing ops n with
  | nil =>
    unfold allSlaveOps at h
    injection h with h0
    rw [← h0]
    rfl
  | cons s? rest ih =>
    cases s? with
    | none =>
      unfold allSlaveOps at h
      exact absurd h (by simp)
    | some s =>
      unfold allSlaveOps at h
      obtain ⟨o1, ho1, h⟩ := exceptBind_eq_ok h
      obtain ⟨orest, horest, h⟩ := exceptBind_eq_ok h
      rw [exceptPure] at h
      injection h with h0
      show ( slaveCallsIO oracle s m n >>= fun n2 => slavesCallsIO oracle m rest n2) = _
      rw [slaveCallsIO_eq_doCalls ho1 oracle n, ← h0, List.length_append, doCalls_add]
      exact exceptBind_congr fun a => ih horest a

/-- Inversion of a successful live run into its stages. -/
theorem run_live_parts {st : Store} {rrn : String} {m? : Option Master} {ops : List StoreOp}
    (h : reconciliatePersonRun st rrn false = .ok (m?, ops)) :
    (¬ 1 < (getDuplicatePersonUris st rrn).length ∧ m? = none ∧ ops = []) ∨
    (1 < (getDuplicatePersonUris st rrn).length ∧ ∃ m, m? = some m ∧
      constructMaster ((getDuplicatePersonUris st rrn).map
        fun gp => getPerson st gp.1 gp.2) = .ok m ∧
      allSlaveOps ((getDuplicatePersonUris st rrn).map
        fun gp => getPerson st gp.1 gp.2) m = .ok ops) := by
  unfold reconciliatePersonRun at h
  by_cases hlen : 1 < (getDuplicatePersonUris st rrn).length
  · rw [if_pos hlen] at h
    obtain ⟨m, hcm, hrest⟩ := exceptBind_eq_ok h
    rw [if_neg (by decide : ¬ (false = true))] at hrest
    obtain ⟨ops2, hops, hpure⟩ := exceptBind_eq_ok hrest
    rw [exceptPure] at hpure
    injection hpure with hp
    right
    refine ⟨hlen, m, (congrArg Prod.fst hp).symm, hcm, ?_⟩
    rw [show ops = ops2 from (congrArg Prod.snd hp).symm]
    exact hops
  · rw [if_neg hlen, exceptPure] at h
    injection h with hp
    exact Or.inl ⟨hlen, (congrArg Prod.fst hp).symm, (congrArg Prod.snd hp).symm⟩

/-- Inversion of a successful dry run into its stages. -/
theorem run_dry_parts {st : Store} {rrn : String} {m? : Option Master} {ops : List StoreOp}
    (h : reconciliatePersonRun st rrn true = .ok (m?, ops)) :
    ops = [] ∧
    ((¬ 1 < (getDuplicatePersonUris st rrn).length ∧ m? = none) ∨
     (1 < (getDuplicatePersonUris st rrn).length ∧ ∃ m, m? = some m ∧
       constructMaster ((getDuplicatePersonUris st rrn).map
         fun gp => getPerson st gp.1 gp.2) = .ok m)) := by
  unfold reconciliatePersonRun at h
  by_cases hlen : 1 < (getDuplicatePersonUris st rrn).length
  · rw [if_pos hlen] at h
    obtain ⟨m, hcm, hrest⟩ := exceptBind_eq_ok h
    rw [if_pos rfl, exceptPure] at hrest
    injection hrest with hp
    exact ⟨(congrArg Prod.snd hp).symm, Or.inr ⟨hlen, m, (congrArg Prod.fst hp).symm, hcm⟩⟩
  · rw [if_neg hlen, exceptPure] at h
    injection h with hp
    exact ⟨(congrArg Prod.snd hp).symm, Or.inl ⟨hlen, (congrArg Prod.fst hp).symm⟩⟩

/-- The number of store calls of a run that succeeds with the given
update list: the resolver query, one fetch per candidate when more than
one resolves, and one update call per emitted update. -/
def runCallCount (st : Store) (rrn : String) (ops : List StoreOp) : Nat :=
  1 + (if 1 < (getDuplicatePersonUris st rrn).length
    then (getDuplicatePersonUris st rrn).length else 0) + ops.length

/-- A run that is well defined over the pure semantics is, under any
failure oracle, exactly a straight sequence of runCallCount store calls
followed by its pure result. -/
theorem runIO_eq_doCalls {st : Store} {rrn : String} {dry : Bool} {m? : Option Master}
    {ops : List StoreOp} (h : reconciliatePersonRun st rrn dry = .ok (m?, ops))
    (oracle : Nat → Bool) :
    reconciliatePersonIO oracle st rrn dry =
      (doCalls oracle (runCallCount st rrn ops) 0).map fun n => (m?, n) := by
  by_cases hlen : 1 < (getDuplicatePersonUris st rrn).length
  · have hcount : runCallCount st rrn ops =
        ((getDuplicatePersonUris st rrn).length + ops.length) + 1 := by
      unfold runCallCount
      rw [if_pos hlen]
      omega
    unfold reconciliatePersonIO
    rw [hcount, doCalls_succ]
    cases h0 : callStep oracle 0 with
    | error e =>
      rw [exceptBindErr, exceptBindErr, exceptMapErr]
    | ok n1 =>
      rw [exceptBindOk, exceptBindOk, if_pos hlen, doCalls_add, fetchCalls_eq_doCalls]
      cases hdB : doCalls oracle (getDuplicatePersonUris st rrn).length n1 with
      | error e =>
        rw [exceptMapErr, exceptBindErr, exceptBindErr, exceptMapErr]
      | ok n2 =>
        rw [exceptMapOk, exceptBindOk, exceptBindOk]
        cases hdry : dry with
        | true =>
          rw [hdry] at h
          obtain ⟨-, hparts⟩ := run_dry_parts h
          rcases hparts with ⟨hnot, -⟩ | ⟨-, m, hm, hcm⟩
          · exact absurd hlen hnot
          · obtain ⟨hops0, -⟩ := run_dry_parts h
            rw [hcm]
            rw [show exceptTy (α := Master) n2 (.ok m) = .ok m from rfl, exceptBindOk,
              if_pos rfl, hops0, hm]
            rw [show (doCalls oracle [].length n2) = .ok n2 from rfl, exceptMapOk]
            rfl
        | false =>
          rw [hdry] at h
          rcases run_live_parts h with ⟨hnot, -⟩ | ⟨-, m, hm, hcm, hops⟩
          · exact absurd hlen hnot
          · rw [hcm]
            rw [show exceptTy (α := Master) n2 (.ok m) = .ok m from rfl, exceptBindOk,
              if_neg (by decide : ¬ (false = true)),
              slavesCallsIO_eq_doCalls hops oracle n2, hm]
            cases hdC : doCalls oracle ops.length n2 with
            | error e => rw [exceptBindErr, exceptMapErr]
            | ok n3 => rw [exceptBindOk, exceptMapOk, exceptPure]
  · have hmops : m? = none ∧ ops = [] := by
      unfold reconciliatePersonRun at h
      rw [if_neg hlen, exceptPure] at h
      injection h with hp
      exact ⟨(congrArg Prod.fst hp).symm, (congrArg Prod.snd hp).symm⟩
    have hcount : runCallCount st rrn ops = 0 + 1 := by
      unfold runCallCount
      rw [if_neg hlen, hmops.2]
      rfl
    unfold reconciliatePersonIO
    rw [hcount, doCalls_succ, hmops.1]
    cases h0 : callStep oracle 0 with
    | error e => rw [exceptBindErr, exceptBindErr, exceptMapErr]
    | ok n1 =>
      rw [exceptBindOk, exceptBindOk, if_neg hlen, doCalls_zero, exceptMapOk, exceptPure]

/-- C8 (amended): on the single-key path, for a run that is well defined
over the data (every candidate fetch finds its identity and the master is
well formed): if no store call fails, the run succeeds after exactly
runCallCount calls and the endpoint reports 204; if the first failing
store call is the one with index n0 within the run's calls, the run stops
having attempted exactly the calls 0..n0, each once (the failed call is
not retried, nothing later is attempted), and the endpoint reports
failure. -/
theorem c8_store_failures (st : Store) (rrn : String) (p : Option String)
    (m? : Option Master) (ops : List StoreOp)
    (hrun : reconciliatePersonRun st rrn (jsTruthyParam p) = .ok (m?, ops)) :
    (∀ oracle : Nat → Bool, (∀ k, k < runCallCount st rrn ops → oracle k = false) →
      reconciliatePersonIO oracle st rrn (jsTruthyParam p) =
        .ok (m?, runCallCount st rrn ops) ∧
      postReconciliateRrnIO oracle st rrn p = .success 204)
  ∧ (∀ (oracle : Nat → Bool) (n0 : Nat), oracle n0 = true →
      (∀ k, k < n0 → oracle k = false) → n0 < runCallCount st rrn ops →
      reconciliatePersonIO oracle st rrn (jsTruthyParam p) = .error (n0 + 1) ∧
      postReconciliateRrnIO oracle st rrn p = .failure) := by
  constructor
  · intro oracle hok
    have hd : doCalls oracle (runCallCount st rrn ops) 0 = .ok (runCallCount st rrn ops) := by
      have hz := doCalls_ok oracle (runCallCount st rrn ops) 0
        (fun k _ h2 => hok k (by omega))
      rwa [Nat.zero_add] at hz
    have hio := runIO_eq_doCalls hrun oracle
    rw [hd, exceptMapOk] at hio
    refine ⟨hio, ?_⟩
    unfold postReconciliateRrnIO
    rw [hio]
  · intro oracle n0 hhi hlow hlt
    have hd : doCalls oracle (runCallCount st rrn ops) 0 = .error (n0 + 1) :=
      doCalls_fail oracle _ 0 n0 hhi hlow (Nat.zero_le n0) (by omega)
    have hio := runIO_eq_doCalls hrun oracle
    rw [hd, exceptMapErr] at hio
    refine ⟨hio, ?_⟩
    unfold postReconciliateRrnIO
    rw [hio]

/-- C8 (counterexample to the claim's final clause as stated): a run with
no store failure can still report failure: on missingUuidStore no store
call ever fails, yet the endpoint reports failure, because a candidate
fetch found nothing and the merge crashed on the null bundle. -/
theorem c8_counterexample :
    postReconciliateRrnIO (fun _ => false) missingUuidStore "123" none = .failure := by
  decide

/-- C8 witness: on the empty store, the no-failure run succeeds with one
store call and reports 204; with the very first call failing, the run
aborts after exactly that one attempt and reports failure. -/
theorem c8_witness :
    reconciliatePersonIO (fun _ => false) ([] : Store) "x" false = .ok (none, 1)
  ∧ postReconciliateRrnIO (fun _ => false) ([] : Store) "x" none = .success 204
  ∧ reconciliatePersonIO (fun k => decide (k = 0)) ([] : Store) "x" false = .error 1
  ∧ postReconciliateRrnIO (fun k => decide (k = 0)) ([] : Store) "x" none = .failure := by
  have h1 := (c8_store_failures ([] : Store) "x" none none [] (by decide)).1
    (fun _ => false) (fun k _ => rfl)
  have h2 := (c8_store_failures ([] : Store) "x" none none [] (by decide)).2
    (fun k => decide (k = 0)) 0 (by decide)
    (fun k hk => absurd hk (Nat.not_lt_zero k)) (by decide)
  exact ⟨h1.1, h1.2, h2.1, h2.2⟩

/-- Membership after the slave-pattern delete. -/
theorem mem_applyDeleteSlave {st : Store} {g uri : String} {q : Quad} :
    q ∈ applyDeleteSlave st g uri ↔ q ∈ st ∧
      (¬ ((objsOf st g uri muUuid).isEmpty = true ∨
          (objsOf st g uri admsIdentifier).isEmpty = true) →
        ¬ inDeleteSet g uri (uriObjsOf st g uri persoonHeeftGeboorte)
          (uriObjsOf st g uri admsIdentifier) q) := by
  unfold applyDeleteSlave
  by_cases hc : (objsOf st g uri muUuid).isEmpty = true ∨
      (objsOf st g uri admsIdentifier).isEmpty = true
  · rw [if_pos (by simpa using hc)]
    constructor
    · intro hq
      exact ⟨hq, fun hn => absurd hc hn⟩
    · intro hq
      exact hq.1
  · rw [if_neg (by simpa using hc)]
    rw [List.mem_filter]
    constructor
    · intro hq
      refine ⟨hq.1, fun _ => ?_⟩
      have := hq.2
      simpa using this
    · intro hq
      refine ⟨hq.1, ?_⟩
      simpa using hq.2 hc

/-- Membership after the master insert. -/
theorem mem_insertMaster {st : Store} {g : String} {m : Master} {q : Quad} :
    q ∈ applyOp st (.insertMaster g m) ↔ q ∈ st ∨ q ∈ masterQuads g m := by
  unfold applyOp
  exact List.mem_append

/-- Membership after the subject rewrite. -/
theorem mem_replaceSubj {st : Store} {g mu su : String} {q : Quad} :
    q ∈ applyOp st (.replaceSubj g mu su) ↔
      (q ∈ st ∧ ¬ (q.graph = g ∧ q.subj = su)) ∨
      (∃ q0 ∈ st, q0.graph = g ∧ q0.subj = su ∧ q = { q0 with subj := mu }) := by
  unfold applyOp
  rw [List.mem_append, List.mem_filter, List.mem_filterMap]
  constructor
  · rintro (⟨hq, hn⟩ | ⟨q0, hq0, hif⟩)
    · rw [decide_eq_true_eq] at hn
      exact Or.inl ⟨hq, hn⟩
    · by_cases hc : q0.graph = g ∧ q0.subj = su
      · rw [if_pos hc] at hif
        injection hif with hif
        exact Or.inr ⟨q0, hq0, hc.1, hc.2, hif.symm⟩
      · rw [if_neg hc] at hif
        exact absurd hif (by simp)
  · rintro (⟨hq, hn⟩ | ⟨q0, hq0, h1, h2, rfl⟩)
    · exact Or.inl ⟨hq, by rw [decide_eq_true_eq]; exact hn⟩
    · refine Or.inr ⟨q0, hq0, ?_⟩
      rw [if_pos ⟨h1, h2⟩]

/-- Membership after the object rewrite. -/
theorem mem_replaceObj {st : Store} {g mu su : String} {q : Quad} :
    q ∈ applyOp st (.replaceObj g mu su) ↔
      (q ∈ st ∧ ¬ (q.graph = g ∧ q.obj = Node.uri su)) ∨
      (∃ q0 ∈ st, q0.graph = g ∧ q0.obj = Node.uri su ∧ q = { q0 with obj := Node.uri mu }) := by
  unfold applyOp
  rw [List.mem_append, List.mem_filter, List.mem_filterMap]
  constructor
  · rintro (⟨hq, hn⟩ | ⟨q0, hq0, hif⟩)
    · rw [decide_eq_true_eq] at hn
      exact Or.inl ⟨hq, hn⟩
    · by_cases hc : q0.graph = g ∧ q0.obj = Node.uri su
      · rw [if_pos hc] at hif
        injection hif with hif
        exact Or.inr ⟨q0, hq0, hc.1, hc.2, hif.symm⟩
      · rw [if_neg hc] at hif
        exact absurd hif (by simp)
  · rintro (⟨hq, hn⟩ | ⟨q0, hq0, h1, h2, rfl⟩)
    · exact Or.inl ⟨hq, by rw [decide_eq_true_eq]; exact hn⟩
    · refine Or.inr ⟨q0, hq0, ?_⟩
      rw [if_pos ⟨h1, h2⟩]

/-- Membership after the equivalence-link insert. -/
theorem mem_insertSameAs {st : Store} {g mu su : String} {q : Quad} :
    q ∈ applyOp st (.insertSameAs g mu su) ↔
      q ∈ st ∨ q = Quad.mk g su owlSameAs (Node.uri mu) := by
  unfold applyOp
  rw [List.mem_append]
  simp

/-- Rewriting a URI to itself in subject position preserves membership. -/
theorem mem_replaceSubj_self {st : Store} {g u : String} {q : Quad} :
    q ∈ applyOp st (.replaceSubj g u u) ↔ q ∈ st := by
  rw [mem_replaceSubj]
  constructor
  · rintro (⟨hq, -⟩ | ⟨q0, hq0, h1, h2, rfl⟩)
    · exact hq
    · have : q0 = { q0 with subj := u } := by
        cases q0
        simp_all
      rwa [← this]
  · intro hq
    by_cases hc : q.graph = g ∧ q.subj = u
    · refine Or.inr ⟨q, hq, hc.1, hc.2, ?_⟩
      cases q
      simp_all
    · exact Or.inl ⟨hq, hc⟩

/-- Rewriting a URI to itself in object position preserves membership. -/
theorem mem_replaceObj_self {st : Store} {g u : String} {q : Quad} :
    q ∈ applyOp st (.replaceObj g u u) ↔ q ∈ st := by
  rw [mem_replaceObj]
  constructor
  · rintro (⟨hq, -⟩ | ⟨q0, hq0, h1, h2, rfl⟩)
    · exact hq
    · have : q0 = { q0 with obj := Node.uri u } := by
        cases q0
        simp_all
      rwa [← this]
  · intro hq
    by_cases hc : q.graph = g ∧ q.obj = Node.uri u
    · refine Or.inr ⟨q, hq, hc.1, hc.2, ?_⟩
      cases q
      simp_all
    · exact Or.inl ⟨hq, hc⟩

/-- Tail of the optional-block solutions. -/
def optTail (xs : List Node) : List (Option Node) :=
  match xs with
  | [] => []
  | _ :: ys => ys.map some

/-- Cons shape of the optional-block solutions: the head solution binds
the first value when one exists. -/
theorem optRows_eq (xs : List Node) : optRows xs = xs.head? :: optTail xs := by
  cases xs <;> rfl

/-- The first solution of the birthdate block. -/
def birthHead (st : Store) (g uri : String) : Option Node × Option Node × Option Node :=
  match (objsOf st g uri persoonHeeftGeboorte).head? with
  | none => (none, none, none)
  | some b => (some b, (nodeObjs st g b muUuid).head?, (nodeObjs st g b persoonDatum).head?)

/-- The birthdate block always has a first solution, built from first
values. -/
theorem birthRows_cons (st : Store) (g uri : String) :
    ∃ t, birthRows st g uri = birthHead st g uri :: t := by
  unfold birthRows birthHead
  cases hb : objsOf st g uri persoonHeeftGeboorte with
  | nil => exact ⟨[], rfl⟩
  | cons b bs =>
    simp only [List.head?_cons, List.flatMap_cons, optRows_eq, List.map_cons, List.cons_append]
    exact ⟨_, rfl⟩

/-- The query of getPerson has a first solution as soon as the mandatory
uuid and identifier patterns match, and that solution binds first
values throughout. -/
theorem personBindings_cons (st : Store) (g uri : String) (u : Node) (us : List Node)
    (i : Node) (is_ : List Node)
    (hu : objsOf st g uri muUuid = u :: us)
    (hi : objsOf st g uri admsIdentifier = i :: is_) :
    ∃ t, personBindings st g uri =
      { uuid := u.val
        identifier := i.val
        familyName := (objsOf st g uri foafFamilyName).head?.map Node.val
        name := (objsOf st g uri foafName).head?.map Node.val
        firstName := (objsOf st g uri persoonGebruikteVoornaam).head?.map Node.val
        birthdate := (birthHead st g uri).1.map Node.val
        geboorteUuid := (birthHead st g uri).2.1.map Node.val
        date := (birthHead st g uri).2.2.map Node.val
        identifierUuid := (nodeObjs st g i muUuid).head?.map Node.val
        gender := (objsOf st g uri persoonGeslacht).head?.map Node.val
        notat := (nodeObjs st g i skosNotationP).head?.map Node.val } :: t := by
  obtain ⟨tb, hbr⟩ := birthRows_cons st g uri
  unfold personBindings
  simp only [hu, hi, hbr, optRows_eq, List.flatMap_cons, List.map_cons, List.cons_append]
  exact ⟨_, rfl⟩

/-- Lookup on an optional entry of the same key gives the stored value. -/
theorem getProp_optEntry_self (k : String) (v : Option String) :
    getProp (optEntry k v) k = v := by
  cases v with
  | none => rfl
  | some w =>
    unfold optEntry
    exact getProp_cons_self rfl

/-- Lookup on an optional entry of a different key misses. -/
theorem getProp_optEntry_ne {k p : String} (v : Option String) (h : ¬ k = p) :
    getProp (optEntry k v) p = none := by
  cases v with
  | none => rfl
  | some w =>
    unfold optEntry
    exact getProp_singleton_ne h

/-- Facts about the bundle fetched for a person with at least one uuid
and identifier: getPerson succeeds and the bundle's records carry the
person URI, the first uuid, the first identifier with its first notation,
and the first birth event when one is linked. -/
theorem getPerson_facts (st : Store) (g uri : String) (u : Node) (us : List Node)
    (i : Node) (is_ : List Node)
    (hu : objsOf st g uri muUuid = u :: us)
    (hi : objsOf st g uri admsIdentifier = i :: is_) :
    ∃ bundle, getPerson st g uri = some bundle ∧
      bundle.graph = g ∧
      getProp bundle.person "uri" = some uri ∧
      getProp bundle.person "uuid" = some u.val ∧
      getProp bundle.identifier "uri" = some i.val ∧
      getProp bundle.identifier "notation" = (nodeObjs st g i skosNotationP).head?.map Node.val ∧
      ((objsOf st g uri persoonHeeftGeboorte).head? = none → bundle.birthdate = none) ∧
      (∀ b, (objsOf st g uri persoonHeeftGeboorte).head? = some b →
        ∃ brec, bundle.birthdate = some brec ∧ getProp brec "uri" = some b.val) := by
  obtain ⟨t, hpb⟩ := personBindings_cons st g uri u us i is_ hu hi
  unfold getPerson
  rw [hpb]
  simp only [List.cons_append, List.nil_append]
  refine ⟨_, rfl, rfl, ?_, ?_, ?_, ?_, ?_, ?_⟩
  · exact getProp_cons_self rfl
  · rw [getProp_cons_ne (by intro h; simp at h)]
    exact getProp_cons_self rfl
  · exact getProp_cons_self rfl
  · rw [getProp_cons_ne (by intro h; simp at h), getProp_append,
      getProp_optEntry_ne _ (by decide), Option.none_or]
    exact getProp_optEntry_self _ _
  · intro hbh
    unfold birthHead
    rw [hbh]
    rfl
  · intro b hbh
    unfold birthHead
    rw [hbh]
    exact ⟨_, rfl, getProp_cons_self rfl⟩

/-- Membership in the dedup helper. -/
theorem mem_dedupFirstAux [DecidableEq α] (seen : List α) (l : List α) (a : α) :
    a ∈ dedupFirstAux seen l ↔ a ∈ l ∧ a ∉ seen := by
  induction l generalizing seen with
  | nil => simp [dedupFirstAux]
  | cons x xs ih =>
    unfold dedupFirstAux
    by_cases hx : x ∈ seen
    · rw [if_pos hx, ih]
      constructor
      · rintro ⟨h1, h2⟩
        exact ⟨List.mem_cons_of_mem x h1, h2⟩
      · rintro ⟨h1, h2⟩
        cases List.mem_cons.mp h1 with
        | inl he => exact absurd (he ▸ hx) h2
        | inr hm => exact ⟨hm, h2⟩
    · rw [if_neg hx]
      rw [List.mem_cons, ih]
      constructor
      · rintro (rfl | ⟨h1, h2⟩)
        · exact ⟨List.mem_cons_self a xs, hx⟩
        · exact ⟨List.mem_cons_of_mem x h1,
            fun hs => h2 (List.mem_cons_of_mem x hs)⟩
      · rintro ⟨h1, h2⟩
        by_cases hax : a = x
        · exact Or.inl hax
        · cases List.mem_cons.mp h1 with
          | inl he => exact absurd he hax
          | inr hm =>
            refine Or.inr ⟨hm, fun hs => ?_⟩
            cases List.mem_cons.mp hs with
            | inl he => exact hax he
            | inr hm2 => exact h2 hm2

/-- Membership is preserved by deduplication. -/
theorem mem_dedupFirst [DecidableEq α] {l : List α} {a : α} :
    a ∈ dedupFirst l ↔ a ∈ l := by
  unfold dedupFirst
  rw [mem_dedupFirstAux]
  simp

/-- Deduplication yields distinct elements. -/
theorem nodup_dedupFirstAux [DecidableEq α] (seen l : List α) :
    (dedupFirstAux seen l).Nodup := by
  induction l generalizing seen with
  | nil => exact List.nodup_nil
  | cons x xs ih =>
    unfold dedupFirstAux
    by_cases hx : x ∈ seen
    · rw [if_pos hx]
      exact ih seen
    · rw [if_neg hx]
      refine List.nodup_cons.mpr ⟨fun hmem => ?_, ih (x :: seen)⟩
      exact ((mem_dedupFirstAux (x :: seen) xs x).mp hmem).2 (List.mem_cons_self x seen)

/-- Deduplication yields distinct elements. -/
theorem nodup_dedupFirst [DecidableEq α] (l : List α) : (dedupFirst l).Nodup :=
  nodup_dedupFirstAux [] l

/-- Membership in the resolver result. -/
theorem mem_getDuplicatePersonUris {st : Store} {rrn g p : String} :
    (g, p) ∈ getDuplicatePersonUris st rrn ↔
      keyPatterned st g p rrn ∧ hasOtherDuplicate st p rrn := by
  unfold getDuplicatePersonUris
  rw [mem_dedupFirst, List.mem_filter, List.mem_filterMap]
  constructor
  · rintro ⟨⟨q, hq, hif⟩, hcond⟩
    by_cases hc : q.pred = rdfType ∧ q.obj = Node.uri personPerson
    · rw [if_pos hc] at hif
      injection hif with h1
      have hgq : q.graph = g := congrArg Prod.fst h1
      have hpq : q.subj = p := congrArg Prod.snd h1
      simp only [Bool.and_eq_true, decide_eq_true_eq] at hcond
      refine ⟨⟨?_, hcond.1⟩, hcond.2⟩
      unfold isTypedPerson
      have : q = Quad.mk g p rdfType (Node.uri personPerson) := by
        cases q
        simp_all
      rwa [this] at hq
    · rw [if_neg hc] at hif
      exact absurd hif (by simp)
  · rintro ⟨⟨ht, hk⟩, ho⟩
    refine ⟨⟨Quad.mk g p rdfType (Node.uri personPerson), ht, by simp⟩, ?_⟩
    simp only [Bool.and_eq_true, decide_eq_true_eq]
    exact ⟨hk, ho⟩

/-- The resolver result has no duplicate pairs. -/
theorem nodup_getDuplicatePersonUris (st : Store) (rrn : String) :
    (getDuplicatePersonUris st rrn).Nodup := by
  unfold getDuplicatePersonUris
  exact nodup_dedupFirst _

/-- When the resolver finds anything, it finds every patterned pair: a
patterned person always has a differing patterned partner then. -/
theorem cands_complete {st : Store} {rrn : String}
    (hne : getDuplicatePersonUris st rrn ≠ []) {g p : String}
    (hk : keyPatterned st g p rrn) : (g, p) ∈ getDuplicatePersonUris st rrn := by
  obtain ⟨gp0, h0⟩ := List.exists_mem_of_ne_nil _ hne
  obtain ⟨g0, p0⟩ := gp0
  obtain ⟨hk0, hod0⟩ := mem_getDuplicatePersonUris.mp h0
  obtain ⟨h2, p2, hne2, hk2⟩ := hod0
  refine mem_getDuplicatePersonUris.mpr ⟨hk, ?_⟩
  by_cases hpp : p = p0
  · exact ⟨h2, p2, by rw [hpp]; exact hne2, hk2⟩
  · exact ⟨g0, p0, fun he => hpp he.symm, hk0⟩

/-- Updates only touch quads of their own graph. -/
theorem mem_applyOp_other_graph {st : Store} {op : StoreOp} {q : Quad}
    (h : ¬ q.graph = op.graphOf) : q ∈ applyOp st op ↔ q ∈ st := by
  cases op with
  | deleteSlave g u =>
    unfold StoreOp.graphOf at h
    show q ∈ applyDeleteSlave st g u ↔ q ∈ st
    rw [mem_applyDeleteSlave]
    constructor
    · exact fun hq => hq.1
    · intro hq
      refine ⟨hq, fun _ hdel => ?_⟩
      exact h hdel.1
  | insertMaster g m =>
    unfold StoreOp.graphOf at h
    rw [mem_insertMaster]
    constructor
    · rintro (hq | hq)
      · exact hq
      · unfold masterQuads at hq
        cases hmt : masterTriplesE m with
        | error e =>
          rw [hmt] at hq
          exact absurd hq (by simp)
        | ok ts =>
          rw [hmt] at hq
          rcases List.mem_map.mp hq with ⟨t, -, rfl⟩
          exact absurd rfl h
    · exact Or.inl
  | replaceSubj g mu su =>
    unfold StoreOp.graphOf at h
    rw [mem_replaceSubj]
    constructor
    · rintro (⟨hq, -⟩ | ⟨q0, hq0, h1, h2, rfl⟩)
      · exact hq
      · exact absurd h1 h
    · intro hq
      exact Or.inl ⟨hq, fun hc => h hc.1⟩
  | replaceObj g mu su =>
    unfold StoreOp.graphOf at h
    rw [mem_replaceObj]
    constructor
    · rintro (⟨hq, -⟩ | ⟨q0, hq0, h1, h2, rfl⟩)
      · exact hq
      · exact absurd h1 h
    · intro hq
      exact Or.inl ⟨hq, fun hc => h hc.1⟩
  | insertSameAs g mu su =>
    unfold StoreOp.graphOf at h
    rw [mem_insertSameAs]
    constructor
    · rintro (hq | rfl)
      · exact hq
      · exact absurd rfl h
    · exact Or.inl

/-- A non-empty head determines a cons shape. -/
theorem head_eq_some_cons {l : List α} {a : α} (h : l.head? = some a) :
    ∃ t, l = a :: t := by
  cases l with
  | nil => exact absurd h (by simp)
  | cons x xs =>
    refine ⟨xs, ?_⟩
    simp only [List.head?_cons, Option.some.injEq] at h
    rw [h]

/-- The slave-pattern delete only removes quads. -/
theorem mem_of_applyDeleteSlave {st : Store} {g uri : String} {q : Quad}
    (h : q ∈ applyDeleteSlave st g uri) : q ∈ st :=
  (mem_applyDeleteSlave.mp h).1

/-- Equivalence links survive the slave-pattern delete: no DELETE template
line has owl:sameAs as predicate. -/
theorem kept_del_sameAs {st : Store} {g uri : String} {q : Quad}
    (hq : q ∈ st) (hp : q.pred = owlSameAs) : q ∈ applyDeleteSlave st g uri := by
  refine mem_applyDeleteSlave.mpr ⟨hq, fun _ hdel => ?_⟩
  rcases hdel.2 with ⟨-, h, -⟩ | ⟨-, h⟩ | ⟨-, h | h | ⟨h, -⟩⟩ | ⟨-, h | h | ⟨h, -⟩⟩ <;>
    rw [hp] at h <;> revert h <;> decide

/-- Person-type triples of other subjects survive the slave-pattern
delete. -/
theorem kept_del_typePerson {st : Store} {g uri : String} {q : Quad}
    (hq : q ∈ st) (hp : q.pred = rdfType) (ho : q.obj = Node.uri personPerson)
    (hs : ¬ q.subj = uri) : q ∈ applyDeleteSlave st g uri := by
  refine mem_applyDeleteSlave.mpr ⟨hq, fun _ hdel => ?_⟩
  rcases hdel.2 with ⟨h, -, -⟩ | ⟨h, -⟩ | ⟨-, h | h | ⟨-, h⟩⟩ | ⟨-, h | h | ⟨-, h⟩⟩
  · exact hs h
  · exact hs h
  · rw [hp] at h; revert h; decide
  · rw [hp] at h; revert h; decide
  · rw [ho] at h; revert h; decide
  · rw [hp] at h; revert h; decide
  · rw [hp] at h; revert h; decide
  · rw [ho] at h; revert h; decide

/-- Identifier links of other subjects survive the slave-pattern delete. -/
theorem kept_del_adms {st : Store} {g uri : String} {q : Quad}
    (hq : q ∈ st) (hp : q.pred = admsIdentifier) (hs : ¬ q.subj = uri) :
    q ∈ applyDeleteSlave st g uri := by
  refine mem_applyDeleteSlave.mpr ⟨hq, fun _ hdel => ?_⟩
  rcases hdel.2 with ⟨h, -, -⟩ | ⟨h, -⟩ | ⟨-, h | h | ⟨h, -⟩⟩ | ⟨-, h | h | ⟨h, -⟩⟩
  · exact hs h
  · exact hs h
  all_goals rw [hp] at h; revert h; decide

/-- A quad survives the subject rewrite unless it carries the rewritten
subject; a self-rewrite keeps everything. -/
theorem kept_rsub {st : Store} {g mu su : String} {q : Quad}
    (hq : q ∈ st) (h : ¬ q.subj = su ∨ mu = su) :
    q ∈ applyOp st (.replaceSubj g mu su) := by
  by_cases hself : mu = su
  · subst hself
    exact mem_replaceSubj_self.mpr hq
  · rcases h with h | h
    · exact mem_replaceSubj.mpr (Or.inl ⟨hq, fun hc => h hc.2⟩)
    · exact absurd h hself

/-- A quad survives the object rewrite unless it carries the rewritten
object; a self-rewrite keeps everything. -/
theorem kept_robj {st : Store} {g mu su : String} {q : Quad}
    (hq : q ∈ st) (h : ¬ q.obj = Node.uri su ∨ mu = su) :
    q ∈ applyOp st (.replaceObj g mu su) := by
  by_cases hself : mu = su
  · subst hself
    exact mem_replaceObj_self.mpr hq
  · rcases h with h | h
    · exact mem_replaceObj.mpr (Or.inl ⟨hq, fun hc => h hc.2⟩)
    · exact absurd h hself

/-- Inserts keep every existing quad. -/
theorem kept_same {st : Store} {g mu su : String} {q : Quad} (hq : q ∈ st) :
    q ∈ applyOp st (.insertSameAs g mu su) :=
  mem_insertSameAs.mpr (Or.inl hq)

/-- Inserts keep every existing quad. -/
theorem kept_insM {st : Store} {g : String} {m : Master} {q : Quad} (hq : q ∈ st) :
    q ∈ applyOp st (.insertMaster g m) :=
  mem_insertMaster.mpr (Or.inl hq)

/-- Unfolding of the update fold. -/
theorem applyOps_nil (st : Store) : applyOps st [] = st := rfl

/-- Unfolding of the update fold. -/
theorem applyOps_cons (st : Store) (op : StoreOp) (ops : List StoreOp) :
    applyOps st (op :: ops) = applyOps (applyOp st op) ops := rfl

/-- The update fold splits over concatenation. -/
theorem applyOps_append (st : Store) (a b : List StoreOp) :
    applyOps st (a ++ b) = applyOps (applyOps st a) b := by
  unfold applyOps
  exact List.foldl_append applyOp st a b

/-- A sequence of updates scoped to one graph leaves the quads of every
other graph untouched. -/
theorem applyOps_other_graph {g : String} {ops : List StoreOp}
    (h : ∀ op ∈ ops, op.graphOf = g) {st : Store} {q : Quad}
    (hq : ¬ q.graph = g) : q ∈ applyOps st ops ↔ q ∈ st := by
  induction ops generalizing st with
  | nil => rw [applyOps_nil]
  | cons op rest ih =>
    rw [applyOps_cons, ih fun o ho => h o (List.mem_cons_of_mem op ho)]
    refine mem_applyOp_other_graph ?_
    rw [h op (List.mem_cons_self op rest)]
    exact hq

/-- Inversion of a conditionally pushed statement. -/
theorem mem_optStmt {r : Rec} {p : String} {mk : String → String × String × Node}
    {t : String × String × Node} (h : t ∈ optStmt r p mk) :
    ∃ v, getProp r p = some v ∧ ¬ v = "" ∧ t = mk v := by
  unfold optStmt at h
  split at h
  next v heq =>
    split at h
    next => exact absurd h (by simp)
    next hv => rcases List.mem_singleton.mp h with rfl; exact ⟨v, heq, hv, rfl⟩
  next => exact absurd h (by simp)

/-- A truthy attribute produces its statement. -/
theorem optStmt_mem {r : Rec} {p v : String} {mk : String → String × String × Node}
    (hg : getProp r p = some v) (hv : ¬ v = "") : mk v ∈ optStmt r p mk := by
  unfold optStmt
  rw [hg]
  show mk v ∈ if v = "" then [] else [mk v]
  rw [if_neg hv]
  exact List.mem_singleton.mpr rfl

/-- Person URIs of the candidate pairs of a key. -/
def candPs (st : Store) (rrn : String) : List String :=
  (getDuplicatePersonUris st rrn).map fun gp => gp.2

/-- Identifier URIs linked from candidate persons in their graphs. -/
def candIs (st : Store) (rrn : String) : List String :=
  (getDuplicatePersonUris st rrn).flatMap fun gp =>
    uriObjsOf st gp.1 gp.2 admsIdentifier

/-- Birth-event URIs linked from candidate persons in their graphs. -/
def candBs (st : Store) (rrn : String) : List String :=
  (getDuplicatePersonUris st rrn).flatMap fun gp =>
    uriObjsOf st gp.1 gp.2 persoonHeeftGeboorte

/-- The well-formedness assumptions of the data model under which the
reconciliation invariants hold: the key is non-empty; every candidate has
a first uuid with a non-empty value, exactly one identifier (with a
non-empty URI and with the key as its only notation) and URI-valued first
birth events with non-empty URIs; person, identifier and birth-event URIs
of candidates play only one role, are non-empty and differ from the
person class URI; identifier and birth-event URIs of candidates are not
themselves typed as persons, nor do persons or birth events carry the key
as a notation; and any person-typed resource linked to a candidate's
identifier is itself a candidate (identifiers are not shared with
non-candidates). -/
def WellFormed (st : Store) (rrn : String) : Prop :=
  ¬ rrn = "" ∧
  (∀ gp ∈ getDuplicatePersonUris st rrn,
    (∃ u ∈ (objsOf st gp.1 gp.2 muUuid).head?.toList, ¬ u.val = "") ∧
    (∃ i ∈ uriObjsOf st gp.1 gp.2 admsIdentifier,
      objsOf st gp.1 gp.2 admsIdentifier = [Node.uri i] ∧ ¬ i = "" ∧
      objsOf st gp.1 i skosNotationP = [Node.lit rrn]) ∧
    (∀ b ∈ (objsOf st gp.1 gp.2 persoonHeeftGeboorte).head?.toList,
      ∃ bu ∈ uriObjsOf st gp.1 gp.2 persoonHeeftGeboorte,
        b = Node.uri bu ∧ ¬ bu = "")) ∧
  (∀ p ∈ candPs st rrn,
    ¬ p = "" ∧ ¬ p = personPerson ∧ p ∉ candIs st rrn ∧ p ∉ candBs st rrn) ∧
  (∀ i ∈ candIs st rrn, ¬ i = personPerson ∧ i ∉ candBs st rrn) ∧
  (∀ b ∈ candBs st rrn, ¬ b = personPerson) ∧
  (∀ q ∈ st, q.pred = rdfType → q.obj = Node.uri personPerson →
    q.subj ∉ candIs st rrn ∧ q.subj ∉ candBs st rrn) ∧
  (∀ q ∈ st, q.pred = skosNotationP → q.obj = Node.lit rrn →
    q.subj ∉ candPs st rrn ∧ q.subj ∉ candBs st rrn) ∧
  (∀ q ∈ st, q.pred = admsIdentifier → ∀ i ∈ candIs st rrn,
    q.obj = Node.uri i → (q.graph, q.subj) ∈ getDuplicatePersonUris st rrn)

instance (st : Store) (rrn : String) : Decidable (WellFormed st rrn) := by
  unfold WellFormed
  refine @instDecidableAnd _ _ ?_ (@instDecidableAnd _ _ ?_ (@instDecidableAnd _ _ ?_
    (@instDecidableAnd _ _ ?_ (@instDecidableAnd _ _ ?_ (@instDecidableAnd _ _ ?_
    (@instDecidableAnd _ _ ?_ ?_))))))
  all_goals infer_instance

/-- A present value passes the null check. -/
theorem requireSome (a : α) : require (some a) = Except.ok a := rfl

/-- Structure of the master insert: given a well-formed master record, the
inserted quads contain the person type triple, the identifier link and
the key notation, and every inserted quad lives in the target graph, has
the master person, identifier or birth-event URI as subject, types only
the master person as person, carries notations only on the master
identifier, identifier links only from the person to the identifier, and
never uses owl:sameAs. -/
theorem masterQuads_facts (g : String) (m : Master) (mp mi : Rec)
    (P1 U1 I1 rrn : String) (B1? : Option String)
    (hp : m.person = some mp) (hpu : getProp mp "uri" = some P1)
    (hpuuid : getProp mp "uuid" = some U1)
    (hpid : getProp mp "identifier" = some I1) (hI1ne : ¬ I1 = "")
    (hi : m.identifier = some mi) (hiu : getProp mi "uri" = some I1)
    (hin : getProp mi "notation" = some rrn) (hrrnne : ¬ rrn = "")
    (hb : (m.birthdate = none ∧ B1? = none) ∨
      (∃ mb B1, m.birthdate = some mb ∧ getProp mb "uri" = some B1 ∧ B1? = some B1)) :
    Quad.mk g P1 rdfType (Node.uri personPerson) ∈ masterQuads g m ∧
    Quad.mk g P1 admsIdentifier (Node.uri I1) ∈ masterQuads g m ∧
    Quad.mk g I1 skosNotationP (Node.lit rrn) ∈ masterQuads g m ∧
    ∀ q ∈ masterQuads g m, q.graph = g ∧
      (q.subj = P1 ∨ q.subj = I1 ∨ B1? = some q.subj) ∧
      (q.pred = rdfType → q.obj = Node.uri personPerson → q.subj = P1) ∧
      (q.pred = skosNotationP → q.subj = I1) ∧
      (q.pred = admsIdentifier → q.subj = P1 ∧ q.obj = Node.uri I1) ∧
      ¬ q.pred = owlSameAs := by
  obtain ⟨bp, hts, hbf⟩ : ∃ bp, masterTriplesE m = .ok (
      ([(P1, rdfType, Node.uri personPerson), (P1, muUuid, Node.lit U1)]
        ++ optStmt mp "familyName" (fun v => (P1, foafFamilyName, Node.lit v))
        ++ optStmt mp "name" (fun v => (P1, foafName, Node.lit v))
        ++ optStmt mp "firstName" (fun v => (P1, persoonGebruikteVoornaam, Node.lit v))
        ++ optStmt mp "identifier" (fun v => (P1, admsIdentifier, Node.uri v))
        ++ optStmt mp "birthdate" (fun v => (P1, persoonHeeftGeboorte, Node.uri v))
        ++ optStmt mp "gender" (fun v => (P1, persoonGeslacht, Node.uri v)))
      ++ ([(I1, rdfType, Node.uri admsIdentifierClass)]
        ++ optStmt mi "uuid" (fun v => (I1, muUuid, Node.lit v))
        ++ optStmt mi "notation" (fun v => (I1, skosNotationP, Node.lit v)))
      ++ bp) ∧
      ∀ t ∈ bp, B1? = some t.1 ∧
        (t.2.1 = rdfType → ¬ t.2.2 = Node.uri personPerson) ∧
        ¬ t.2.1 = skosNotationP ∧ ¬ t.2.1 = admsIdentifier ∧
        ¬ t.2.1 = owlSameAs := by
    rcases hb with ⟨hbn, hBn⟩ | ⟨mb, B1, hbs, hbu, hB⟩
    · refine ⟨[], ?_, by simp⟩
      simp only [masterTriplesE, hp, hpu, hpuuid, hi, hiu, hbn, requireSome,
        exceptBindOk, exceptPure, List.append_nil]
    · refine ⟨[(B1, rdfType, Node.uri persoonGeboorte)]
        ++ optStmt mb "uuid" (fun v => (B1, muUuid, Node.lit v))
        ++ optStmt mb "date" (fun v => (B1, persoonDatum, Node.lit v)), ?_, ?_⟩
      · simp only [masterTriplesE, hp, hpu, hpuuid, hi, hiu, hbs, hbu, requireSome,
          exceptBindOk, exceptPure]
      · intro t ht
        rw [hB]
        simp only [List.append_assoc, List.mem_append, List.mem_cons, List.not_mem_nil,
          or_false, or_assoc] at ht
        rcases ht with rfl | ht | ht
        · exact ⟨rfl,
            fun _ hob => absurd hob
              (by decide : ¬ Node.uri persoonGeboorte = Node.uri personPerson),
            fun h => absurd h (by decide : ¬ rdfType = skosNotationP),
            fun h => absurd h (by decide : ¬ rdfType = admsIdentifier),
            fun h => absurd h (by decide : ¬ rdfType = owlSameAs)⟩
        · obtain ⟨v, -, -, rfl⟩ := mem_optStmt ht
          exact ⟨rfl, fun h => absurd h (by decide : ¬ muUuid = rdfType),
            fun h => absurd h (by decide : ¬ muUuid = skosNotationP),
            fun h => absurd h (by decide : ¬ muUuid = admsIdentifier),
            fun h => absurd h (by decide : ¬ muUuid = owlSameAs)⟩
        · obtain ⟨v, -, -, rfl⟩ := mem_optStmt ht
          exact ⟨rfl, fun h => absurd h (by decide : ¬ persoonDatum = rdfType),
            fun h => absurd h (by decide : ¬ persoonDatum = skosNotationP),
            fun h => absurd h (by decide : ¬ persoonDatum = admsIdentifier),
            fun h => absurd h (by decide : ¬ persoonDatum = owlSameAs)⟩
  have hq : masterQuads g m =
      (([(P1, rdfType, Node.uri personPerson), (P1, muUuid, Node.lit U1)]
        ++ optStmt mp "familyName" (fun v => (P1, foafFamilyName, Node.lit v))
        ++ optStmt mp "name" (fun v => (P1, foafName, Node.lit v))
        ++ optStmt mp "firstName" (fun v => (P1, persoonGebruikteVoornaam, Node.lit v))
        ++ optStmt mp "identifier" (fun v => (P1, admsIdentifier, Node.uri v))
        ++ optStmt mp "birthdate" (fun v => (P1, persoonHeeftGeboorte, Node.uri v))
        ++ optStmt mp "gender" (fun v => (P1, persoonGeslacht, Node.uri v)))
      ++ ([(I1, rdfType, Node.uri admsIdentifierClass)]
        ++ optStmt mi "uuid" (fun v => (I1, muUuid, Node.lit v))
        ++ optStmt mi "notation" (fun v => (I1, skosNotationP, Node.lit v)))
      ++ bp).map fun t => Quad.mk g t.1 t.2.1 t.2.2 := by
    unfold masterQuads
    rw [hts]
  refine ⟨?_, ?_, ?_, ?_⟩
  · rw [hq]
    refine List.mem_map.mpr ⟨(P1, rdfType, Node.uri personPerson), ?_, rfl⟩
    simp
  · rw [hq]
    refine List.mem_map.mpr ⟨(P1, admsIdentifier, Node.uri I1), ?_, rfl⟩
    have hmemI : (P1, admsIdentifier, Node.uri I1) ∈
        optStmt mp "identifier" (fun v => (P1, admsIdentifier, Node.uri v)) :=
      optStmt_mem hpid hI1ne
    simp [hmemI]
  · rw [hq]
    refine List.mem_map.mpr ⟨(I1, skosNotationP, Node.lit rrn), ?_, rfl⟩
    have hmemN : (I1, skosNotationP, Node.lit rrn) ∈
        optStmt mi "notation" (fun v => (I1, skosNotationP, Node.lit v)) :=
      optStmt_mem hin hrrnne
    simp [hmemN]
  · intro q hmem
    rw [hq] at hmem
    obtain ⟨t, ht, rfl⟩ := List.mem_map.mp hmem
    simp only [List.append_assoc, List.mem_append, List.mem_cons, List.not_mem_nil,
      or_false, or_assoc] at ht
    rcases ht with rfl | rfl | ht | ht | ht | ht | ht | ht | rfl | ht | ht | ht
    · exact ⟨rfl, Or.inl rfl, fun _ _ => rfl,
        fun h => absurd h (by decide : ¬ rdfType = skosNotationP),
        fun h => absurd h (by decide : ¬ rdfType = admsIdentifier),
        fun h => absurd h (by decide : ¬ rdfType = owlSameAs)⟩
    · exact ⟨rfl, Or.inl rfl,
        fun h _ => absurd h (by decide : ¬ muUuid = rdfType),
        fun h => absurd h (by decide : ¬ muUuid = skosNotationP),
        fun h => absurd h (by decide : ¬ muUuid = admsIdentifier),
        fun h => absurd h (by decide : ¬ muUuid = owlSameAs)⟩
    · obtain ⟨v, -, -, rfl⟩ := mem_optStmt ht
      exact ⟨rfl, Or.inl rfl,
        fun h _ => absurd h (by decide : ¬ foafFamilyName = rdfType),
        fun h => absurd h (by decide : ¬ foafFamilyName = skosNotationP),
        fun h => absurd h (by decide : ¬ foafFamilyName = admsIdentifier),
        fun h => absurd h (by decide : ¬ foafFamilyName = owlSameAs)⟩
    · obtain ⟨v, -, -, rfl⟩ := mem_optStmt ht
      exact ⟨rfl, Or.inl rfl,
        fun h _ => absurd h (by decide : ¬ foafName = rdfType),
        fun h => absurd h (by decide : ¬ foafName = skosNotationP),
        fun h => absurd h (by decide : ¬ foafName = admsIdentifier),
        fun h => absurd h (by decide : ¬ foafName = owlSameAs)⟩
    · obtain ⟨v, -, -, rfl⟩ := mem_optStmt ht
      exact ⟨rfl, Or.inl rfl,
        fun h _ => absurd h (by decide : ¬ persoonGebruikteVoornaam = rdfType),
        fun h => absurd h (by decide : ¬ persoonGebruikteVoornaam = skosNotationP),
        fun h => absurd h (by decide : ¬ persoonGebruikteVoornaam = admsIdentifier),
        fun h => absurd h (by decide : ¬ persoonGebruikteVoornaam = owlSameAs)⟩
    · obtain ⟨v, hv, -, rfl⟩ := mem_optStmt ht
      refine ⟨rfl, Or.inl rfl,
        fun h _ => absurd h (by decide : ¬ admsIdentifier = rdfType),
        fun h => absurd h (by decide : ¬ admsIdentifier = skosNotationP),
        fun _ => ⟨rfl, ?_⟩,
        fun h => absurd h (by decide : ¬ admsIdentifier = owlSameAs)⟩
      rw [hpid] at hv
      obtain rfl := Option.some.inj hv
      rfl
    · obtain ⟨v, -, -, rfl⟩ := mem_optStmt ht
      exact ⟨rfl, Or.inl rfl,
        fun h _ => absurd h (by decide : ¬ persoonHeeftGeboorte = rdfType),
        fun h => absurd h (by decide : ¬ persoonHeeftGeboorte = skosNotationP),
        fun h => absurd h (by decide : ¬ persoonHeeftGeboorte = admsIdentifier),
        fun h => absurd h (by decide : ¬ persoonHeeftGeboorte = owlSameAs)⟩
    · obtain ⟨v, -, -, rfl⟩ := mem_optStmt ht
      exact ⟨rfl, Or.inl rfl,
        fun h _ => absurd h (by decide : ¬ persoonGeslacht = rdfType),
        fun h => absurd h (by decide : ¬ persoonGeslacht = skosNotationP),
        fun h => absurd h (by decide : ¬ persoonGeslacht = admsIdentifier),
        fun h => absurd h (by decide : ¬ persoonGeslacht = owlSameAs)⟩
    · exact ⟨rfl, Or.inr (Or.inl rfl),
        fun _ hob => absurd hob
          (by decide : ¬ Node.uri admsIdentifierClass = Node.uri personPerson),
        fun h => absurd h (by decide : ¬ rdfType = skosNotationP),
        fun h => absurd h (by decide : ¬ rdfType = admsIdentifier),
        fun h => absurd h (by decide : ¬ rdfType = owlSameAs)⟩
    · obtain ⟨v, -, -, rfl⟩ := mem_optStmt ht
      exact ⟨rfl, Or.inr (Or.inl rfl),
        fun h _ => absurd h (by decide : ¬ muUuid = rdfType),
        fun h => absurd h (by decide : ¬ muUuid = skosNotationP),
        fun h => absurd h (by decide : ¬ muUuid = admsIdentifier),
        fun h => absurd h (by decide : ¬ muUuid = owlSameAs)⟩
    · obtain ⟨v, -, -, rfl⟩ := mem_optStmt ht
      exact ⟨rfl, Or.inr (Or.inl rfl),
        fun h _ => absurd h (by decide : ¬ skosNotationP = rdfType),
        fun _ => rfl,
        fun h => absurd h (by decide : ¬ skosNotationP = admsIdentifier),
        fun h => absurd h (by decide : ¬ skosNotationP = owlSameAs)⟩
    · obtain ⟨hB, htp, hns, hna, hno⟩ := hbf t ht
      exact ⟨rfl, Or.inr (Or.inr hB), fun h ho => absurd ho (htp h),
        fun h => absurd h hns, fun h => absurd h hna, fun h => absurd h hno⟩

/-- Role facts of a run: the master URIs belong to the candidate role
lists, the role lists are pairwise disjoint, no role URI is the person
class, identifier and birth URIs are not typed as persons in the initial
store, and person and birth URIs carry no key notation there. -/
structure Roles (st0 : Store) (rrn P1 I1 : String) (B1? : Option String)
    (ps ids births : List String) : Prop where
  hP1 : P1 ∈ ps
  hI1 : I1 ∈ ids
  hB1 : ∀ b1, B1? = some b1 → b1 ∈ births
  dPI : ∀ p ∈ ps, p ∉ ids
  dPB : ∀ p ∈ ps, p ∉ births
  dIB : ∀ i ∈ ids, i ∉ births
  vP : ∀ p ∈ ps, ¬ p = personPerson
  vI : ∀ i ∈ ids, ¬ i = personPerson
  vB : ∀ b ∈ births, ¬ b = personPerson
  ntI : ∀ g x, x ∈ ids → Quad.mk g x rdfType (Node.uri personPerson) ∉ st0
  ntB : ∀ g x, x ∈ births → Quad.mk g x rdfType (Node.uri personPerson) ∉ st0
  nnP : ∀ g x, x ∈ ps → Quad.mk g x skosNotationP (Node.lit rrn) ∉ st0
  nnB : ∀ g x, x ∈ births → Quad.mk g x skosNotationP (Node.lit rrn) ∉ st0

/-- Provenance of person-type triples: every person-typed resource of the
current store was person-typed initially or is the master person. -/
def TypedProv (st0 : Store) (P1 : String) (cur : Store) : Prop :=
  ∀ g X, Quad.mk g X rdfType (Node.uri personPerson) ∈ cur →
    Quad.mk g X rdfType (Node.uri personPerson) ∈ st0 ∨ X = P1

/-- Provenance of key notations: every resource carrying the key as
notation carried it initially or is the master identifier. -/
def NotaProv (st0 : Store) (rrn I1 : String) (cur : Store) : Prop :=
  ∀ g X, Quad.mk g X skosNotationP (Node.lit rrn) ∈ cur →
    Quad.mk g X skosNotationP (Node.lit rrn) ∈ st0 ∨ X = I1

/-- Provenance of identifier links from resources outside the master
record: such a link existed initially, possibly with its object rewritten
from a slave role URI to the corresponding master URI. -/
def LinkProv (st0 : Store) (P1 I1 : String) (B1? : Option String)
    (ps ids births : List String) (cur : Store) : Prop :=
  ∀ g X iu, ¬ X = P1 → ¬ X = I1 → (∀ b1, B1? = some b1 → ¬ X = b1) →
    Quad.mk g X admsIdentifier (Node.uri iu) ∈ cur →
    Quad.mk g X admsIdentifier (Node.uri iu) ∈ st0 ∨
    (iu = P1 ∧ ∃ p2 ∈ ps, Quad.mk g X admsIdentifier (Node.uri p2) ∈ st0) ∨
    (iu = I1 ∧ ∃ i2 ∈ ids, Quad.mk g X admsIdentifier (Node.uri i2) ∈ st0) ∨
    (∃ b1, B1? = some b1 ∧ iu = b1 ∧
      ∃ b2 ∈ births, Quad.mk g X admsIdentifier (Node.uri b2) ∈ st0)

/-- The three provenance invariants together. -/
def Provs (st0 : Store) (rrn P1 I1 : String) (B1? : Option String)
    (ps ids births : List String) (cur : Store) : Prop :=
  TypedProv st0 P1 cur ∧ NotaProv st0 rrn I1 cur ∧
    LinkProv st0 P1 I1 B1? ps ids births cur

/-- Provenance only weakens on sub-stores. -/
theorem provs_subset {st0 : Store} {rrn P1 I1 : String} {B1? : Option String}
    {ps ids births : List String} {cur cur2 : Store}
    (hsub : ∀ q, q ∈ cur2 → q ∈ cur)
    (h : Provs st0 rrn P1 I1 B1? ps ids births cur) :
    Provs st0 rrn P1 I1 B1? ps ids births cur2 := by
  obtain ⟨hT, hN, hL⟩ := h
  exact ⟨fun g X hq => hT g X (hsub _ hq), fun g X hq => hN g X (hsub _ hq),
    fun g X iu h1 h2 h3 hq => hL g X iu h1 h2 h3 (hsub _ hq)⟩

/-- Provenance survives the slave-pattern delete. -/
theorem provs_del {st0 : Store} {rrn P1 I1 : String} {B1? : Option String}
    {ps ids births : List String} {cur : Store} {g u : String}
    (h : Provs st0 rrn P1 I1 B1? ps ids births cur) :
    Provs st0 rrn P1 I1 B1? ps ids births (applyOp cur (.deleteSlave g u)) :=
  provs_subset (fun _ hq => mem_of_applyDeleteSlave hq) h

/-- Provenance survives the master insert, by the shape of its quads. -/
theorem provs_insM {st0 : Store} {rrn P1 I1 : String} {B1? : Option String}
    {ps ids births : List String} {cur : Store} {g : String} {m : Master}
    (hMQ : ∀ q ∈ masterQuads g m, q.graph = g ∧
      (q.subj = P1 ∨ q.subj = I1 ∨ B1? = some q.subj) ∧
      (q.pred = rdfType → q.obj = Node.uri personPerson → q.subj = P1) ∧
      (q.pred = skosNotationP → q.subj = I1) ∧
      (q.pred = admsIdentifier → q.subj = P1 ∧ q.obj = Node.uri I1) ∧
      ¬ q.pred = owlSameAs)
    (h : Provs st0 rrn P1 I1 B1? ps ids births cur) :
    Provs st0 rrn P1 I1 B1? ps ids births (applyOp cur (.insertMaster g m)) := by
  obtain ⟨hT, hN, hL⟩ := h
  refine ⟨?_, ?_, ?_⟩
  · intro g2 X hq
    rcases mem_insertMaster.mp hq with hq | hq
    · exact hT g2 X hq
    · exact Or.inr ((hMQ _ hq).2.2.1 rfl rfl)
  · intro g2 X hq
    rcases mem_insertMaster.mp hq with hq | hq
    · exact hN g2 X hq
    · exact Or.inr ((hMQ _ hq).2.2.2.1 rfl)
  · intro g2 X iu h1 h2 h3 hq
    rcases mem_insertMaster.mp hq with hq | hq
    · exact hL g2 X iu h1 h2 h3 hq
    · exact absurd ((hMQ _ hq).2.2.2.2.1 rfl).1 h1

/-- Provenance survives a subject rewrite onto a master URI. -/
theorem provs_rsub {st0 : Store} {rrn P1 I1 : String} {B1? : Option String}
    {ps ids births : List String} {cur : Store} {g mu su : String}
    (R : Roles st0 rrn P1 I1 B1? ps ids births)
    (hrole : (mu = P1 ∧ su ∈ ps) ∨ (mu = I1 ∧ su ∈ ids) ∨
      (∃ b1, B1? = some b1 ∧ mu = b1 ∧ su ∈ births))
    (h : Provs st0 rrn P1 I1 B1? ps ids births cur) :
    Provs st0 rrn P1 I1 B1? ps ids births (applyOp cur (.replaceSubj g mu su)) := by
  obtain ⟨hT, hN, hL⟩ := h
  refine ⟨?_, ?_, ?_⟩
  · intro g2 X hq
    rcases mem_replaceSubj.mp hq with ⟨hq, -⟩ | ⟨q0, hq0, hg0, hs0, heq⟩
    · exact hT g2 X hq
    · obtain ⟨qg, qs, qp, qo⟩ := q0
      simp only [Quad.mk.injEq] at heq
      obtain ⟨rfl, rfl, rfl, rfl⟩ := heq
      simp only at hs0
      subst hs0
      rcases hrole with ⟨rfl, hsu⟩ | ⟨rfl, hsu⟩ | ⟨b1, hB, rfl, hsu⟩
      · exact Or.inr rfl
      · rcases hT g2 qs hq0 with hst | hP
        · exact absurd hst (R.ntI g2 qs hsu)
        · exact absurd (hP ▸ hsu) (R.dPI _ R.hP1)
      · rcases hT g2 qs hq0 with hst | hP
        · exact absurd hst (R.ntB g2 qs hsu)
        · exact absurd (hP ▸ hsu) (R.dPB _ R.hP1)
  · intro g2 X hq
    rcases mem_replaceSubj.mp hq with ⟨hq, -⟩ | ⟨q0, hq0, hg0, hs0, heq⟩
    · exact hN g2 X hq
    · obtain ⟨qg, qs, qp, qo⟩ := q0
      simp only [Quad.mk.injEq] at heq
      obtain ⟨rfl, rfl, rfl, rfl⟩ := heq
      simp only at hs0
      subst hs0
      rcases hrole with ⟨rfl, hsu⟩ | ⟨rfl, hsu⟩ | ⟨b1, hB, rfl, hsu⟩
      · rcases hN g2 qs hq0 with hst | hI
        · exact absurd hst (R.nnP g2 qs hsu)
        · exact absurd R.hI1 (R.dPI _ (hI ▸ hsu))
      · exact Or.inr rfl
      · rcases hN g2 qs hq0 with hst | hI
        · exact absurd hst (R.nnB g2 qs hsu)
        · exact absurd (hI ▸ hsu) (R.dIB _ R.hI1)
  · intro g2 X iu h1 h2 h3 hq
    rcases mem_replaceSubj.mp hq with ⟨hq, -⟩ | ⟨q0, hq0, hg0, hs0, heq⟩
    · exact hL g2 X iu h1 h2 h3 hq
    · obtain ⟨qg, qs, qp, qo⟩ := q0
      simp only [Quad.mk.injEq] at heq
      obtain ⟨rfl, rfl, rfl, rfl⟩ := heq
      rcases hrole with ⟨rfl, hsu⟩ | ⟨rfl, hsu⟩ | ⟨b1, hB, rfl, hsu⟩
      · exact absurd rfl h1
      · exact absurd rfl h2
      · exact absurd rfl (h3 _ hB)

/-- Provenance survives an object rewrite onto a master URI. -/
theorem provs_robj {st0 : Store} {rrn P1 I1 : String} {B1? : Option String}
    {ps ids births : List String} {cur : Store} {g mu su : String}
    (R : Roles st0 rrn P1 I1 B1? ps ids births)
    (hrole : (mu = P1 ∧ su ∈ ps) ∨ (mu = I1 ∧ su ∈ ids) ∨
      (∃ b1, B1? = some b1 ∧ mu = b1 ∧ su ∈ births))
    (h : Provs st0 rrn P1 I1 B1? ps ids births cur) :
    Provs st0 rrn P1 I1 B1? ps ids births (applyOp cur (.replaceObj g mu su)) := by
  obtain ⟨hT, hN, hL⟩ := h
  have hmuP : ¬ mu = personPerson := by
    rcases hrole with ⟨rfl, -⟩ | ⟨rfl, -⟩ | ⟨b1, hB, rfl, -⟩
    · exact R.vP _ R.hP1
    · exact R.vI _ R.hI1
    · exact R.vB _ (R.hB1 _ hB)
  refine ⟨?_, ?_, ?_⟩
  · intro g2 X hq
    rcases mem_replaceObj.mp hq with ⟨hq, -⟩ | ⟨q0, hq0, hg0, ho0, heq⟩
    · exact hT g2 X hq
    · obtain ⟨qg, qs, qp, qo⟩ := q0
      simp only [Quad.mk.injEq] at heq
      obtain ⟨rfl, rfl, rfl, heqo⟩ := heq
      exact absurd (Node.uri.injEq .. ▸ heqo.symm) hmuP
  · intro g2 X hq
    rcases mem_replaceObj.mp hq with ⟨hq, -⟩ | ⟨q0, hq0, hg0, ho0, heq⟩
    · exact hN g2 X hq
    · obtain ⟨qg, qs, qp, qo⟩ := q0
      simp only [Quad.mk.injEq] at heq
      exact absurd heq.2.2.2.symm (by simp)
  · intro g2 X iu h1 h2 h3 hq
    rcases mem_replaceObj.mp hq with ⟨hq, -⟩ | ⟨q0, hq0, hg0, ho0, heq⟩
    · exact hL g2 X iu h1 h2 h3 hq
    · have hss : X = q0.subj := congrArg Quad.subj heq
      have hoo : Node.uri iu = Node.uri mu := congrArg Quad.obj heq
      have hiu : iu = mu := Node.uri.inj hoo
      have hgg : g2 = q0.graph := congrArg Quad.graph heq
      have hpp : admsIdentifier = q0.pred := congrArg Quad.pred heq
      have hq0mem : Quad.mk g2 X admsIdentifier (Node.uri su) ∈ cur := by
        have hq0eq : q0 = Quad.mk g2 X admsIdentifier (Node.uri su) := by
          obtain ⟨a, b, c, d⟩ := q0
          simp only [Quad.mk.injEq]
          exact ⟨hgg.symm, hss.symm, hpp.symm, ho0⟩
        rwa [hq0eq] at hq0
      have hq0L := hL g2 X su h1 h2 h3 hq0mem
      subst hiu
      rcases hrole with ⟨hmu, hsu⟩ | ⟨hmu, hsu⟩ | ⟨b1, hB, hmu, hsu⟩
      · rcases hq0L with hst | ⟨hsuP, p2, hp2, hst⟩ | ⟨hsuI, i2, hi2, hst⟩ |
          ⟨b1, hB, hsuB, b2, hb2, hst⟩
        · exact Or.inr (Or.inl ⟨hmu, su, hsu, hst⟩)
        · exact Or.inr (Or.inl ⟨hmu, p2, hp2, hst⟩)
        · exact absurd (hsuI ▸ hsu) (fun hm => R.dPI _ hm R.hI1)
        · exact absurd (hsuB ▸ hsu) (fun hm => R.dPB _ hm (R.hB1 _ hB))
      · rcases hq0L with hst | ⟨hsuP, p2, hp2, hst⟩ | ⟨hsuI, i2, hi2, hst⟩ |
          ⟨b1, hB, hsuB, b2, hb2, hst⟩
        · exact Or.inr (Or.inr (Or.inl ⟨hmu, su, hsu, hst⟩))
        · exact absurd (hsuP ▸ hsu) (R.dPI _ R.hP1)
        · exact Or.inr (Or.inr (Or.inl ⟨hmu, i2, hi2, hst⟩))
        · exact absurd (hsuB ▸ hsu) (fun hm => R.dIB _ hm (R.hB1 _ hB))
      · rcases hq0L with hst | ⟨hsuP, p2, hp2, hst⟩ | ⟨hsuI, i2, hi2, hst⟩ |
          ⟨b2x, hB2, hsuB, b2, hb2, hst⟩
        · exact Or.inr (Or.inr (Or.inr ⟨b1, hB, hmu, su, hsu, hst⟩))
        · exact absurd (hsuP ▸ hsu) (R.dPB _ R.hP1)
        · exact absurd (hsuI ▸ hsu) (R.dIB _ R.hI1)
        · exact Or.inr (Or.inr (Or.inr ⟨b1, hB, hmu, b2, hb2, hst⟩))
  
/-- Provenance survives the equivalence-link insert. -/
theorem provs_same {st0 : Store} {rrn P1 I1 : String} {B1? : Option String}
    {ps ids births : List String} {cur : Store} {g mu su : String}
    (h : Provs st0 rrn P1 I1 B1? ps ids births cur) :
    Provs st0 rrn P1 I1 B1? ps ids births (applyOp cur (.insertSameAs g mu su)) := by
  obtain ⟨hT, hN, hL⟩ := h
  refine ⟨?_, ?_, ?_⟩
  · intro g2 X hq
    rcases mem_insertSameAs.mp hq with hq | heq
    · exact hT g2 X hq
    · simp only [Quad.mk.injEq] at heq
      exact absurd heq.2.2.1 (by decide : ¬ rdfType = owlSameAs)
  · intro g2 X hq
    rcases mem_insertSameAs.mp hq with hq | heq
    · exact hN g2 X hq
    · simp only [Quad.mk.injEq] at heq
      exact absurd heq.2.2.1 (by decide : ¬ skosNotationP = owlSameAs)
  · intro g2 X iu h1 h2 h3 hq
    rcases mem_insertSameAs.mp hq with hq | heq
    · exact hL g2 X iu h1 h2 h3 hq
    · simp only [Quad.mk.injEq] at heq
      exact absurd heq.2.2.1 (by decide : ¬ admsIdentifier = owlSameAs)

/-- URI nodes are injective. -/
theorem uri_ne {a b : String} (h : ¬ a = b) : ¬ Node.uri a = Node.uri b :=
  fun he => h (Node.uri.inj he)

/-- A literal node is never a URI node. -/
theorem lit_ne_uri {v u : String} : ¬ Node.lit v = Node.uri u :=
  fun h => Node.noConfusion h

/-- After processing, each processed graph carries the master pattern:
the typed master person, its identifier link and the key notation. -/
def MasterPresent (P1 I1 rrn : String) (processed : List (String × String))
    (cur : Store) : Prop :=
  ∀ gp ∈ processed,
    Quad.mk gp.1 P1 rdfType (Node.uri personPerson) ∈ cur ∧
    Quad.mk gp.1 P1 admsIdentifier (Node.uri I1) ∈ cur ∧
    Quad.mk gp.1 I1 skosNotationP (Node.lit rrn) ∈ cur

/-- After processing, a non-master slave's only outgoing triple in its
graph is the equivalence link to the master. -/
def SlaveGone (P1 : String) (processed : List (String × String)) (cur : Store) : Prop :=
  ∀ gp ∈ processed, ¬ gp.2 = P1 →
    ∀ pr o, Quad.mk gp.1 gp.2 pr o ∈ cur ↔ (pr = owlSameAs ∧ o = Node.uri P1)

/-- Every processed slave, the master's own bundle included, carries an
equivalence link to the master in its graph. -/
def SelfLink (P1 : String) (processed : List (String × String)) (cur : Store) : Prop :=
  ∀ gp ∈ processed, Quad.mk gp.1 gp.2 owlSameAs (Node.uri P1) ∈ cur

/-- The full invariant of the rewrite loop. -/
def RunInv (st0 : Store) (rrn P1 I1 : String) (B1? : Option String)
    (ps ids births : List String) (processed : List (String × String))
    (cur : Store) : Prop :=
  MasterPresent P1 I1 rrn processed cur ∧ SlaveGone P1 processed cur ∧
  SelfLink P1 processed cur ∧ Provs st0 rrn P1 I1 B1? ps ids births cur

/-- The invariant survives one identifier or birth-event rewrite triple
(subject rewrite, object rewrite, equivalence-link insert). -/
theorem rewriteTriple_preserves {st0 : Store} {rrn P1 I1 : String}
    {B1? : Option String} {ps ids births : List String}
    {processed : List (String × String)} {cur : Store} (g mu su : String)
    (R : Roles st0 rrn P1 I1 B1? ps ids births)
    (hrole : (mu = I1 ∧ su ∈ ids) ∨
      (∃ b1, B1? = some b1 ∧ mu = b1 ∧ su ∈ births))
    (hproc : ∀ gp ∈ processed, gp.2 ∈ ps)
    (hInv : RunInv st0 rrn P1 I1 B1? ps ids births processed cur) :
    RunInv st0 rrn P1 I1 B1? ps ids births processed
      (applyOps cur [.replaceSubj g mu su, .replaceObj g mu su,
        .insertSameAs g mu su]) := by
  obtain ⟨hMP, hSG, hSL, hPr⟩ := hInv
  have hsuPs : su ∉ ps := by
    rcases hrole with ⟨-, hsu⟩ | ⟨b1, -, -, hsu⟩
    · exact fun hm => R.dPI _ hm hsu
    · exact fun hm => R.dPB _ hm hsu
  have hsuP1 : ¬ su = P1 := fun he => hsuPs (he ▸ R.hP1)
  have hmuPs : mu ∉ ps := by
    rcases hrole with ⟨rfl, -⟩ | ⟨b1, hB, rfl, -⟩
    · exact fun hm => R.dPI _ hm R.hI1
    · exact fun hm => R.dPB _ hm (R.hB1 _ hB)
  have hsuPerson : ¬ personPerson = su := by
    rcases hrole with ⟨-, hsu⟩ | ⟨b1, -, -, hsu⟩
    · exact fun he => R.vI _ hsu he.symm
    · exact fun he => R.vB _ hsu he.symm
  rw [show applyOps cur [StoreOp.replaceSubj g mu su, StoreOp.replaceObj g mu su,
      StoreOp.insertSameAs g mu su] = applyOp (applyOp (applyOp cur
      (.replaceSubj g mu su)) (.replaceObj g mu su)) (.insertSameAs g mu su)
    from rfl]
  refine ⟨?_, ?_, ?_, ?_⟩
  · intro gp hgp
    obtain ⟨h1, h2, h3⟩ := hMP gp hgp
    have hP1su : ¬ P1 = su := fun he => hsuPs (he ▸ R.hP1)
    have hI1robj : ¬ Node.uri I1 = Node.uri su ∨ mu = su := by
      by_cases hI1su : I1 = su
      · rcases hrole with ⟨hmu, -⟩ | ⟨b1, -, -, hsu⟩
        · exact Or.inr (hmu.trans hI1su)
        · exact absurd (hI1su ▸ hsu) (R.dIB _ R.hI1)
      · exact Or.inl (uri_ne hI1su)
    have hI1rsub : ¬ I1 = su ∨ mu = su := by
      by_cases hI1su : I1 = su
      · rcases hrole with ⟨hmu, -⟩ | ⟨b1, -, -, hsu⟩
        · exact Or.inr (hmu.trans hI1su)
        · exact absurd (hI1su ▸ hsu) (R.dIB _ R.hI1)
      · exact Or.inl hI1su
    refine ⟨?_, ?_, ?_⟩
    · exact kept_same (kept_robj (kept_rsub h1 (Or.inl hP1su))
        (Or.inl (uri_ne hsuPerson)))
    · exact kept_same (kept_robj (kept_rsub h2 (Or.inl hP1su)) hI1robj)
    · exact kept_same (kept_robj (kept_rsub h3 hI1rsub) (Or.inl lit_ne_uri))
  · intro gp hgp hgpP1 pr o
    have hXps : gp.2 ∈ ps := hproc gp hgp
    have hXsu : ¬ gp.2 = su := fun he => hsuPs (he ▸ hXps)
    have hXmu : ¬ gp.2 = mu := fun he => hmuPs (he ▸ hXps)
    constructor
    · intro hq
      rcases mem_insertSameAs.mp hq with hq | heq
      · rcases mem_replaceObj.mp hq with ⟨hq, -⟩ | ⟨q0, hq0, hg0, ho0, heq⟩
        · rcases mem_replaceSubj.mp hq with ⟨hq, -⟩ | ⟨q0, hq0, hg0, hs0, heq⟩
          · exact (hSG gp hgp hgpP1 pr o).mp hq
          · exact absurd (congrArg Quad.subj heq) hXmu
        · -- the rewritten copy: q0 has subject gp.2 and object uri su
          have hss : gp.2 = q0.subj := congrArg Quad.subj heq
          have hgg : gp.1 = q0.graph := congrArg Quad.graph heq
          have hpp : pr = q0.pred := congrArg Quad.pred heq
          have hq0mem : Quad.mk gp.1 gp.2 pr (Node.uri su) ∈
              applyOp cur (.replaceSubj g mu su) := by
            have hq0eq : q0 = Quad.mk gp.1 gp.2 pr (Node.uri su) := by
              obtain ⟨a, b, c, d⟩ := q0
              simp only [Quad.mk.injEq]
              exact ⟨hgg.symm, hss.symm, hpp.symm, ho0⟩
            rwa [hq0eq] at hq0
          rcases mem_replaceSubj.mp hq0mem with ⟨hq0c, -⟩ | ⟨q1, hq1, hg1, hs1, heq1⟩
          · have := ((hSG gp hgp hgpP1 pr (Node.uri su)).mp hq0c).2
            exact absurd (Node.uri.inj this) hsuP1
          · exact absurd (congrArg Quad.subj heq1) hXmu
      · exact absurd (congrArg Quad.subj heq) hXsu
    · rintro ⟨rfl, rfl⟩
      have hbase := (hSG gp hgp hgpP1 owlSameAs (Node.uri P1)).mpr ⟨rfl, rfl⟩
      exact kept_same (kept_robj (kept_rsub hbase (Or.inl hXsu))
        (Or.inl (uri_ne (fun he => hsuP1 he.symm))))
  · intro gp hgp
    have hXps : gp.2 ∈ ps := hproc gp hgp
    have hXsu : ¬ gp.2 = su := fun he => hsuPs (he ▸ hXps)
    exact kept_same (kept_robj (kept_rsub (hSL gp hgp) (Or.inl hXsu))
      (Or.inl (uri_ne (fun he => hsuP1 he.symm))))
  · exact provs_same (provs_robj R (Or.inr hrole) (provs_rsub R (Or.inr hrole) hPr))

/-- Processing one slave's delete, master insert and person rewrite
triple extends the invariant to the slave's pair. -/
theorem personBlock_inv {st0 : Store} {rrn P1 I1 : String} {B1? : Option String}
    {ps ids births : List String} {processed : List (String × String)}
    {cur : Store} {m : Master} {gp : String × String}
    (R : Roles st0 rrn P1 I1 B1? ps ids births)
    (hMQ1 : Quad.mk gp.1 P1 rdfType (Node.uri personPerson) ∈ masterQuads gp.1 m)
    (hMQ2 : Quad.mk gp.1 P1 admsIdentifier (Node.uri I1) ∈ masterQuads gp.1 m)
    (hMQ3 : Quad.mk gp.1 I1 skosNotationP (Node.lit rrn) ∈ masterQuads gp.1 m)
    (hMQ : ∀ q ∈ masterQuads gp.1 m, q.graph = gp.1 ∧
      (q.subj = P1 ∨ q.subj = I1 ∨ B1? = some q.subj) ∧
      (q.pred = rdfType → q.obj = Node.uri personPerson → q.subj = P1) ∧
      (q.pred = skosNotationP → q.subj = I1) ∧
      (q.pred = admsIdentifier → q.subj = P1 ∧ q.obj = Node.uri I1) ∧
      ¬ q.pred = owlSameAs)
    (hgpPs : gp.2 ∈ ps) (hnew : gp ∉ processed)
    (hproc : ∀ x ∈ processed, x.2 ∈ ps)
    (hInv : RunInv st0 rrn P1 I1 B1? ps ids births processed cur) :
    RunInv st0 rrn P1 I1 B1? ps ids births (processed ++ [gp])
      (applyOps cur [.deleteSlave gp.1 gp.2, .insertMaster gp.1 m,
        .replaceSubj gp.1 P1 gp.2, .replaceObj gp.1 P1 gp.2,
        .insertSameAs gp.1 P1 gp.2]) := by
  obtain ⟨hMP, hSG, hSL, hPr⟩ := hInv
  have hgpP : ¬ gp.2 = personPerson := R.vP _ hgpPs
  have hI1gp : ¬ I1 = gp.2 := fun he => R.dPI _ hgpPs (he ▸ R.hI1)
  have hPor : ¬ P1 = gp.2 ∨ P1 = gp.2 := by
    by_cases h : P1 = gp.2
    · exact Or.inr h
    · exact Or.inl h
  have hP1or : ¬ Node.uri P1 = Node.uri gp.2 ∨ P1 = gp.2 := by
    by_cases h : P1 = gp.2
    · exact Or.inr h
    · exact Or.inl (uri_ne h)
  have hglocal : ∀ op ∈ ([.deleteSlave gp.1 gp.2, .insertMaster gp.1 m,
      .replaceSubj gp.1 P1 gp.2, .replaceObj gp.1 P1 gp.2,
      .insertSameAs gp.1 P1 gp.2] : List StoreOp), op.graphOf = gp.1 := by
    intro op hop
    simp only [List.mem_cons, List.not_mem_nil, or_false] at hop
    rcases hop with rfl | rfl | rfl | rfl | rfl <;> rfl
  refine ⟨?_, ?_, ?_, ?_⟩
  · -- MasterPresent
    intro gp2 hgp2
    by_cases hgr : gp2.1 = gp.1
    · have h1 : Quad.mk gp2.1 P1 rdfType (Node.uri personPerson) ∈
          applyOp (applyOp cur (.deleteSlave gp.1 gp.2)) (.insertMaster gp.1 m) := by
        rw [hgr]
        exact mem_insertMaster.mpr (Or.inr hMQ1)
      have h2 : Quad.mk gp2.1 P1 admsIdentifier (Node.uri I1) ∈
          applyOp (applyOp cur (.deleteSlave gp.1 gp.2)) (.insertMaster gp.1 m) := by
        rw [hgr]
        exact mem_insertMaster.mpr (Or.inr hMQ2)
      have h3 : Quad.mk gp2.1 I1 skosNotationP (Node.lit rrn) ∈
          applyOp (applyOp cur (.deleteSlave gp.1 gp.2)) (.insertMaster gp.1 m) := by
        rw [hgr]
        exact mem_insertMaster.mpr (Or.inr hMQ3)
      exact ⟨kept_same (kept_robj (kept_rsub h1 hPor)
          (Or.inl (uri_ne (fun he => hgpP he.symm)))),
        kept_same (kept_robj (kept_rsub h2 hPor) (Or.inl (uri_ne hI1gp))),
        kept_same (kept_robj (kept_rsub h3 (Or.inl hI1gp)) (Or.inl lit_ne_uri))⟩
    · have hold : gp2 ∈ processed := by
        rcases List.mem_append.mp hgp2 with h | h
        · exact h
        · rcases List.mem_singleton.mp h with rfl
          exact absurd rfl hgr
      obtain ⟨h1, h2, h3⟩ := hMP gp2 hold
      exact ⟨(applyOps_other_graph hglocal hgr).mpr h1,
        (applyOps_other_graph hglocal hgr).mpr h2,
        (applyOps_other_graph hglocal hgr).mpr h3⟩
  · -- SlaveGone
    intro gp2 hgp2 hne pr o
    rcases List.mem_append.mp hgp2 with hold | hnewm
    · have hXps := hproc gp2 hold
      by_cases hgr : gp2.1 = gp.1
      · have hXne : ¬ gp2.2 = gp.2 := by
          intro he
          apply hnew
          have heq : gp2 = gp := by
            rcases gp2 with ⟨a, b⟩
            rcases gp with ⟨c, d⟩
            simp only at hgr he
            rw [hgr, he]
          exact heq ▸ hold
        constructor
        · intro hq
          rcases mem_insertSameAs.mp hq with hq | heq
          · rcases mem_replaceObj.mp hq with ⟨hq3, -⟩ | ⟨q0, hq0, hg0, ho0, heq⟩
            · rcases mem_replaceSubj.mp hq3 with ⟨hq2, -⟩ | ⟨q1, hq1, hg1, hs1, heq1⟩
              · rcases mem_insertMaster.mp hq2 with hq1' | hqM
                · exact (hSG gp2 hold hne pr o).mp (mem_of_applyDeleteSlave hq1')
                · obtain ⟨-, hsub, -⟩ := hMQ _ hqM
                  rcases hsub with hP | hI | hB
                  · exact absurd hP hne
                  · exact absurd R.hI1 (R.dPI _ (hI ▸ hXps))
                  · exact absurd (R.hB1 _ hB) (R.dPB _ hXps)
              · exact absurd (congrArg Quad.subj heq1) hne
            · have hss : gp2.2 = q0.subj := congrArg Quad.subj heq
              have hprq : pr = q0.pred := congrArg Quad.pred heq
              have hoq : o = Node.uri P1 := congrArg Quad.obj heq
              have hq0eq : q0 = Quad.mk gp2.1 gp2.2 q0.pred (Node.uri gp.2) := by
                obtain ⟨a, b, c, d⟩ := q0
                simp only [Quad.mk.injEq]
                exact ⟨hg0.trans hgr.symm, hss.symm, trivial, ho0⟩
              rw [hq0eq] at hq0
              rcases mem_replaceSubj.mp hq0 with ⟨hq2, -⟩ | ⟨q1, hq1, hg1, hs1, heq1⟩
              · rcases mem_insertMaster.mp hq2 with hq1' | hqM
                · have hres := (hSG gp2 hold hne q0.pred (Node.uri gp.2)).mp
                    (mem_of_applyDeleteSlave hq1')
                  exact ⟨hprq.trans hres.1, hoq⟩
                · obtain ⟨-, hsub, -⟩ := hMQ _ hqM
                  rcases hsub with hP | hI | hB
                  · exact absurd hP hne
                  · exact absurd R.hI1 (R.dPI _ (hI ▸ hXps))
                  · exact absurd (R.hB1 _ hB) (R.dPB _ hXps)
              · exact absurd (congrArg Quad.subj heq1) hne
          · exact absurd (congrArg Quad.subj heq) hXne
        · rintro ⟨rfl, rfl⟩
          have hbase := (hSG gp2 hold hne owlSameAs (Node.uri P1)).mpr ⟨rfl, rfl⟩
          exact kept_same (kept_robj (kept_rsub (kept_insM
            (kept_del_sameAs hbase rfl)) (Or.inl hXne)) hP1or)
      · constructor
        · intro hq
          exact (hSG gp2 hold hne pr o).mp ((applyOps_other_graph hglocal hgr).mp hq)
        · intro hr
          exact (applyOps_other_graph hglocal hgr).mpr ((hSG gp2 hold hne pr o).mpr hr)
    · rcases List.mem_singleton.mp hnewm with rfl
      constructor
      · intro hq
        rcases mem_insertSameAs.mp hq with hq | heq
        · rcases mem_replaceObj.mp hq with ⟨hq3, -⟩ | ⟨q0, hq0, hg0, ho0, heq⟩
          · rcases mem_replaceSubj.mp hq3 with ⟨-, hcon⟩ | ⟨q1, hq1, hg1, hs1, heq1⟩
            · exact absurd ⟨rfl, rfl⟩ hcon
            · exact absurd (congrArg Quad.subj heq1) hne
          · have hss : gp2.2 = q0.subj := congrArg Quad.subj heq
            rcases mem_replaceSubj.mp hq0 with ⟨-, hcon⟩ | ⟨q1, hq1, hg1, hs1, heq1⟩
            · exact absurd ⟨hg0, hss.symm⟩ hcon
            · exact absurd (hss.trans (congrArg Quad.subj heq1)) hne
        · simp only [Quad.mk.injEq] at heq
          exact ⟨heq.2.2.1, heq.2.2.2⟩
      · rintro ⟨rfl, rfl⟩
        exact mem_insertSameAs.mpr (Or.inr rfl)
  · -- SelfLink
    intro gp2 hgp2
    rcases List.mem_append.mp hgp2 with hold | hnewm
    · by_cases hgr : gp2.1 = gp.1
      · have hXne : ¬ gp2.2 = gp.2 := by
          intro he
          apply hnew
          have heq : gp2 = gp := by
            rcases gp2 with ⟨a, b⟩
            rcases gp with ⟨c, d⟩
            simp only at hgr he
            rw [hgr, he]
          exact heq ▸ hold
        exact kept_same (kept_robj (kept_rsub (kept_insM
          (kept_del_sameAs (hSL gp2 hold) rfl)) (Or.inl hXne)) hP1or)
      · exact (applyOps_other_graph hglocal hgr).mpr (hSL gp2 hold)
    · rcases List.mem_singleton.mp hnewm with rfl
      exact mem_insertSameAs.mpr (Or.inr rfl)
  · exact provs_same (provs_robj R (Or.inl ⟨rfl, hgpPs⟩)
      (provs_rsub R (Or.inl ⟨rfl, hgpPs⟩) (provs_insM hMQ (provs_del hPr))))

/-- Processing one slave bundle (its full update block) extends the
invariant to the slave's pair. -/
theorem block_step {st0 : Store} {rrn P1 I1 siu : String} {B1? : Option String}
    {ps ids births : List String} {processed : List (String × String)}
    {cur : Store} {m : Master} {mp mi : Rec} {gp : String × String} {b : Bundle}
    {bops : List StoreOp}
    (R : Roles st0 rrn P1 I1 B1? ps ids births)
    (hmp : m.person = some mp) (hmpu : getProp mp "uri" = some P1)
    (hmpuuid : ∃ U1, getProp mp "uuid" = some U1)
    (hmpid : getProp mp "identifier" = some I1) (hI1ne : ¬ I1 = "")
    (hmi : m.identifier = some mi) (hmiu : getProp mi "uri" = some I1)
    (hmin : getProp mi "notation" = some rrn) (hrrnne : ¬ rrn = "")
    (hmb : (m.birthdate = none ∧ B1? = none) ∨
      (∃ mb B1, m.birthdate = some mb ∧ getProp mb "uri" = some B1 ∧ B1? = some B1))
    (hbg : b.graph = gp.1)
    (hbpu : getProp b.person "uri" = some gp.2)
    (hgpPs : gp.2 ∈ ps)
    (hsiu : getProp b.identifier "uri" = some siu) (hsiuIds : siu ∈ ids)
    (hbb : b.birthdate = none ∨ ∃ br bu, b.birthdate = some br ∧
      getProp br "uri" = some bu ∧ bu ∈ births)
    (hops : replaceSlaveWithMasterOps b m = .ok bops)
    (hnew : gp ∉ processed)
    (hproc : ∀ x ∈ processed, x.2 ∈ ps)
    (hInv : RunInv st0 rrn P1 I1 B1? ps ids births processed cur) :
    RunInv st0 rrn P1 I1 B1? ps ids births (processed ++ [gp])
      (applyOps cur bops) := by
  obtain ⟨U1, hmpuuid⟩ := hmpuuid
  obtain ⟨hmq1, hmq2, hmq3, hMQ⟩ := masterQuads_facts gp.1 m mp mi P1 U1 I1 rrn B1?
    hmp hmpu hmpuuid hmpid hI1ne hmi hmiu hmin hrrnne hmb
  have hts : ∃ ts, masterTriplesE m = .ok ts := by
    cases hmt : masterTriplesE m with
    | ok ts => exact ⟨ts, rfl⟩
    | error e =>
      exfalso
      revert hops
      simp only [replaceSlaveWithMasterOps, hbpu, requireSome, exceptBindOk, hmt,
        exceptBindErr]
      intro hops
      exact Except.noConfusion hops
  obtain ⟨ts, hts⟩ := hts
  have hproc2 : ∀ x ∈ processed ++ [gp], x.2 ∈ ps := by
    intro x hx
    rcases List.mem_append.mp hx with hx | hx
    · exact hproc x hx
    · rcases List.mem_singleton.mp hx with rfl
      exact hgpPs
  simp only [replaceSlaveWithMasterOps, hbpu, requireSome, exceptBindOk, hts,
    hmp, hmpu, hmi, hmiu, hsiu, hbg] at hops
  rcases hbb with hbn | ⟨br, bu, hbr, hbru, hbumem⟩
  · rw [hbn] at hops
    simp only [replaceBirthOps, exceptBindOk, exceptPure, List.append_nil,
      Except.ok.injEq] at hops
    subst hops
    have h5 := personBlock_inv R hmq1 hmq2 hmq3 hMQ hgpPs hnew hproc hInv
    have h8 := rewriteTriple_preserves gp.1 I1 siu R (Or.inl ⟨rfl, hsiuIds⟩) hproc2 h5
    simp only [List.cons_append, List.nil_append, List.append_nil]
    rw [show ([StoreOp.deleteSlave gp.1 gp.2, StoreOp.insertMaster gp.1 m,
        StoreOp.replaceSubj gp.1 P1 gp.2, StoreOp.replaceObj gp.1 P1 gp.2,
        StoreOp.insertSameAs gp.1 P1 gp.2, StoreOp.replaceSubj gp.1 I1 siu,
        StoreOp.replaceObj gp.1 I1 siu, StoreOp.insertSameAs gp.1 I1 siu] :
        List StoreOp) =
        [StoreOp.deleteSlave gp.1 gp.2, StoreOp.insertMaster gp.1 m,
        StoreOp.replaceSubj gp.1 P1 gp.2, StoreOp.replaceObj gp.1 P1 gp.2,
        StoreOp.insertSameAs gp.1 P1 gp.2] ++
        [StoreOp.replaceSubj gp.1 I1 siu, StoreOp.replaceObj gp.1 I1 siu,
        StoreOp.insertSameAs gp.1 I1 siu] from rfl, applyOps_append]
    exact h8
  · rw [hbr] at hops
    rcases hmb with ⟨hbnone, -⟩ | ⟨mb, B1, hmbs, hmbu, hB⟩
    · simp only [replaceBirthOps, hbnone, require, exceptBindErr, exceptBindOk] at hops
      exact Except.noConfusion hops
    · simp only [replaceBirthOps, hmbs, hmbu, hbru, requireSome, exceptBindOk,
        exceptPure, Except.ok.injEq] at hops
      subst hops
      have h5 := personBlock_inv R hmq1 hmq2 hmq3 hMQ hgpPs hnew hproc hInv
      have h8 := rewriteTriple_preserves gp.1 I1 siu R (Or.inl ⟨rfl, hsiuIds⟩) hproc2 h5
      have h11 := rewriteTriple_preserves gp.1 B1 bu R (Or.inr ⟨B1, hB, rfl, hbumem⟩) hproc2 h8
      simp only [List.cons_append, List.nil_append, List.append_nil]
      rw [show ([StoreOp.deleteSlave gp.1 gp.2, StoreOp.insertMaster gp.1 m,
          StoreOp.replaceSubj gp.1 P1 gp.2, StoreOp.replaceObj gp.1 P1 gp.2,
          StoreOp.insertSameAs gp.1 P1 gp.2, StoreOp.replaceSubj gp.1 I1 siu,
          StoreOp.replaceObj gp.1 I1 siu, StoreOp.insertSameAs gp.1 I1 siu,
          StoreOp.replaceSubj gp.1 B1 bu, StoreOp.replaceObj gp.1 B1 bu,
          StoreOp.insertSameAs gp.1 B1 bu] : List StoreOp) =
          ([StoreOp.deleteSlave gp.1 gp.2, StoreOp.insertMaster gp.1 m,
          StoreOp.replaceSubj gp.1 P1 gp.2, StoreOp.replaceObj gp.1 P1 gp.2,
          StoreOp.insertSameAs gp.1 P1 gp.2] ++
          [StoreOp.replaceSubj gp.1 I1 siu, StoreOp.replaceObj gp.1 I1 siu,
          StoreOp.insertSameAs gp.1 I1 siu]) ++
          [StoreOp.replaceSubj gp.1 B1 bu, StoreOp.replaceObj gp.1 B1 bu,
          StoreOp.insertSameAs gp.1 B1 bu] from rfl, applyOps_append,
        applyOps_append]
      exact h11

/-- The per-slave facts the rewrite loop needs: the bundle's graph and
person URI match the candidate pair, the person URI plays the person
role, the bundle's identifier URI plays the identifier role, and its
birth event when present plays the birth role. -/
def SlaveFacts (ps ids births : List String) (x : (String × String) × Bundle) : Prop :=
  x.2.graph = x.1.1 ∧ getProp x.2.person "uri" = some x.1.2 ∧ x.1.2 ∈ ps ∧
  (∃ siu, getProp x.2.identifier "uri" = some siu ∧ siu ∈ ids) ∧
  (x.2.birthdate = none ∨ ∃ br bu, x.2.birthdate = some br ∧
    getProp br "uri" = some bu ∧ bu ∈ births)

/-- The rewrite loop preserves and extends the invariant over any list of
slave bundles. -/
theorem blocks_inv {st0 : Store} {rrn P1 I1 : String} {B1? : Option String}
    {ps ids births : List String} {m : Master} {mp mi : Rec}
    (R : Roles st0 rrn P1 I1 B1? ps ids births)
    (hmp : m.person = some mp) (hmpu : getProp mp "uri" = some P1)
    (hmpuuid : ∃ U1, getProp mp "uuid" = some U1)
    (hmpid : getProp mp "identifier" = some I1) (hI1ne : ¬ I1 = "")
    (hmi : m.identifier = some mi) (hmiu : getProp mi "uri" = some I1)
    (hmin : getProp mi "notation" = some rrn) (hrrnne : ¬ rrn = "")
    (hmb : (m.birthdate = none ∧ B1? = none) ∨
      (∃ mb B1, m.birthdate = some mb ∧ getProp mb "uri" = some B1 ∧
        B1? = some B1)) :
    ∀ (xs : List ((String × String) × Bundle))
      (processed : List (String × String)) (cur : Store) (ops : List StoreOp),
      (∀ x ∈ xs, SlaveFacts ps ids births x) →
      (∀ x ∈ xs, x.1 ∉ processed) →
      (xs.map fun x => x.1).Nodup →
      (∀ y ∈ processed, y.2 ∈ ps) →
      allSlaveOps ((xs.map fun x => x.2).map some) m = .ok ops →
      RunInv st0 rrn P1 I1 B1? ps ids births processed cur →
      RunInv st0 rrn P1 I1 B1? ps ids births (processed ++ xs.map fun x => x.1)
        (applyOps cur ops) := by
  intro xs
  induction xs with
  | nil =>
    intro processed cur ops hfacts hnotin hnd hproc hops hInv
    simp only [List.map_nil] at hops ⊢
    have : ops = [] := by
      simp only [allSlaveOps, Except.ok.injEq] at hops
      exact hops.symm
    subst this
    simpa [applyOps_nil] using hInv
  | cons x xs ih =>
    intro processed cur ops hfacts hnotin hnd hproc hops hInv
    simp only [List.map_cons] at hops
    have hops' : (replaceSlaveWithMasterOps x.2 m >>= fun ops1 =>
        allSlaveOps ((xs.map fun x => x.2).map some) m >>= fun more =>
        pure (ops1 ++ more)) = .ok ops := hops
    obtain ⟨ops1, hops1, hrest⟩ := exceptBind_eq_ok hops'
    obtain ⟨more, hmore, hpure⟩ := exceptBind_eq_ok hrest
    rw [exceptPure, Except.ok.injEq] at hpure
    subst hpure
    obtain ⟨hbg, hbpu, hxps, ⟨siu, hsiu, hsiuIds⟩, hbb⟩ :=
      hfacts x (List.mem_cons_self x xs)
    have h1 := block_step R hmp hmpu hmpuuid hmpid hI1ne hmi hmiu hmin hrrnne hmb
      hbg hbpu hxps hsiu hsiuIds hbb hops1 (hnotin x (List.mem_cons_self x xs))
      hproc hInv
    have hnd0 : (x.1 :: xs.map fun x => x.1).Nodup := by
      simpa using hnd
    have hnd' := List.nodup_cons.mp hnd0
    have h2 := ih (processed ++ [x.1]) (applyOps cur ops1) more
      (fun y hy => hfacts y (List.mem_cons_of_mem x hy))
      (fun y hy hmem => by
        rcases List.mem_append.mp hmem with hmem | hmem
        · exact hnotin y (List.mem_cons_of_mem x hy) hmem
        · rcases List.mem_singleton.mp hmem with heq
          exact hnd'.1 (heq ▸ List.mem_map_of_mem _ hy))
      hnd'.2
      (fun y hy => by
        rcases List.mem_append.mp hy with hy | hy
        · exact hproc y hy
        · rcases List.mem_singleton.mp hy with rfl
          exact hxps)
      hmore h1
    rw [applyOps_append]
    simp only [List.map_cons]
    rw [show processed ++ (x.1 :: xs.map fun x => x.1) =
      (processed ++ [x.1]) ++ (xs.map fun x => x.1) by simp]
    exact h2

/-- The merged record only carries merged property keys. -/
theorem getProp_cMFR_not_mem {resources : List (Option Rec)} {props : List String}
    {p : String} (hp : p ∉ props) {r : Rec}
    (hr : constructMasterForResource resources props = some r) :
    getProp r p = none := by
  have := optGetProp_constructMasterForResource resources props p
  rw [hr] at this
  unfold firstTruthyValue at this
  rw [if_neg hp] at this
  simpa [optGetProp] using this

/-- The master person's identifier and birthdate attributes are the merged
identifier's and birth event's URIs. -/
theorem constructMaster_person_links (slaves : List Bundle) (m : Master) (pR : Rec)
    (hm : constructMaster (slaves.map some) = .ok m) (hp : m.person = some pR) :
    getProp pR "identifier" = (m.identifier.bind fun i => getProp i "uri") ∧
    getProp pR "birthdate" = (m.birthdate.bind fun b => getProp b "uri") := by
  have hnone : ((slaves.map some).any fun s => s.isNone) = false := by
    simp [List.any_map, Function.comp]
  have hfm : (slaves.map some).filterMap id = slaves := by
    rw [List.filterMap_map]
    simp [Function.comp]
  unfold constructMaster at hm
  rw [hnone] at hm
  simp only [Bool.false_eq_true, if_false, hfm, Except.ok.injEq] at hm
  subst hm
  simp only at hp ⊢
  cases hper : constructMasterForResource (slaves.map fun b => some b.person)
      personProps with
  | none =>
    rw [hper] at hp
    exact absurd hp (by simp)
  | some r0 =>
    rw [hper] at hp
    simp only [Option.map_some', Option.some.injEq] at hp
    have hid : getProp r0 "identifier" = none :=
      getProp_cMFR_not_mem (by decide) hper
    have hbd : getProp r0 "birthdate" = none :=
      getProp_cMFR_not_mem (by decide) hper
    cases hIL : (constructMasterForResource
        (slaves.map fun b => some b.identifier) identifierProps).bind
          (fun i => getProp i "uri") with
    | none =>
      cases hBL : (constructMasterForResource
          (slaves.map fun b => b.birthdate) birthdateProps).bind
            (fun b => getProp b "uri") with
      | none =>
        rw [hIL, hBL] at hp
        subst hp
        exact ⟨hid, hbd⟩
      | some bu =>
        rw [hIL, hBL] at hp
        subst hp
        constructor
        · rw [getProp_append, hid, getProp_singleton_ne (by decide)]
          rfl
        · rw [getProp_append, hbd, Option.none_or]
          exact getProp_cons_self rfl
    | some iu =>
      cases hBL : (constructMasterForResource
          (slaves.map fun b => b.birthdate) birthdateProps).bind
            (fun b => getProp b "uri") with
      | none =>
        rw [hIL, hBL] at hp
        subst hp
        constructor
        · rw [getProp_append, hid, Option.none_or]
          exact getProp_cons_self rfl
        · rw [getProp_append, hbd, getProp_singleton_ne (by decide)]
          rfl
      | some bu =>
        rw [hIL, hBL] at hp
        subst hp
        constructor
        · rw [getProp_append, getProp_append, hid, Option.none_or,
            getProp_cons_self rfl]
          rfl
        · rw [getProp_append, getProp_append, hbd, getProp_singleton_ne (by decide),
            Option.none_or, Option.none_or, getProp_cons_self rfl]

/-- If the master statements build successfully and the master has a birth
event, its URI attribute is present. -/
theorem masterTriplesE_ok_birth {m : Master} {ts : List (String × String × Node)}
    {mb : Rec} (hts : masterTriplesE m = .ok ts) (hb : m.birthdate = some mb) :
    ∃ v, getProp mb "uri" = some v := by
  cases hu : getProp mb "uri" with
  | some v => exact ⟨v, rfl⟩
  | none =>
    exfalso
    unfold masterTriplesE at hts
    obtain ⟨p0, hp0, hts⟩ := exceptBind_eq_ok hts
    obtain ⟨pu, hpu, hts⟩ := exceptBind_eq_ok hts
    obtain ⟨puuid, hpuuid, hts⟩ := exceptBind_eq_ok hts
    cases hmi : m.identifier with
    | none =>
      simp only [hmi, hb, hu, require, exceptBindOk, exceptBindErr,
        exceptPure] at hts
      exact Except.noConfusion hts
    | some i =>
      cases hgi : getProp i "uri" with
      | none =>
        simp only [hmi, hgi, hb, hu, require, exceptBindOk, exceptBindErr,
          exceptPure] at hts
        exact Except.noConfusion hts
      | some iu =>
        simp only [hmi, hgi, hb, hu, require, exceptBindOk, exceptBindErr,
          exceptPure] at hts
        exact Except.noConfusion hts

/-- The first rewrite block always contains the person equivalence-link
insert from the slave person URI to the master person URI. -/
theorem sameAs_op_mem {b : Bundle} {m : Master} {bops : List StoreOp}
    {mp : Rec} {spu P1 : String}
    (hops : replaceSlaveWithMasterOps b m = .ok bops)
    (hbpu : getProp b.person "uri" = some spu)
    (hmp : m.person = some mp) (hmpu : getProp mp "uri" = some P1) :
    StoreOp.insertSameAs b.graph P1 spu ∈ bops := by
  simp only [replaceSlaveWithMasterOps, hbpu, requireSome, exceptBindOk, hmp,
    hmpu] at hops
  obtain ⟨ts, hts, hops⟩ := exceptBind_eq_ok hops
  obtain ⟨mi2, hmi2, hops⟩ := exceptBind_eq_ok hops
  obtain ⟨miu, hmiu, hops⟩ := exceptBind_eq_ok hops
  obtain ⟨siu, hsiu, hops⟩ := exceptBind_eq_ok hops
  obtain ⟨bo, hbo, hops⟩ := exceptBind_eq_ok hops
  rw [exceptPure, Except.ok.injEq] at hops
  subst hops
  simp [List.mem_append]

/-- Membership in the duplicate key finder result. -/
theorem mem_getDuplicateIdentificators {st : Store} {rrn : String} :
    rrn ∈ getDuplicateIdentificators st ↔
      (∃ q ∈ st, q.pred = skosNotationP ∧ q.obj = Node.lit rrn) ∧
      finderReports st rrn := by
  unfold getDuplicateIdentificators
  rw [mem_dedupFirst, List.mem_filter, List.mem_filterMap]
  constructor
  · rintro ⟨⟨q, hq, hif⟩, hcond⟩
    rw [decide_eq_true_eq] at hcond
    by_cases hc : q.pred = skosNotationP
    · rw [if_pos hc] at hif
      refine ⟨⟨q, hq, hc, ?_⟩, hcond⟩
      cases ho : q.obj with
      | uri u => rw [ho] at hif; exact absurd hif (by simp)
      | lit v =>
        rw [ho] at hif
        simp only [Option.some.injEq] at hif
        rw [hif]
    · rw [if_neg hc] at hif
      exact absurd hif (by simp)
  · rintro ⟨⟨q, hq, hp, ho⟩, hrep⟩
    refine ⟨⟨q, hq, ?_⟩, by rw [decide_eq_true_eq]; exact hrep⟩
    rw [if_pos hp, ho]

/-- Lifting pointwise fetched bundles to a list of pairs. -/
theorem pick_bundles {st : Store} {F : (String × String) → Bundle → Prop} :
    ∀ l : List (String × String),
    (∀ gp ∈ l, ∃ b, getPerson st gp.1 gp.2 = some b ∧ F gp b) →
    ∃ xs : List ((String × String) × Bundle),
      (xs.map fun x => x.1) = l ∧
      (l.map fun gp => getPerson st gp.1 gp.2) = ((xs.map fun x => x.2).map some) ∧
      ∀ x ∈ xs, F x.1 x.2 := by
  intro l
  induction l with
  | nil => exact fun _ => ⟨[], rfl, rfl, by simp⟩
  | cons gp rest ih =>
    intro h
    obtain ⟨b, hb, hF⟩ := h gp (List.mem_cons_self gp rest)
    obtain ⟨xs, hxs1, hxs2, hxs3⟩ := ih fun y hy => h y (List.mem_cons_of_mem gp hy)
    refine ⟨(gp, b) :: xs, ?_, ?_, ?_⟩
    · simp only [List.map_cons, hxs1]
    · simp only [List.map_cons, hb, hxs2]
    · intro x hx
      rcases List.mem_cons.mp hx with rfl | hx
      · exact hF
      · exact hxs3 x hx

/-- Facts about the bundle fetched for each candidate of a well-formed
store: the fetch succeeds and the bundle carries the candidate's URIs and
key data. -/
theorem cand_bundle_facts {st : Store} {rrn : String} (hWF : WellFormed st rrn) :
    ∀ gp ∈ getDuplicatePersonUris st rrn, ∃ b, getPerson st gp.1 gp.2 = some b ∧
      (SlaveFacts (candPs st rrn) (candIs st rrn) (candBs st rrn) (gp, b) ∧
       (∃ u, getProp b.person "uuid" = some u ∧ ¬ u = "") ∧
       ¬ gp.2 = "" ∧
       (∃ i, getProp b.identifier "uri" = some i ∧ ¬ i = "" ∧ i ∈ candIs st rrn) ∧
       getProp b.identifier "notation" = some rrn ∧
       (b.birthdate = none ∨ ∃ br bu, b.birthdate = some br ∧
         getProp br "uri" = some bu ∧ ¬ bu = "" ∧ bu ∈ candBs st rrn)) := by
  obtain ⟨hrrn, hcand, hPs, hIs, hBs, hW6, hW7, hW8⟩ := hWF
  intro gp hgp
  obtain ⟨⟨u, humem, hune⟩, ⟨i, himem, hieq, hine, hinota⟩, hbirthW⟩ := hcand gp hgp
  have huhead : (objsOf st gp.1 gp.2 muUuid).head? = some u := by
    simpa using humem
  obtain ⟨us, huu⟩ := head_eq_some_cons huhead
  obtain ⟨b, hgb, hbg, hpu, hpuuid, hiu, hinot, hbnone, hbsome⟩ :=
    getPerson_facts st gp.1 gp.2 u us (Node.uri i) [] huu hieq
  have hnota : getProp b.identifier "notation" = some rrn := by
    rw [hinot, show nodeObjs st gp.1 (Node.uri i) skosNotationP =
      objsOf st gp.1 i skosNotationP from rfl, hinota]
    rfl
  have hiCand : i ∈ candIs st rrn := List.mem_flatMap.mpr ⟨gp, hgp, himem⟩
  have hpsmem : gp.2 ∈ candPs st rrn := List.mem_map_of_mem _ hgp
  have hbirthFact : b.birthdate = none ∨ ∃ br bu, b.birthdate = some br ∧
      getProp br "uri" = some bu ∧ ¬ bu = "" ∧ bu ∈ candBs st rrn := by
    cases hbh : (objsOf st gp.1 gp.2 persoonHeeftGeboorte).head? with
    | none => exact Or.inl (hbnone hbh)
    | some bn =>
      obtain ⟨brec, hbrec, hbru⟩ := hbsome bn hbh
      have hbmem : bn ∈ (objsOf st gp.1 gp.2 persoonHeeftGeboorte).head?.toList := by
        rw [hbh]
        simp
      obtain ⟨bu, hbumem, hbneq, hbune⟩ := hbirthW bn hbmem
      have hval : bn.val = bu := by
        rw [hbneq]
        rfl
      refine Or.inr ⟨brec, bu, hbrec, ?_, hbune,
        List.mem_flatMap.mpr ⟨gp, hgp, hbumem⟩⟩
      rw [hbru, hval]
  refine ⟨b, hgb, ⟨hbg, hpu, hpsmem, ⟨i, hiu, hiCand⟩, ?_⟩,
    ⟨u.val, hpuuid, hune⟩, (hPs gp.2 hpsmem).1, ⟨i, hiu, hine, hiCand⟩, hnota,
    hbirthFact⟩
  rcases hbirthFact with h | ⟨br, bu, h1, h2, h3, h4⟩
  · exact Or.inl h
  · exact Or.inr ⟨br, bu, h1, h2, h4⟩

/-- filterMap id cancels a map of some. -/
theorem filterMap_id_map_proj {α β : Type} (f : α → β) (l : List α) :
    (l.map fun a => some (f a)).filterMap id = l.map f := by
  induction l with
  | nil => rfl
  | cons a l ih => simp only [List.map_cons, List.filterMap_cons, id, ih]

/-- The merge target value of a property that is truthy on the first
resource: the head wins. -/
theorem firstTruthyValue_proj {α : Type} (f : α → Rec) {b0 : α} {rest : List α}
    {p v : String} (hv : getProp (f b0) p = some v) (hne : ¬ v = "")
    (props : List String) (hp : p ∈ props) :
    firstTruthyValue ((b0 :: rest).map fun b => some (f b)) props p = some v := by
  unfold firstTruthyValue
  rw [if_pos hp, filterMap_id_map_proj, List.map_cons,
    List.find?_cons_of_pos (List.map f rest)
      (show (fun s => truthyProp s p) (f b0) = true from
        truthyProp_iff.mpr ⟨v, hv, hne⟩)]
  simp [hv]

/-- A defined merged attribute forces a present record. -/
theorem optGetProp_some {o : Option Rec} {p v : String}
    (h : optGetProp o p = some v) : ∃ r, o = some r ∧ getProp r p = some v := by
  cases o with
  | none => exact absurd h (by simp [optGetProp])
  | some r => exact ⟨r, rfl, by simpa [optGetProp] using h⟩

/-- The full invariant of a successful live run on a well-formed store
with at least two candidates: the master adopts the first candidate's
person URI, the role facts hold, the rewrite-loop invariant holds at the
final store with every candidate processed, and the first rewrite block
inserts the master's self equivalence link. -/
theorem run_invariant (st : Store) (rrn : String)
    (hWF : WellFormed st rrn)
    (hlen : 1 < (getDuplicatePersonUris st rrn).length)
    {m? : Option Master} {ops : List StoreOp}
    (hrun : reconciliatePersonRun st rrn false = .ok (m?, ops)) :
    ∃ gp1 P1 I1 B1? m,
      (getDuplicatePersonUris st rrn).head? = some gp1 ∧ P1 = gp1.2 ∧
      m? = some m ∧
      Roles st rrn P1 I1 B1? (candPs st rrn) (candIs st rrn) (candBs st rrn) ∧
      RunInv st rrn P1 I1 B1? (candPs st rrn) (candIs st rrn) (candBs st rrn)
        (getDuplicatePersonUris st rrn) (applyOps st ops) ∧
      StoreOp.insertSameAs gp1.1 P1 gp1.2 ∈ ops := by
  have hrrnne : ¬ rrn = "" := hWF.1
  obtain hbad | ⟨-, m, hm?, hcm, hall⟩ := run_live_parts hrun
  · exact absurd hlen hbad.1
  obtain ⟨xs, hxs1, hxs2, hxs3⟩ := pick_bundles _ (cand_bundle_facts hWF)
  rw [hxs2] at hcm hall
  cases xs with
  | nil =>
    rw [← hxs1] at hlen
    exact absurd hlen (by simp)
  | cons x0 xrest =>
  obtain ⟨hSF0, ⟨u0, hu0, hu0ne⟩, hp0ne, ⟨i0, hiu0, hi0ne, hi0c⟩, hnota0, hbf0⟩ :=
    hxs3 x0 (List.mem_cons_self x0 xrest)
  obtain ⟨m2, hm2eq, hmid, hmbd, hmpnone, hmpprops⟩ :=
    constructMaster_map_some ((x0 :: xrest).map fun x => x.2)
  have hm2 : m2 = m := by
    rw [hm2eq] at hcm
    exact Except.ok.inj hcm
  rw [hm2] at hmid hmbd hmpnone hmpprops
  have huriP : optGetProp m.person "uri" = some x0.1.2 := by
    rw [hmpprops "uri" (by decide)]
    rw [show ((x0 :: xrest).map fun x => x.2).map (fun b => some b.person) =
      (x0 :: xrest).map fun x => some x.2.person by simp]
    exact firstTruthyValue_proj (fun x : (String × String) × Bundle => x.2.person) hSF0.2.1 hp0ne personProps (by decide)
  obtain ⟨mp, hmp, hmpu⟩ := optGetProp_some huriP
  have huuidP : optGetProp m.person "uuid" = some u0 := by
    rw [hmpprops "uuid" (by decide)]
    rw [show ((x0 :: xrest).map fun x => x.2).map (fun b => some b.person) =
      (x0 :: xrest).map fun x => some x.2.person by simp]
    exact firstTruthyValue_proj (fun x : (String × String) × Bundle => x.2.person) hu0 hu0ne personProps (by decide)
  have hmpuuid : getProp mp "uuid" = some u0 := by
    rw [hmp] at huuidP
    simpa [optGetProp] using huuidP
  have huriI : optGetProp m.identifier "uri" = some i0 := by
    rw [hmid, optGetProp_constructMasterForResource]
    rw [show ((x0 :: xrest).map fun x => x.2).map (fun b => some b.identifier) =
      (x0 :: xrest).map fun x => some x.2.identifier by simp]
    exact firstTruthyValue_proj (fun x : (String × String) × Bundle => x.2.identifier) hiu0 hi0ne identifierProps (by decide)
  obtain ⟨mi, hmi, hmiu⟩ := optGetProp_some huriI
  have hnotaI : optGetProp m.identifier "notation" = some rrn := by
    rw [hmid, optGetProp_constructMasterForResource]
    rw [show ((x0 :: xrest).map fun x => x.2).map (fun b => some b.identifier) =
      (x0 :: xrest).map fun x => some x.2.identifier by simp]
    exact firstTruthyValue_proj (fun x : (String × String) × Bundle => x.2.identifier) hnota0 hrrnne identifierProps (by decide)
  have hmin : getProp mi "notation" = some rrn := by
    rw [hmi] at hnotaI
    simpa [optGetProp] using hnotaI
  have hlinks := constructMaster_person_links ((x0 :: xrest).map fun x => x.2) m mp
    hcm hmp
  have hmpid : getProp mp "identifier" = some i0 := by
    rw [hlinks.1, hmi, Option.some_bind, hmiu]
  simp only [List.map_cons] at hall
  have hall2 := hall
  simp only [allSlaveOps] at hall2
  obtain ⟨ops1, hops1, hrest2⟩ := exceptBind_eq_ok hall2
  obtain ⟨more, hmore, hpure2⟩ := exceptBind_eq_ok hrest2
  rw [exceptPure, Except.ok.injEq] at hpure2
  have hts : ∃ ts, masterTriplesE m = .ok ts := by
    cases hmt : masterTriplesE m with
    | ok ts => exact ⟨ts, rfl⟩
    | error e =>
      simp only [replaceSlaveWithMasterOps, hSF0.2.1, requireSome, exceptBindOk,
        hmt, exceptBindErr] at hops1
      exact Except.noConfusion hops1
  have hmb : (m.birthdate = none ∧
        (m.birthdate.bind fun mb => getProp mb "uri") = none) ∨
      (∃ mb B1, m.birthdate = some mb ∧ getProp mb "uri" = some B1 ∧
        (m.birthdate.bind fun mb => getProp mb "uri") = some B1 ∧
        ¬ B1 = "" ∧ B1 ∈ candBs st rrn) := by
    cases hmbcase : m.birthdate with
    | none => exact Or.inl ⟨rfl, rfl⟩
    | some mb =>
      obtain ⟨ts, hts⟩ := hts
      obtain ⟨v, hv⟩ := masterTriplesE_ok_birth hts hmbcase
      have hvfacts : ¬ v = "" ∧ v ∈ candBs st rrn := by
        have hfb : optGetProp m.birthdate "uri" = some v := by
          rw [hmbcase]
          simpa [optGetProp] using hv
        rw [hmbd, optGetProp_constructMasterForResource] at hfb
        unfold firstTruthyValue at hfb
        rw [if_pos (by decide : "uri" ∈ birthdateProps)] at hfb
        obtain ⟨r, hfind, hrv⟩ := Option.bind_eq_some.mp hfb
        have hrmem := List.mem_of_find?_eq_some hfind
        obtain ⟨o, homem, hoeq⟩ := List.mem_filterMap.mp hrmem
        obtain ⟨b2, hb2mem, hb2eq⟩ := List.mem_map.mp homem
        obtain ⟨x2, hx2mem, hx2eq⟩ := List.mem_map.mp hb2mem
        have hx2b : x2.2.birthdate = some r := by
          rw [hx2eq, hb2eq]
          simpa using hoeq
        obtain ⟨-, -, -, -, -, hbfx2⟩ := hxs3 x2 hx2mem
        rcases hbfx2 with hx2n | ⟨br, bu, hbr, hbu, hbune, hbuc⟩
        · rw [hx2n] at hx2b
          exact absurd hx2b (by simp)
        · rw [hbr] at hx2b
          have hbrr : br = r := Option.some.inj hx2b
          subst hbrr
          have hvb : v = bu := by
            rw [hrv] at hbu
            exact Option.some.inj hbu
          subst hvb
          exact ⟨hbune, hbuc⟩
      exact Or.inr ⟨mb, v, rfl, hv,
        by rw [Option.some_bind, hv], hvfacts.1, hvfacts.2⟩
  have hx01cands : x0.1 ∈ getDuplicatePersonUris st rrn := by
    rw [← hxs1]
    exact List.mem_map_of_mem _ (List.mem_cons_self x0 xrest)
  obtain ⟨hrrn, hcand, hPs, hIs, hBs, hW6, hW7, hW8⟩ := hWF
  have R : Roles st rrn x0.1.2 i0 (m.birthdate.bind fun mb => getProp mb "uri")
      (candPs st rrn) (candIs st rrn) (candBs st rrn) := by
    refine ⟨List.mem_map_of_mem _ hx01cands, hi0c, ?_, ?_, ?_, ?_, ?_, ?_, ?_,
      ?_, ?_, ?_, ?_⟩
    · intro b1 hB
      rcases hmb with ⟨-, hnone⟩ | ⟨mb, B1, -, -, hBeq, -, hBc⟩
      · rw [hnone] at hB
        exact absurd hB (by simp)
      · rw [hBeq] at hB
        rw [← Option.some.inj hB]
        exact hBc
    · exact fun p hp => (hPs p hp).2.2.1
    · exact fun p hp => (hPs p hp).2.2.2
    · exact fun i hi => (hIs i hi).2
    · exact fun p hp => (hPs p hp).2.1
    · exact fun i hi => (hIs i hi).1
    · exact hBs
    · exact fun g x hx hmem => (hW6 _ hmem rfl rfl).1 hx
    · exact fun g x hx hmem => (hW6 _ hmem rfl rfl).2 hx
    · exact fun g x hx hmem => (hW7 _ hmem rfl rfl).1 hx
    · exact fun g x hx hmem => (hW7 _ hmem rfl rfl).2 hx
  have hmbForm : (m.birthdate = none ∧
        (m.birthdate.bind fun mb => getProp mb "uri") = none) ∨
      (∃ mb B1, m.birthdate = some mb ∧ getProp mb "uri" = some B1 ∧
        (m.birthdate.bind fun mb => getProp mb "uri") = some B1) := by
    rcases hmb with ⟨h1, h2⟩ | ⟨mb, B1, h1, h2, h3, -, -⟩
    · exact Or.inl ⟨h1, h2⟩
    · exact Or.inr ⟨mb, B1, h1, h2, h3⟩
  have hInit : RunInv st rrn x0.1.2 i0
      (m.birthdate.bind fun mb => getProp mb "uri")
      (candPs st rrn) (candIs st rrn) (candBs st rrn) [] st := by
    refine ⟨?_, ?_, ?_, fun g X h => Or.inl h, fun g X h => Or.inl h,
      fun g X iu _ _ _ h => Or.inl h⟩
    · intro gp h
      exact absurd h (List.not_mem_nil gp)
    · intro gp h
      exact absurd h (List.not_mem_nil gp)
    · intro gp h
      exact absurd h (List.not_mem_nil gp)
  have hmbBlocks : (m.birthdate = none ∧
        (m.birthdate.bind fun mb => getProp mb "uri") = none) ∨
      (∃ mb B1, m.birthdate = some mb ∧ getProp mb "uri" = some B1 ∧
        (m.birthdate.bind fun mb => getProp mb "uri") = some B1) := hmbForm
  have hfinal := blocks_inv R hmp hmpu ⟨u0, hmpuuid⟩ hmpid hi0ne hmi hmiu hmin
    hrrnne hmbBlocks (x0 :: xrest) [] st ops
    (fun x hx => (hxs3 x hx).1)
    (fun x hx h => absurd h (List.not_mem_nil x.1))
    (by rw [hxs1]; exact nodup_getDuplicatePersonUris st rrn)
    (fun y hy => absurd hy (List.not_mem_nil y))
    hall hInit
  rw [List.nil_append, hxs1] at hfinal
  have hop : StoreOp.insertSameAs x0.1.1 x0.1.2 x0.1.2 ∈ ops := by
    have h := sameAs_op_mem hops1 hSF0.2.1 hmp hmpu
    rw [hSF0.1] at h
    rw [← hpure2]
    exact List.mem_append_left more h
  refine ⟨x0.1, x0.1.2, i0, m.birthdate.bind fun mb => getProp mb "uri", m,
    ?_, rfl, hm?, R, hfinal, hop⟩
  rw [← hxs1]
  simp

/-- Consequences of a successful live run on a well-formed store: the
master person URI is the first candidate's; it is the unique key-patterned
person of the final store; it carries the pattern in every contributing
graph; every other slave's outgoing triples reduce to the equivalence
link; every slave, master included, carries the link; and the first block
inserted the master's self link. -/
theorem final_uniqueness (st : Store) (rrn : String)
    (hWF : WellFormed st rrn)
    (hlen : 1 < (getDuplicatePersonUris st rrn).length)
    {m? : Option Master} {ops : List StoreOp}
    (hrun : reconciliatePersonRun st rrn false = .ok (m?, ops)) :
    ∃ gp1 P1, (getDuplicatePersonUris st rrn).head? = some gp1 ∧ P1 = gp1.2 ∧
      (∀ g p, keyPatterned (applyOps st ops) g p rrn → p = P1) ∧
      (∀ gp ∈ getDuplicatePersonUris st rrn,
        keyPatterned (applyOps st ops) gp.1 P1 rrn) ∧
      (∀ gp ∈ getDuplicatePersonUris st rrn, ¬ gp.2 = P1 →
        ∀ pr o, Quad.mk gp.1 gp.2 pr o ∈ applyOps st ops ↔
          (pr = owlSameAs ∧ o = Node.uri P1)) ∧
      (∀ gp ∈ getDuplicatePersonUris st rrn,
        Quad.mk gp.1 gp.2 owlSameAs (Node.uri P1) ∈ applyOps st ops) ∧
      StoreOp.insertSameAs gp1.1 P1 gp1.2 ∈ ops := by
  obtain ⟨gp1, P1, I1, B1?, m, hhead, hP1eq, hm?, R, hInv, hop⟩ :=
    run_invariant st rrn hWF hlen hrun
  obtain ⟨hMP, hSG, hSL, hT, hN, hL⟩ := hInv
  have hne : getDuplicatePersonUris st rrn ≠ [] := by
    intro h
    rw [h] at hlen
    exact absurd hlen (by simp)
  obtain ⟨hrrn, hcand, hPs, hIs, hBs, hW6, hW7, hW8⟩ := hWF
  refine ⟨gp1, P1, hhead, hP1eq, ?_, ?_, ?_, ?_, hop⟩
  · intro g p hkp
    by_contra hpP1
    obtain ⟨htyped, I', hlink, hnot⟩ := hkp
    rcases hT g p htyped with hty0 | hpeq
    swap
    · exact hpP1 hpeq
    have hpIs : p ∉ candIs st rrn := (hW6 _ hty0 rfl rfl).1
    have hpBs : p ∉ candBs st rrn := (hW6 _ hty0 rfl rfl).2
    have hpI1 : ¬ p = I1 := fun he => hpIs (he ▸ R.hI1)
    have hpB1 : ∀ b1, B1? = some b1 → ¬ p = b1 :=
      fun b1 hb he => hpBs (he ▸ R.hB1 b1 hb)
    have hSGcontra : (g, p) ∈ getDuplicatePersonUris st rrn → False := by
      intro hmem
      have := (hSG (g, p) hmem hpP1 rdfType (Node.uri personPerson)).mp htyped
      exact absurd this.1 (by decide)
    rcases hL g p I' hpP1 hpI1 hpB1 hlink with hst | ⟨hIP, p2, hp2, hst⟩ |
      ⟨hII, i2, hi2, hst⟩ | ⟨b1, hb1, hIb, b2, hb2, hst⟩
    · rcases hN g I' hnot with hnst | hII1
      · exact hSGcontra (cands_complete hne ⟨hty0, I', hst, hnst⟩)
      · have hImem : I' ∈ candIs st rrn := by
          rw [hII1]
          exact R.hI1
        exact hSGcontra (hW8 _ hst rfl I' hImem rfl)
    · rcases hN g I' hnot with hnst | hII1
      · have hPmem : I' ∈ candPs st rrn := by
          rw [hIP]
          exact R.hP1
        exact absurd hPmem (hW7 _ hnst rfl rfl).1
      · have hIPs : I1 ∈ candPs st rrn := by
          rw [← hII1, hIP]
          exact R.hP1
        exact absurd R.hI1 (R.dPI _ hIPs)
    · exact hSGcontra (hW8 _ hst rfl i2 hi2 rfl)
    · rcases hN g I' hnot with hnst | hII1
      · have hBmem : I' ∈ candBs st rrn := by
          rw [hIb]
          exact R.hB1 b1 hb1
        exact absurd hBmem (hW7 _ hnst rfl rfl).2
      · have hIBs : I1 ∈ candBs st rrn := by
          rw [← hII1, hIb]
          exact R.hB1 b1 hb1
        exact absurd hIBs (R.dIB _ R.hI1)
  · intro gp hgp
    obtain ⟨h1, h2, h3⟩ := hMP gp hgp
    exact ⟨h1, I1, h2, h3⟩
  · intro gp hgp hgpP1 pr o
    exact hSG gp hgp hgpP1 pr o
  · intro gp hgp
    exact hSL gp hgp

/-- C1 (amended): for every candidate group of size at least two over a
well-formed store, after a successful non-dry-run reconcile(key) every
partition that contributed a slave contains exactly one identity whose
external identifier's notation equals the key - the master's, which is
the first candidate's person URI - and every original slave URI other
than the master has exactly one outgoing owl:sameAs link, pointing at the
master, in its own partition. -/
theorem c1_group_invariant (st : Store) (rrn : String)
    (hWF : WellFormed st rrn)
    (hlen : 1 < (getDuplicatePersonUris st rrn).length)
    (hok : ∃ r, reconciliatePersonRun st rrn false = .ok r) :
    ∃ P1, ((getDuplicatePersonUris st rrn).head?.map fun gp => gp.2) = some P1 ∧
      (∀ gp ∈ getDuplicatePersonUris st rrn, ∀ p,
        keyPatterned (runFinalStore st rrn) gp.1 p rrn ↔ p = P1) ∧
      (∀ gp ∈ getDuplicatePersonUris st rrn, ¬ gp.2 = P1 →
        ∀ o, Quad.mk gp.1 gp.2 owlSameAs o ∈ runFinalStore st rrn ↔
          o = Node.uri P1) := by
  obtain ⟨⟨m?, ops⟩, hrun⟩ := hok
  have hfs : runFinalStore st rrn = applyOps st ops := by
    unfold runFinalStore
    rw [hrun]
  obtain ⟨gp1, P1, hhead, hP1eq, huniq, hexist, hgone, hself, hop⟩ :=
    final_uniqueness st rrn hWF hlen hrun
  refine ⟨P1, ?_, ?_, ?_⟩
  · rw [hhead, hP1eq]
    rfl
  · intro gp hgp p
    rw [hfs]
    constructor
    · exact huniq gp.1 p
    · rintro rfl
      exact hexist gp hgp
  · intro gp hgp hne o
    rw [hfs]
    constructor
    · intro h
      exact ((hgone gp hgp hne owlSameAs o).mp h).2
    · intro h
      exact (hgone gp hgp hne owlSameAs o).mpr ⟨rfl, h⟩

/-- C1 counterexample to the unamended claim: when the key identifier
carries a second notation ahead of the key, the run succeeds, partition
g1 contributed a slave holding the only patterned identity, yet
afterwards g1 contains zero identities whose notation equals the key
instead of exactly one. -/
theorem c1_counterexample :
    (reconciliatePersonRun multiNotationStore "123" false).map
      (fun r => r.2.length) = .ok 16 ∧
    ("g1", "P1") ∈ getDuplicatePersonUris multiNotationStore "123" ∧
    keyPatternedPersons multiNotationStore "g1" "123" = ["P1"] ∧
    keyPatternedPersons (runFinalStore multiNotationStore "123") "g1" "123"
      = [] := by
  decide

/-- C1 witness: the spec scenario satisfies the well-formedness pack and
the amended invariant. -/
theorem c1_witness :
    WellFormed scenarioStore "123" ∧
    1 < (getDuplicatePersonUris scenarioStore "123").length ∧
    ∃ P1, ((getDuplicatePersonUris scenarioStore "123").head?.map
        fun gp => gp.2) = some P1 ∧
      (∀ gp ∈ getDuplicatePersonUris scenarioStore "123", ∀ p,
        keyPatterned (runFinalStore scenarioStore "123") gp.1 p "123" ↔ p = P1) ∧
      (∀ gp ∈ getDuplicatePersonUris scenarioStore "123", ¬ gp.2 = P1 →
        ∀ o, Quad.mk gp.1 gp.2 owlSameAs o ∈ runFinalStore scenarioStore "123" ↔
          o = Node.uri P1) :=
  ⟨by decide, by decide,
    c1_group_invariant scenarioStore "123" (by decide) (by decide) ⟨_, rfl⟩⟩

/-- C4 (amended): on a well-formed store, reconcile(key) is idempotent:
after a successful live run the resolver finds no candidate pair for the
key, a second run performs zero update calls and returns no master, the
duplicate key finder no longer reports the key, and the store is
unchanged by the second run. -/
theorem c4_idempotent (st : Store) (rrn : String)
    (hWF : WellFormed st rrn)
    (hlen : 1 < (getDuplicatePersonUris st rrn).length)
    (hok : ∃ r, reconciliatePersonRun st rrn false = .ok r) :
    getDuplicatePersonUris (runFinalStore st rrn) rrn = [] ∧
    reconciliatePersonRun (runFinalStore st rrn) rrn false = .ok (none, []) ∧
    rrn ∉ getDuplicateIdentificators (runFinalStore st rrn) ∧
    runFinalStore (runFinalStore st rrn) rrn = runFinalStore st rrn := by
  obtain ⟨⟨m?, ops⟩, hrun⟩ := hok
  have hfs : runFinalStore st rrn = applyOps st ops := by
    unfold runFinalStore
    rw [hrun]
  obtain ⟨gp1, P1, hhead, hP1eq, huniq, hexist, hgone, hself, hop⟩ :=
    final_uniqueness st rrn hWF hlen hrun
  have hnil : getDuplicatePersonUris (runFinalStore st rrn) rrn = [] := by
    rw [hfs]
    refine List.eq_nil_iff_forall_not_mem.mpr ?_
    intro x hx
    obtain ⟨g, p⟩ := x
    obtain ⟨hkp, h2, p2, hne2, hkp2⟩ := mem_getDuplicatePersonUris.mp hx
    exact hne2 ((huniq h2 p2 hkp2).trans (huniq g p hkp).symm)
  have hrun2 : reconciliatePersonRun (runFinalStore st rrn) rrn false =
      .ok (none, []) := by
    unfold reconciliatePersonRun
    rw [hnil]
    rfl
  refine ⟨hnil, hrun2, ?_, ?_⟩
  · intro hmem
    obtain ⟨-, g, p, h, p2, hnep, f1, f2⟩ :=
      mem_getDuplicateIdentificators.mp hmem
    rw [hfs] at f1 f2
    exact hnep ((huniq g p f1.1).trans (huniq h p2 f2.1).symm)
  · have hgen : ∀ s, reconciliatePersonRun s rrn false = .ok (none, []) →
        runFinalStore s rrn = s := by
      intro s hs
      unfold runFinalStore
      rw [hs]
      rfl
    exact hgen _ hrun2

/-- C4 counterexample to the unamended claim: when a foreign person links
to a candidate's identifier, the first run succeeds but leaves the key
duplicated, so the finder still reports it and a second run issues a
non-empty update list rather than zero mutations. -/
theorem c4_counterexample :
    (reconciliatePersonRun crossLinkedStore "123" false).map
      (fun r => r.2.length) = .ok 16 ∧
    "123" ∈ getDuplicateIdentificators (runFinalStore crossLinkedStore "123") ∧
    (reconciliatePersonRun (runFinalStore crossLinkedStore "123") "123" false).map
      (fun r => r.2.isEmpty) = .ok false := by
  decide

/-- C4 witness: idempotence on the spec scenario. -/
theorem c4_witness :
    WellFormed scenarioStore "123" ∧
    1 < (getDuplicatePersonUris scenarioStore "123").length ∧
    (getDuplicatePersonUris (runFinalStore scenarioStore "123") "123" = [] ∧
     reconciliatePersonRun (runFinalStore scenarioStore "123") "123" false =
       .ok (none, []) ∧
     "123" ∉ getDuplicateIdentificators (runFinalStore scenarioStore "123") ∧
     runFinalStore (runFinalStore scenarioStore "123") "123" =
       runFinalStore scenarioStore "123") :=
  ⟨by decide, by decide,
    c4_idempotent scenarioStore "123" (by decide) (by decide) ⟨_, rfl⟩⟩

/-- A candidate group of size two in one graph where the second
candidate's identifier link points at the first candidate's person URI,
which itself carries the key notation: the run succeeds, but the second
slave's identifier rewrite block moves the freshly inserted self link's
subject onto the master identifier URI. -/
def pathStore : Store := [
  Quad.mk "g" "P1" rdfType (Node.uri personPerson),
  Quad.mk "g" "P2" rdfType (Node.uri personPerson),
  Quad.mk "g" "P1" muUuid (Node.lit "u1"),
  Quad.mk "g" "P2" muUuid (Node.lit "u2"),
  Quad.mk "g" "P1" admsIdentifier (Node.uri "I1"),
  Quad.mk "g" "P2" admsIdentifier (Node.uri "P1"),
  Quad.mk "g" "I1" skosNotationP (Node.lit "123"),
  Quad.mk "g" "P1" skosNotationP (Node.lit "123")
]

/-- C10 (amended): in every successful live run on a well-formed group of
size at least two, the rewrite loop also processes the bundle whose URIs
the master adopted - the first candidate - so the emitted updates contain
an equivalence-link insert whose subject equals its object, and the
master identity carries a self-referencing owl:sameAs link in its
partition afterwards. -/
theorem c10_master_self_link (st : Store) (rrn : String)
    (hWF : WellFormed st rrn)
    (hlen : 1 < (getDuplicatePersonUris st rrn).length)
    (hok : ∃ r, reconciliatePersonRun st rrn false = .ok r) :
    ∃ gp1, (getDuplicatePersonUris st rrn).head? = some gp1 ∧
      (∀ m? ops, reconciliatePersonRun st rrn false = .ok (m?, ops) →
        StoreOp.insertSameAs gp1.1 gp1.2 gp1.2 ∈ ops) ∧
      Quad.mk gp1.1 gp1.2 owlSameAs (Node.uri gp1.2) ∈ runFinalStore st rrn := by
  obtain ⟨⟨m?, ops⟩, hrun⟩ := hok
  have hfs : runFinalStore st rrn = applyOps st ops := by
    unfold runFinalStore
    rw [hrun]
  obtain ⟨gp1, P1, hhead, hP1eq, huniq, hexist, hgone, hself, hop⟩ :=
    final_uniqueness st rrn hWF hlen hrun
  obtain ⟨t, hteq⟩ := head_eq_some_cons hhead
  have hgp1mem : gp1 ∈ getDuplicatePersonUris st rrn := by
    rw [hteq]
    exact List.mem_cons_self gp1 t
  rw [hP1eq] at hop
  refine ⟨gp1, hhead, ?_, ?_⟩
  · intro m2 ops2 hrun2
    rw [hrun] at hrun2
    have heq := Except.ok.inj hrun2
    have hops2 : ops = ops2 := congrArg Prod.snd heq
    exact hops2 ▸ hop
  · rw [hfs]
    have hsl := hself gp1 hgp1mem
    rw [hP1eq] at hsl
    exact hsl

/-- C10 counterexample to the unamended claim: on pathStore the run
succeeds with a size-two group, the self equivalence-link insert for the
master (subject equal to object) is among the emitted updates, yet the
quad (g, P1, owl:sameAs, P1) is not in the final store: the second
slave's identifier rewrite replaces its subject P1 with the master
identifier URI. -/
theorem c10_counterexample :
    (reconciliatePersonRun pathStore "123" false).map
      (fun r => r.2.length) = .ok 16 ∧
    ((reconciliatePersonRun pathStore "123" false).map
      (fun r => decide (StoreOp.insertSameAs "g" "P1" "P1" ∈ r.2))) = .ok true ∧
    (getDuplicatePersonUris pathStore "123").head? = some ("g", "P1") ∧
    1 < (getDuplicatePersonUris pathStore "123").length ∧
    Quad.mk "g" "P1" owlSameAs (Node.uri "P1") ∉ runFinalStore pathStore "123" := by
  decide

/-- C10 witness: the master's self equivalence link on the spec
scenario. -/
theorem c10_witness :
    WellFormed scenarioStore "123" ∧
    1 < (getDuplicatePersonUris scenarioStore "123").length ∧
    ∃ gp1, (getDuplicatePersonUris scenarioStore "123").head? = some gp1 ∧
      (∀ m? ops, reconciliatePersonRun scenarioStore "123" false =
          .ok (m?, ops) →
        StoreOp.insertSameAs gp1.1 gp1.2 gp1.2 ∈ ops) ∧
      Quad.mk gp1.1 gp1.2 owlSameAs (Node.uri gp1.2) ∈
        runFinalStore scenarioStore "123" :=
  ⟨by decide, by decide,
    c10_master_self_link scenarioStore "123" (by decide) (by decide) ⟨_, rfl⟩⟩
